import Mathlib

/-!
Verification of the `doit` mutation-tracking store engine
(`packages/engine/src/index.ts`).

Modeling conventions for the shallow embedding:
* JS values are modeled by `Value`.  JS numbers are modeled as integers
  (`Int`); non-integer numerics (fractions, exponent forms, NaN,
  Infinity) are outside the model, and no claim depends on them.
* JS objects are association lists in insertion order; real JS objects
  never carry duplicate keys, so well-formed trees have distinct keys.
* JS arrays are `List Value`; array holes are conflated with `undef`,
  and named (non-index) array properties are not representable — writes
  to them are dropped by the model.
* The engine mutates in place; the model is functional.  All operations
  return the updated tree.  History payloads are structural copies, so
  the reference-aliasing hazards noted in the spec's design notes are
  outside the model (no claim quantifies over interleavings where they
  matter).
* Thrown exceptions (the code runs in strict mode, as an ES module) are
  modeled by an error flag: read-only walks return `Except Unit _`, and
  mutating walks return `Value × Bool` where the `Bool` records that a
  `TypeError`/`RangeError` escaped (mutations already performed are kept,
  as in JS).
-/

namespace DoItModel

/-- A JS value tree: `undefined`, `null`, booleans, (integer) numbers,
strings, objects (insertion-ordered fields) and arrays. -/
inductive Value where
  | undef : Value
  | null : Value
  | bool : Bool → Value
  | num : Int → Value
  | str : String → Value
  | obj : List (String × Value) → Value
  | arr : List Value → Value


/-- `PathToken` from the source: `key`, `index`, or `filter` (whose
`value` is `any` in the source; the parser only produces numbers and
strings there). -/
inductive PathToken where
  | key : String → PathToken
  | index : Nat → PathToken
  | filter : (key : String) → (value : Value) → PathToken


/-- `Operation` from the source: `set`, `delete`, `batch`. -/
inductive Operation where
  | set : (path : String) → (value : Value) → Operation
  | delete : (path : String) → Operation
  | batch : (ops : List Operation) → Operation


/-- `HistoryEntry` from the source. -/
structure HistoryEntry where
  undo : Operation
  redo : Operation


/- ### Characters and digits -/

/-- Characters that terminate a key run in `PATH_REGEX`
(`[^\.\[\]]+`): dot and both brackets. -/
def isPathStop (c : Char) : Bool := c = '.' || c = '[' || c = ']'


/-- ASCII decimal digit (regex `\d`). -/
def isDigitChar (c : Char) : Bool := '0' ≤ c && c ≤ '9'


/-- Regex `\w`: ASCII letters, digits, underscore. -/
def isWordChar (c : Char) : Bool :=
  ('a' ≤ c && c ≤ 'z') || ('A' ≤ c && c ≤ 'Z') || isDigitChar c || c = '_'


/-- JS whitespace accepted (and trimmed) by `Number(...)`; the common
ASCII forms suffice for the model. -/
def isJsWs (c : Char) : Bool := c = ' ' || c = '\t' || c = '\n' || c = '\r'


/-- Numeric value of a big-endian decimal digit string. -/
def natOfDigits (cs : List Char) : Nat :=
  cs.foldl (fun a c => 10 * a + (c.toNat - 48)) 0


/-- The decimal digit character for `d < 10`. -/
def digitChar (d : Nat) : Char :=
  match d with
  | 0 => '0' | 1 => '1' | 2 => '2' | 3 => '3' | 4 => '4'
  | 5 => '5' | 6 => '6' | 7 => '7' | 8 => '8' | _ => '9'


/-- Canonical decimal rendering of a natural number (JS `String(n)` for
non-negative integers). -/
def natToDigitList (n : Nat) : List Char :=
  if n = 0 then ['0'] else ((Nat.digits 10 n).reverse.map digitChar)


/-- `String(n)` for a natural number. -/
def natRepr (n : Nat) : String := String.mk (natToDigitList n)


/-- `String(n)` for an integer. -/
def intRepr (n : Int) : String :=
  if n < 0 then "-" ++ natRepr n.natAbs else natRepr n.natAbs


/-- Strip JS whitespace from both ends (what `Number(...)` does before
parsing). -/
def jsTrim (cs : List Char) : List Char :=
  ((cs.dropWhile isJsWs).reverse.dropWhile isJsWs).reverse


/-- JS `Number(s)` restricted to the integer model: optional
whitespace, optional sign, decimal digits.  `Number('')` is `0`.
`none` models `NaN` (hex/fractional/exponent forms are outside the
integer model). -/
def jsToNumber (s : String) : Option Int :=
  match jsTrim s.data with
  | [] => some 0
  | '-' :: ds =>
    if ds ≠ [] && ds.all isDigitChar then some (-(natOfDigits ds : Int)) else none
  | '+' :: ds =>
    if ds ≠ [] && ds.all isDigitChar then some ((natOfDigits ds : Int)) else none
  | ds =>
    if ds ≠ [] && ds.all isDigitChar then some ((natOfDigits ds : Int)) else none


/- ### The path parser (`parsePath`, `PATH_REGEX`)

`PATH_REGEX = /([^\.\[\]]+)|\[(\d+)\]|\[(\w+):([^\]]+)\]/g` scanned with
`exec`: at each position the three alternatives are tried in order and
on failure the scan advances one character. -/

/-- Try `\[(\d+)\]` starting just after a `[`: a nonempty digit run
followed by `]`.  Returns the index and the remaining input. -/
def tryIndex (cs : List Char) : Option (Nat × List Char) :=
  match cs.takeWhile isDigitChar, cs.dropWhile isDigitChar with
  | [], _ => none
  | ds@(_ :: _), ']' :: rest => some (natOfDigits ds, rest)
  | _, _ => none


/-- The filter-value coercion from `parsePath`: numeric strings become
numbers; else matching single or double quotes are stripped; else the
literal string. -/
def coerceFilterValue (body : List Char) : Value :=
  match jsToNumber (String.mk body) with
  | some n => Value.num n
  | none =>
    if (body.head? = some '\'' && body.getLast? = some '\'') ||
        (body.head? = some '"' && body.getLast? = some '"') then
      Value.str (String.mk (body.drop 1).dropLast)
    else Value.str (String.mk body)


/-- Try `\[(\w+):([^\]]+)\]` starting just after a `[`: a nonempty word
run, `:`, a nonempty `]`-free run, `]`. -/
def tryFilter (cs : List Char) : Option (PathToken × List Char) :=
  match cs.takeWhile isWordChar, cs.dropWhile isWordChar with
  | [], _ => none
  | w@(_ :: _), ':' :: cs2 =>
    match cs2.takeWhile (fun c => c ≠ ']'), cs2.dropWhile (fun c => c ≠ ']') with
    | [], _ => none
    | body@(_ :: _), ']' :: rest =>
      some (PathToken.filter (String.mk w) (coerceFilterValue body), rest)
    | _, _ => none
  | _, _ => none


/-- One regex scan step per fuel unit; fuel at least the input length
makes the fuel bound unreachable (each step consumes ≥ 1 char). -/
def parseGo : Nat → List Char → List PathToken
  | 0, _ => []
  | _ + 1, [] => []
  | f + 1, c :: rest =>
    if c = '[' then
      match tryIndex rest with
      | some (n, rem) => PathToken.index n :: parseGo f rem
      | none =>
        match tryFilter rest with
        | some (t, rem) => t :: parseGo f rem
        | none => parseGo f rest
    else if c = '.' || c = ']' then parseGo f rest
    else
      PathToken.key (String.mk ((c :: rest).takeWhile (fun d => !isPathStop d)))
        :: parseGo f ((c :: rest).dropWhile (fun d => !isPathStop d))


/-- `parsePath` from the source. -/
def parsePath (path : String) : List PathToken :=
  parseGo path.data.length path.data


/- ### `reconstructPath` -/

mutual

/-- JS `String(value)`: arrays join their element displays with `,`,
rendering `null`/`undefined` elements as empty. -/
def jsDisplay : Value → String
  | Value.undef => "undefined"
  | Value.null => "null"
  | Value.bool b => if b then "true" else "false"
  | Value.num n => intRepr n
  | Value.str s => s
  | Value.obj _ => "[object Object]"
  | Value.arr xs => jsDisplayElems xs

/-- Comma-joined array element displays (`Array.prototype.toString`). -/
def jsDisplayElems : List Value → String
  | [] => ""
  | [Value.undef] => ""
  | [Value.null] => ""
  | [x] => jsDisplay x
  | Value.undef :: y :: rest => "," ++ jsDisplayElems (y :: rest)
  | Value.null :: y :: rest => "," ++ jsDisplayElems (y :: rest)
  | x :: y :: rest => jsDisplay x ++ "," ++ jsDisplayElems (y :: rest)

end

/-- Rendering of one filter value in `reconstructPath`: strings are
wrapped in double quotes, anything else is displayed (`String(...)` by
template interpolation). -/
def filterValRepr (v : Value) : String :=
  match v with
  | Value.str s => "\"" ++ s ++ "\""
  | w => jsDisplay w


/-- Rendering of the first token (index 0: keys get no leading dot). -/
def tokenReprHead : PathToken → String
  | PathToken.key v => v
  | PathToken.index n => "[" ++ natRepr n ++ "]"
  | PathToken.filter k v => "[" ++ k ++ ":" ++ filterValRepr v ++ "]"


/-- Rendering of a later token (index > 0: keys get a leading dot). -/
def tokenReprTail : PathToken → String
  | PathToken.key v => "." ++ v
  | t => tokenReprHead t


/-- Serialization of tokens at positions `> 0`. -/
def reconstructTail : List PathToken → String
  | [] => ""
  | t :: ts => tokenReprTail t ++ reconstructTail ts


/-- `reconstructPath` from the source (the `map`-with-index plus
`join('')` written as a direct recursion). -/
def reconstructPath : List PathToken → String
  | [] => ""
  | t :: ts => tokenReprHead t ++ reconstructTail ts


/- ### Object / array primitives -/

/-- `current[k]` on an object (own-property lookup; `undefined` when
absent). -/
def objGet : List (String × Value) → String → Value
  | [], _ => Value.undef
  | (k0, v) :: t, k => if k0 = k then v else objGet t k


/-- `k in current` for a plain object. -/
def objHas : List (String × Value) → String → Bool
  | [], _ => false
  | (k0, _) :: t, k => k0 = k || objHas t k


/-- `current[k] = w` on an object: overwrite in place, else append
(JS property insertion order). -/
def objSet : List (String × Value) → String → Value → List (String × Value)
  | [], k, w => [(k, w)]
  | (k0, v) :: t, k, w => if k0 = k then (k0, w) :: t else (k0, v) :: objSet t k w


/-- `delete current[k]` on an object. -/
def objRemove : List (String × Value) → String → List (String × Value)
  | [], _ => []
  | (k0, v) :: t, k => if k0 = k then t else (k0, v) :: objRemove t k


/-- A string property key that is a canonical array index
(`"0"`, `"17"`, … — the decimal rendering of its numeric value). -/
def canonIdx (k : String) : Option Nat :=
  let cs := k.data
  if cs ≠ [] && cs.all isDigitChar && natToDigitList (natOfDigits cs) = cs then
    some (natOfDigits cs)
  else none


/-- `xs[i] = w` on an array: in range overwrites; past the end JS pads
with holes (conflated with `undef`). -/
def arrSetPad (xs : List Value) (i : Nat) (w : Value) : List Value :=
  if i < xs.length then xs.set i w
  else xs ++ List.replicate (i - xs.length) Value.undef ++ [w]


/-- `arr.length = n`: truncate or pad with holes (`undef`). -/
def arrResize (xs : List Value) (n : Nat) : List Value :=
  if n ≤ xs.length then xs.take n
  else xs ++ List.replicate (n - xs.length) Value.undef


/-- `splice(i, 1)`: remove the element at `i` when in range. -/
def arrRemoveAt (xs : List Value) (i : Nat) : List Value := xs.eraseIdx i


/-- JS truthiness (no NaN in the integer model). -/
def truthy : Value → Bool
  | Value.undef => false
  | Value.null => false
  | Value.bool b => b
  | Value.num n => n ≠ 0
  | Value.str s => s ≠ ""
  | Value.obj _ => true
  | Value.arr _ => true


/-- `typeof x === 'object'` (true for objects, arrays and `null`). -/
def typeofObject : Value → Bool
  | Value.null => true
  | Value.obj _ => true
  | Value.arr _ => true
  | _ => false


/-- Total property read `current[k]`; `null`/`undefined` bases are the
callers' responsibility (JS would throw there), strings expose `length`
and their characters, other primitives read as `undefined`. -/
def jsGetMemberT : Value → String → Value
  | Value.obj fs, k => objGet fs k
  | Value.arr xs, k =>
    if k = "length" then Value.num xs.length
    else
      match canonIdx k with
      | some i => xs.getD i Value.undef
      | none => Value.undef
  | Value.str s, k =>
    if k = "length" then Value.num s.data.length
    else
      match canonIdx k with
      | some i =>
        if h : i < s.data.length then Value.str (String.mk [s.data.get ⟨i, h⟩])
        else Value.undef
      | none => Value.undef
  | _, _ => Value.undef


/-- Property read `current[k]` as in JS: a `TypeError` on `null` /
`undefined` bases. -/
def jsGetMember (current : Value) (k : String) : Except Unit Value :=
  match current with
  | Value.undef => Except.error ()
  | Value.null => Except.error ()
  | v => Except.ok (jsGetMemberT v k)


/-- The `in` operator `k in current`: requires an object base
(a `TypeError` on any primitive); on arrays the own keys are the
in-range indices plus `length`. -/
def jsInOp (current : Value) (k : String) : Except Unit Bool :=
  match current with
  | Value.obj fs => Except.ok (objHas fs k)
  | Value.arr xs =>
    Except.ok (k = "length" ||
      (match canonIdx k with
       | some i => decide (i < xs.length)
       | none => false))
  | _ => Except.error ()


/-- `ToNumber(value)` in the integer model (`undefined`→NaN,
`null`→0, booleans→0/1, objects via `ToPrimitive` = their display
string). -/
def toNumericVal : Value → Option Int
  | Value.undef => none
  | Value.null => some 0
  | Value.bool b => some (if b then 1 else 0)
  | Value.num n => some n
  | Value.str s => jsToNumber s
  | v => jsToNumber (jsDisplay v)


/-- Property write `current[k] = w` (strict mode): throws on any
primitive base; `arr.length = w` resizes after numeric coercion or
throws a `RangeError`; a named (non-index) array property is outside
the list model and is dropped. -/
def jsSetMember (current : Value) (k : String) (w : Value) : Except Unit Value :=
  match current with
  | Value.obj fs => Except.ok (Value.obj (objSet fs k w))
  | Value.arr xs =>
    if k = "length" then
      match toNumericVal w with
      | some n => if 0 ≤ n then Except.ok (Value.arr (arrResize xs n.toNat)) else Except.error ()
      | none => Except.error ()
    else
      match canonIdx k with
      | some i => Except.ok (Value.arr (arrSetPad xs i w))
      | none => Except.ok (Value.arr xs)
  | _ => Except.error ()


/-- `delete current[k]` (strict mode): array/string index and `length`
properties are non-configurable on strings (and `length` on arrays), a
`TypeError`; `delete` on an array index leaves a hole (`undef`);
primitives otherwise succeed without effect; `null`/`undefined` bases
throw. -/
def jsDeleteMember (current : Value) (k : String) : Except Unit Value :=
  match current with
  | Value.obj fs => Except.ok (Value.obj (objRemove fs k))
  | Value.arr xs =>
    if k = "length" then Except.error ()
    else
      match canonIdx k with
      | some i => Except.ok (Value.arr (if i < xs.length then xs.set i Value.undef else xs))
      | none => Except.ok (Value.arr xs)
  | Value.str s =>
    if k = "length" || (match canonIdx k with
                        | some i => decide (i < s.data.length)
                        | none => false) then Except.error ()
    else Except.ok (Value.str s)
  | Value.undef => Except.error ()
  | Value.null => Except.error ()
  | v => Except.ok v


/-- `0`/`1` for a boolean (ToNumber). -/
def boolInt (b : Bool) : Int := if b then 1 else 0


/-- JS loose equality `==` on modeled values.  Objects/arrays against
each other use reference equality, which distinct modeled structures
never satisfy; against primitives they coerce via `ToPrimitive` (their
display string). -/
def jsLooseEq (x y : Value) : Bool :=
  match x, y with
  | Value.undef, Value.undef => true
  | Value.undef, Value.null => true
  | Value.null, Value.undef => true
  | Value.null, Value.null => true
  | Value.undef, _ => false
  | Value.null, _ => false
  | _, Value.undef => false
  | _, Value.null => false
  | Value.num a, Value.num b => a == b
  | Value.str a, Value.str b => a == b
  | Value.bool a, Value.bool b => a == b
  | Value.num a, Value.str s => jsToNumber s == some a
  | Value.str s, Value.num b => jsToNumber s == some b
  | Value.bool a, Value.num b => boolInt a == b
  | Value.num a, Value.bool b => a == boolInt b
  | Value.bool a, Value.str s => jsToNumber s == some (boolInt a)
  | Value.str s, Value.bool b => jsToNumber s == some (boolInt b)
  | Value.obj _, Value.obj _ => false
  | Value.obj _, Value.arr _ => false
  | Value.arr _, Value.obj _ => false
  | Value.arr _, Value.arr _ => false
  | Value.num a, y => toNumericVal y == some a
  | y, Value.num b => toNumericVal y == some b
  | Value.str s, y => s == jsDisplay y
  | y, Value.str s => jsDisplay y == s
  | Value.bool a, y => toNumericVal y == some (boolInt a)
  | y, Value.bool b => toNumericVal y == some (boolInt b)


/-- `Object.keys(b).includes(k)`: objects by field name, arrays by
in-range index keys (`length` is not enumerable). -/
def keyIncluded (b : Value) (k : String) : Bool :=
  match b with
  | Value.obj gs => objHas gs k
  | Value.arr ys =>
    match canonIdx k with
    | some i => decide (i < ys.length)
    | none => false
  | _ => false


/-- `b[k]` for the deep-equality walk (enumerable own keys only). -/
def keyGet (b : Value) (k : String) : Value :=
  match b with
  | Value.obj gs => objGet gs k
  | Value.arr ys =>
    match canonIdx k with
    | some i => ys.getD i Value.undef
    | none => Value.undef
  | _ => Value.undef


mutual

/-- `deepEqual` from the source: strict equality on primitives, then an
`Object.keys`-based comparison (which deliberately also relates objects
to arrays with matching index keys, as the code does). -/
def deepEqual : Value → Value → Bool
  | Value.undef, Value.undef => true
  | Value.null, Value.null => true
  | Value.bool a, Value.bool b => a == b
  | Value.num a, Value.num b => a == b
  | Value.str a, Value.str b => a == b
  | Value.obj fs, Value.obj gs => fs.length == gs.length && deepEqualFields fs (Value.obj gs)
  | Value.obj fs, Value.arr ys => fs.length == ys.length && deepEqualFields fs (Value.arr ys)
  | Value.arr xs, Value.obj gs => xs.length == gs.length && deepEqualElems 0 xs (Value.obj gs)
  | Value.arr xs, Value.arr ys => xs.length == ys.length && deepEqualElems 0 xs (Value.arr ys)
  | _, _ => false

/-- The `for (key of keysA)` loop of `deepEqual` when `a` is an
object. -/
def deepEqualFields : List (String × Value) → Value → Bool
  | [], _ => true
  | (k, v) :: t, b => keyIncluded b k && deepEqual v (keyGet b k) && deepEqualFields t b

/-- The `for (key of keysA)` loop of `deepEqual` when `a` is an array
(keys are the index strings). -/
def deepEqualElems : Nat → List Value → Value → Bool
  | _, [], _ => true
  | i, x :: t, b =>
    keyIncluded b (natRepr i) && deepEqual x (keyGet b (natRepr i)) && deepEqualElems (i + 1) t b

end

mutual

/-- `cloneValue` from the source: primitives as-is, arrays and objects
copied recursively (a structural deep copy — the identity on modeled
immutable values). -/
def cloneValue : Value → Value
  | Value.obj fs => Value.obj (cloneFields fs)
  | Value.arr xs => Value.arr (cloneElems xs)
  | v => v

/-- Field-wise clone (`for key in value` over own properties). -/
def cloneFields : List (String × Value) → List (String × Value)
  | [] => []
  | (k, v) :: t => (k, cloneValue v) :: cloneFields t

/-- Element-wise clone (`value.map(cloneValue)`). -/
def cloneElems : List Value → List Value
  | [] => []
  | v :: t => cloneValue v :: cloneElems t

end

/- ### The prober -/

/-- `probe`'s result record. -/
structure ProbeResult where
  exists? : Bool
  value : Value
  missingIndex : Int


/-- `current.find(item => item[k] == v)` with the element index: throws
when a `null`/`undefined` element is reached before the first match
(property access on it throws). -/
def jsFindEq (k : String) (v : Value) : List Value → Nat → Except Unit (Option (Nat × Value))
  | [], _ => Except.ok none
  | x :: t, i =>
    match x with
    | Value.undef => Except.error ()
    | Value.null => Except.error ()
    | x =>
      if jsLooseEq (jsGetMemberT x k) v then Except.ok (some (i, x))
      else jsFindEq k v t (i + 1)


/-- The walk of `probe`, carrying the current token index. -/
def probeGo (current : Value) (tokens : List PathToken) (i : Nat) : Except Unit ProbeResult :=
  match tokens with
  | [] => Except.ok ⟨true, current, -1⟩
  | tok :: rest =>
    match current with
    | Value.undef => Except.ok ⟨false, Value.undef, i⟩
    | Value.null => Except.ok ⟨false, Value.undef, i⟩
    | current =>
      match tok with
      | PathToken.key k =>
        match jsInOp current k with
        | Except.error _ => Except.error ()
        | Except.ok true => probeGo (jsGetMemberT current k) rest (i + 1)
        | Except.ok false => Except.ok ⟨false, Value.undef, i⟩
      | PathToken.index n =>
        match current with
        | Value.arr xs =>
          if n < xs.length then probeGo (xs.getD n Value.undef) rest (i + 1)
          else Except.ok ⟨false, Value.undef, i⟩
        | _ => Except.ok ⟨false, Value.undef, i⟩
      | PathToken.filter k v =>
        match current with
        | Value.arr xs =>
          match jsFindEq k v xs 0 with
          | Except.error _ => Except.error ()
          | Except.ok (some (_, item)) =>
            if truthy item then probeGo item rest (i + 1)
            else Except.ok ⟨false, Value.undef, i⟩
          | Except.ok none => Except.ok ⟨false, Value.undef, i⟩
        | _ => Except.ok ⟨false, Value.undef, i⟩


/-- `probe` from the source. -/
def probe (obj : Value) (tokens : List PathToken) : Except Unit ProbeResult :=
  probeGo obj tokens 0


/- ### The interpreter (`applyOperation`, `resolveNext`) -/

/-- Where a resolved child lives in its parent, so the functional model
can write the mutated child back (in JS the child is a shared
reference).  `lost` marks positions that hold primitives or are outside
the list model: JS mutations through them either throw or do not affect
the parent, and the model's write-back is dropped. -/
inductive Loc where
  | field : String → Loc
  | elem : Nat → Loc
  | lost : Loc


/-- The parent position `current[k]` resolves to. -/
def locOf (current : Value) (k : String) : Loc :=
  match current with
  | Value.obj _ => Loc.field k
  | Value.arr _ =>
    match canonIdx k with
    | some i => Loc.elem i
    | none => Loc.lost
  | _ => Loc.lost


/-- Install a mutated child back into its parent slot. -/
def writeLoc (cur : Value) (loc : Loc) (w : Value) : Value :=
  match loc, cur with
  | Loc.field k, Value.obj fs => Value.obj (objSet fs k w)
  | Loc.elem i, Value.arr xs => Value.arr (xs.set i w)
  | _, _ => cur


/-- `x === undefined`. -/
def isUndefV : Value → Bool
  | Value.undef => true
  | _ => false


/-- The shared `key`/`index` part of `resolveNext`: read `current[k]`,
materialize `{}` when the creation condition fires (`key` replaces any
non-object — `current[k] === undefined || typeof current[k] !== 'object'`
— while `index` only fills `undefined`), return the child and its
location.  Errors are JS `TypeError`/`RangeError`s. -/
def resolveMember (current : Value) (k : String) (createIfMissing replaceNonObject : Bool) :
    Value × Except Unit (Value × Loc) :=
  match jsGetMember current k with
  | Except.error _ => (current, Except.error ())
  | Except.ok child =>
    if createIfMissing &&
        (if replaceNonObject then !(typeofObject child) else isUndefV child) then
      match jsSetMember current k (Value.obj []) with
      | Except.error _ => (current, Except.error ())
      | Except.ok cur2 => (cur2, Except.ok (Value.obj [], locOf current k))
    else (current, Except.ok (child, locOf current k))


/-- `resolveNext` from the source.  The first component is the parent
(updated when creation mutated it), the second the resolved child and
its slot, or a thrown error.  The filter arm's `!found` test is on the
element's truthiness, so a falsy loosely-matching element counts as not
found: in creating mode a seed `{key: value}` is pushed, otherwise the
falsy element itself is returned (and the delete walk aborts on it). -/
def resolveNext (current : Value) (token : PathToken) (createIfMissing : Bool) :
    Value × Except Unit (Value × Loc) :=
  match token with
  | PathToken.key k => resolveMember current k createIfMissing true
  | PathToken.index n => resolveMember current (natRepr n) createIfMissing false
  | PathToken.filter k v =>
    match current with
    | Value.arr xs =>
      match jsFindEq k v xs 0 with
      | Except.error _ => (current, Except.error ())
      | Except.ok (some (i, item)) =>
        if truthy item then (current, Except.ok (item, Loc.elem i))
        else if createIfMissing then
          (Value.arr (xs ++ [Value.obj [(k, v)]]),
            Except.ok (Value.obj [(k, v)], Loc.elem xs.length))
        else (current, Except.ok (item, Loc.elem i))
      | Except.ok none =>
        if createIfMissing then
          (Value.arr (xs ++ [Value.obj [(k, v)]]),
            Except.ok (Value.obj [(k, v)], Loc.elem xs.length))
        else (current, Except.ok (Value.undef, Loc.lost))
    | _ => (current, Except.ok (Value.undef, Loc.lost))


/-- The truthiness-guarded find of the set branch for a trailing
filter: `current.find(item => item && item[k] == v)` (never throws). -/
def jsFindIdxTruthy (k : String) (v : Value) : List Value → Nat → Option Nat
  | [], _ => none
  | x :: t, i =>
    if truthy x && jsLooseEq (jsGetMemberT x k) v then some i
    else jsFindIdxTruthy k v t (i + 1)


/-- Own enumerable string-keyed entries copied by object spread
(`{...v}`) / `Object.assign` sources: object fields, array elements by
index key, string characters by index key, nothing for other
primitives. -/
def spreadEntries : Value → List (String × Value)
  | Value.obj fs => fs
  | Value.arr xs => xs.enum.map (fun p => (natRepr p.1, p.2))
  | Value.str s => s.data.enum.map (fun p => (natRepr p.1, Value.str (String.mk [p.2])))
  | _ => []


/-- Apply a list of key/value updates in order (the right-hand spread /
assign source wins). -/
def assocSetAll (base : List (String × Value)) : List (String × Value) → List (String × Value)
  | [] => base
  | (k, w) :: t => assocSetAll (objSet base k w) t


/-- `Object.assign(arr, src)`: index keys write elements, `length`
resizes (or throws a `RangeError` on bad coercion), named keys are
outside the list model and dropped. -/
def assignArr (xs : List Value) : List (String × Value) → Except Unit (List Value)
  | [] => Except.ok xs
  | (k, w) :: t =>
    if k = "length" then
      match toNumericVal w with
      | some n => if 0 ≤ n then assignArr (arrResize xs n.toNat) t else Except.error ()
      | none => Except.error ()
    else
      match canonIdx k with
      | some i => assignArr (arrSetPad xs i w) t
      | none => assignArr xs t


/-- `Object.assign(target, src)` for the targets the filter-set branch
can reach.  String targets throw a `TypeError` when `src` writes one of
their non-writable index/`length` properties; other primitive targets
are boxed and the result discarded (the element is unchanged). -/
def assignOnto (target : Value) (src : List (String × Value)) : Except Unit Value :=
  match target with
  | Value.obj gs => Except.ok (Value.obj (assocSetAll gs src))
  | Value.arr xs =>
    match assignArr xs src with
    | Except.ok xs2 => Except.ok (Value.arr xs2)
    | Except.error _ => Except.error ()
  | Value.str s =>
    if src.any (fun kv =>
        kv.1 = "length" ||
        (match canonIdx kv.1 with
         | some i => decide (i < s.data.length)
         | none => false)) then Except.error ()
    else Except.ok (Value.str s)
  | Value.undef => Except.error ()
  | Value.null => Except.error ()
  | v => Except.ok v


/-- The trailing-filter branch of the set interpreter, after the
element at `i` (`found`, by reference in JS) is found or seeded.  A map
value is `Object.assign`ed into the element (`null` assigns nothing);
any other value replaces the element with `{...found, ...value}`.  The
source replaces at `current.indexOf(found)`: that index is `i`, since
an earlier `===`-equal element would also have been truthy and
loosely-matched the filter, so `find` would have stopped there. -/
def applyFilterElem (xs : List Value) (i : Nat) (found : Value) (value : Value) : Value × Bool :=
  match value with
  | Value.obj fs =>
    match assignOnto found fs with
    | Except.ok e => (Value.arr (xs.set i e), false)
    | Except.error _ => (Value.arr xs, true)
  | Value.null => (Value.arr xs, false)
  | w => (Value.arr (xs.set i (Value.obj (assocSetAll (spreadEntries found) (spreadEntries w)))), false)


/-- The last-token step of the set interpreter. -/
def setLast (cur : Value) (tok : PathToken) (value : Value) : Value × Bool :=
  match tok with
  | PathToken.key k =>
    match jsSetMember cur k value with
    | Except.ok cur2 => (cur2, false)
    | Except.error _ => (cur, true)
  | PathToken.index n =>
    match jsSetMember cur (natRepr n) value with
    | Except.ok cur2 => (cur2, false)
    | Except.error _ => (cur, true)
  | PathToken.filter k fv =>
    match cur with
    | Value.arr xs =>
      match jsFindIdxTruthy k fv xs 0 with
      | some i => applyFilterElem xs i (xs.getD i Value.undef) value
      | none => applyFilterElem (xs ++ [Value.obj [(k, fv)]]) xs.length (Value.obj [(k, fv)]) value
    | _ => (cur, false)


/-- The `set` walk of `applyOperation`: resolve every token but the
last in creating mode, then assign.  An empty token list throws
(`tokens[-1].type`).  Mutations made before a throw are kept. -/
def setGo (cur : Value) (value : Value) : List PathToken → Value × Bool
  | [] => (cur, true)
  | [last] => setLast cur last value
  | tok :: r2 :: rs =>
    match resolveNext cur tok true with
    | (cur2, Except.error _) => (cur2, true)
    | (cur2, Except.ok (child, loc)) =>
      match setGo child value (r2 :: rs) with
      | (child2, threw) => (writeLoc cur2 loc child2, threw)


/-- The last-token step of the delete interpreter. -/
def deleteLast (cur : Value) (tok : PathToken) : Value × Bool :=
  match tok with
  | PathToken.key k =>
    match jsDeleteMember cur k with
    | Except.ok cur2 => (cur2, false)
    | Except.error _ => (cur, true)
  | PathToken.index n =>
    match cur with
    | Value.arr xs => (Value.arr (arrRemoveAt xs n), false)
    | _ => (cur, false)
  | PathToken.filter k fv =>
    match cur with
    | Value.arr xs =>
      match jsFindEq k fv xs 0 with
      | Except.error _ => (cur, true)
      | Except.ok (some (i, _)) => (Value.arr (arrRemoveAt xs i), false)
      | Except.ok none => (cur, false)
    | _ => (cur, false)


/-- The `delete` walk of `applyOperation`: resolve every token but the
last in non-creating mode, abort silently on a falsy intermediate
(`if (!current) return`), then remove. -/
def deleteGo (cur : Value) : List PathToken → Value × Bool
  | [] => (cur, true)
  | [last] => deleteLast cur last
  | tok :: r2 :: rs =>
    match resolveNext cur tok false with
    | (_, Except.error _) => (cur, true)
    | (_, Except.ok (child, loc)) =>
      if truthy child then
        match deleteGo child (r2 :: rs) with
        | (child2, threw) => (writeLoc cur loc child2, threw)
      else (cur, false)


mutual

/-- `applyOperation` from the source, as a function from the old tree
to the new tree plus a thrown-exception flag. -/
def applyOperation (obj : Value) : Operation → Value × Bool
  | Operation.batch ops => applyOps obj ops
  | Operation.delete path => deleteGo obj (parsePath path)
  | Operation.set path value => setGo obj value (parsePath path)

/-- `ops.forEach(op => applyOperation(obj, op))`: sequential, stopping
at a thrown exception. -/
def applyOps (obj : Value) : List Operation → Value × Bool
  | [] => (obj, false)
  | op :: rest =>
    match applyOperation obj op with
    | (v2, true) => (v2, true)
    | (v2, false) => applyOps v2 rest

end

/- ### The `DoIt` store

The path cache, listeners, persistence and the `getHistory` cache are
semantically inert (parsing is deterministic; persistence and listeners
are external collaborators); the model keeps the state, the two stacks,
the capacity, and a counter of `notify()` calls. -/

/-- The mutable fields of a `DoIt` instance that the claims concern. -/
structure DoItState where
  state : Value
  undoStack : List HistoryEntry
  redoStack : List HistoryEntry
  maxHistory : Nat
  notifyCount : Nat


/-- The constructor: `maxHistory = options.maxHistory || 100` (so an
explicit `0` also falls back to `100`). -/
def mkDoIt (initialState : Value) (maxHistoryOpt : Option Nat) : DoItState :=
  { state := initialState
    undoStack := []
    redoStack := []
    maxHistory := match maxHistoryOpt with
                  | some n => if n = 0 then 100 else n
                  | none => 100
    notifyCount := 0 }


/-- `push` then `if (length > maxHistory) shift()`: append at the top
(list end), evicting the oldest (list head) past capacity. -/
def pushEntry (stack : List HistoryEntry) (e : HistoryEntry) (maxH : Nat) : List HistoryEntry :=
  let s := stack ++ [e]
  if maxH < s.length then s.drop 1 else s


/-- The inverse synthesizer inside `DoIt.set`: a `Delete` of the path
truncated after the shallowest missing token
(`tokens.slice(0, missingIndex + 1)`) when the probe failed, else a
`Set` of a deep copy of the previous value. -/
def synthUndo (path : String) (tokens : List PathToken) (pr : ProbeResult) : Operation :=
  if pr.missingIndex ≠ -1 then
    Operation.delete (reconstructPath (tokens.take (pr.missingIndex + 1).toNat))
  else
    Operation.set path (cloneValue pr.value)


/-- `DoIt.set(path, value, internal)`.  Returns the updated instance
and either a thrown error, `none` for the duplicate short-circuit
(`return` with no value), or the synthesized `{undoOp, redoOp}` pair.
A throw inside `applyOperation` keeps the partial tree mutation and
skips the history push and notification. -/
def doitSet (s : DoItState) (path : String) (value : Value) (internal : Bool) :
    DoItState × Except Unit (Option (Operation × Operation)) :=
  match probe s.state (parsePath path) with
  | Except.error _ => (s, Except.error ())
  | Except.ok pr =>
    if pr.exists? && deepEqual pr.value value then (s, Except.ok none)
    else
      match applyOperation s.state (Operation.set path value) with
      | (tree2, true) => ({ s with state := tree2 }, Except.error ())
      | (tree2, false) =>
        if internal then
          ({ s with state := tree2 },
            Except.ok (some (synthUndo path (parsePath path) pr, Operation.set path value)))
        else
          ({ s with
             state := tree2
             undoStack := pushEntry s.undoStack
               ⟨synthUndo path (parsePath path) pr, Operation.set path value⟩ s.maxHistory
             redoStack := []
             notifyCount := s.notifyCount + 1 },
            Except.ok (some (synthUndo path (parsePath path) pr, Operation.set path value)))


/-- The callback body of `DoIt.batch`: the sub-`set` calls in order
(each `this.set(path, value, true)`), accumulating the produced
undo/redo pairs in call order; an exception aborts the run. -/
def batchGo (s : DoItState) : List (String × Value) →
    DoItState × List Operation × List Operation × Bool
  | [] => (s, [], [], false)
  | (p, v) :: rest =>
    match doitSet s p v true with
    | (s2, Except.error _) => (s2, [], [], true)
    | (s2, Except.ok none) => batchGo s2 rest
    | (s2, Except.ok (some (u, r))) =>
      match batchGo s2 rest with
      | (s3, us, rs, threw) => (s3, u :: us, r :: rs, threw)


/-- `DoIt.batch` over a callback that performs the given `set` calls:
if no sub-set produced a pair, return without pushing or notifying;
otherwise push one entry `(Batch(reversed undos), Batch(redos))`, clear
the redo stack and notify once. -/
def doitBatch (s : DoItState) (calls : List (String × Value)) : DoItState × Except Unit Unit :=
  match batchGo s calls with
  | (s2, _, _, true) => (s2, Except.error ())
  | (s2, [], _, false) => (s2, Except.ok ())
  | (s2, us, rs, false) =>
    ({ s2 with
       undoStack := pushEntry s2.undoStack ⟨Operation.batch us.reverse, Operation.batch rs⟩
         s2.maxHistory
       redoStack := []
       notifyCount := s2.notifyCount + 1 }, Except.ok ())


/-- `DoIt.undo`: `false` on an empty stack; otherwise pop, apply the
entry's undo, push the entry on the redo stack, notify, return `true`.
A throw from `applyOperation` escapes after the pop, so the entry is
lost and nothing is pushed. -/
def doitUndo (s : DoItState) : DoItState × Except Unit Bool :=
  match s.undoStack.getLast? with
  | none => (s, Except.ok false)
  | some e =>
    match applyOperation s.state e.undo with
    | (t2, true) => ({ s with state := t2, undoStack := s.undoStack.dropLast }, Except.error ())
    | (t2, false) =>
      ({ s with
         state := t2
         undoStack := s.undoStack.dropLast
         redoStack := s.redoStack ++ [e]
         notifyCount := s.notifyCount + 1 }, Except.ok true)


/-- `DoIt.redo`: symmetric to `undo`. -/
def doitRedo (s : DoItState) : DoItState × Except Unit Bool :=
  match s.redoStack.getLast? with
  | none => (s, Except.ok false)
  | some e =>
    match applyOperation s.state e.redo with
    | (t2, true) => ({ s with state := t2, redoStack := s.redoStack.dropLast }, Except.error ())
    | (t2, false) =>
      ({ s with
         state := t2
         redoStack := s.redoStack.dropLast
         undoStack := s.undoStack ++ [e]
         notifyCount := s.notifyCount + 1 }, Except.ok true)


/-- `DoIt.clearHistory`: empty both stacks (the path cache is inert in
the model) and notify. -/
def doitClearHistory (s : DoItState) : DoItState :=
  { s with undoStack := [], redoStack := [], notifyCount := s.notifyCount + 1 }


/-- States reachable through the public mutating API from a freshly
constructed store (post-states are kept even when a call threw, as in
JS). -/
inductive Reachable : DoItState → Prop where
  | init (v : Value) (mh : Option Nat) : Reachable (mkDoIt v mh)
  | set {s} (p : String) (v : Value) : Reachable s → Reachable (doitSet s p v false).1
  | batch {s} (calls : List (String × Value)) : Reachable s → Reachable (doitBatch s calls).1
  | undo {s} : Reachable s → Reachable (doitUndo s).1
  | redo {s} : Reachable s → Reachable (doitRedo s).1
  | clearHistory {s} : Reachable s → Reachable (doitClearHistory s)


/-- The first character of a (nonempty) list is a scan stop, or the
list is empty — the shape every tail serialization has. -/
def HeadIsStop (l : List Char) : Prop :=
  match l with
  | [] => True
  | c :: _ => isPathStop c = true


/-- Well-formed tokens: exactly the shapes `parsePath` can emit. -/
def WfToken : PathToken → Prop
  | PathToken.key v => v.data ≠ [] ∧ ∀ c ∈ v.data, isPathStop c = false
  | PathToken.index _ => True
  | PathToken.filter k val =>
    k.data ≠ [] ∧ (∀ c ∈ k.data, isWordChar c = true) ∧
      (match val with
       | Value.num _ => True
       | Value.str s => ∀ c ∈ s.data, c ≠ ']'
       | _ => False)


/- ### Typed full resolution

The fragment of paths on which the synthesized inverses are exact:
every `Key` token steps through an existing map field, every `Index`
token through an in-range sequence position, and no `Filter` tokens
(filter re-resolution after a mutation can select a different element,
and cross-type steps replace containers). -/

/-- Typed full resolution of a token list against a tree. -/
def cleanPath : Value → List PathToken → Bool
  | _, [] => true
  | cur, PathToken.key k :: rest =>
    match cur with
    | Value.obj fs => objHas fs k && cleanPath (objGet fs k) rest
    | _ => false
  | cur, PathToken.index n :: rest =>
    match cur with
    | Value.arr xs => decide (n < xs.length) && cleanPath (xs.getD n Value.undef) rest
    | _ => false
  | _, PathToken.filter _ _ :: _ => false


/-- The value a cleanly resolving path denotes. -/
def resolvedVal : Value → List PathToken → Value
  | cur, [] => cur
  | cur, PathToken.key k :: rest =>
    match cur with
    | Value.obj fs => resolvedVal (objGet fs k) rest
    | _ => Value.undef
  | cur, PathToken.index n :: rest =>
    match cur with
    | Value.arr xs => resolvedVal (xs.getD n Value.undef) rest
    | _ => Value.undef
  | _, PathToken.filter _ _ :: _ => Value.undef


/- ### Claim C2: throw-freedom -/

/-- A token is a `key` token. -/
def isKeyTok : PathToken → Bool
  | PathToken.key _ => true
  | _ => false


/-- The typed fragment on which the set walk (and the probe before it)
is throw-free: every token resolves with the matching node kind — a
`key` on a map (recursing into an existing field, or hitting a missing
field with only `key` tokens left, which the walk materializes as fresh
maps), an `index` on an array (in range, or past the end with only
`key` tokens left). -/
def setSafePath : Value → List PathToken → Bool
  | _, [] => true
  | cur, PathToken.key k :: rest =>
    match cur with
    | Value.obj fs =>
      if objHas fs k then setSafePath (objGet fs k) rest
      else rest.all isKeyTok
    | _ => false
  | cur, PathToken.index n :: rest =>
    match cur with
    | Value.arr xs =>
      if n < xs.length then setSafePath (xs.getD n Value.undef) rest
      else rest.all isKeyTok
    | _ => false
  | _, PathToken.filter _ _ :: _ => false


/- ### Claims C1/C5: the creation fragment -/

/-- The key-creation fragment the synthesized `Delete` undo inverts
exactly: the tokens resolve cleanly (a `key` through an existing map
field, an `index` through an in-range array position) down to a `key`
missing from an existing map, from which point every remaining token is
a `key` — the walk then materializes fresh maps that the `Delete` of
the truncated path removes again wholesale. -/
def createPath : Value → List PathToken → Bool
  | _, [] => false
  | cur, PathToken.key k :: rest =>
    match cur with
    | Value.obj fs =>
      if objHas fs k then createPath (objGet fs k) rest
      else rest.all isKeyTok
    | _ => false
  | cur, PathToken.index n :: rest =>
    match cur with
    | Value.arr xs => decide (n < xs.length) && createPath (xs.getD n Value.undef) rest
    | _ => false
  | _, PathToken.filter _ _ :: _ => false

/-- The index of the first missing key on a creation path (the probe's
`missingIndex`). -/
def missIdx : Value → List PathToken → Nat
  | cur, PathToken.key k :: rest =>
    match cur with
    | Value.obj fs => if objHas fs k then missIdx (objGet fs k) rest + 1 else 0
    | _ => 0
  | cur, PathToken.index n :: rest =>
    match cur with
    | Value.arr xs => missIdx (xs.getD n Value.undef) rest + 1
    | _ => 0
  | _, _ => 0


/- ### Claim C3: the prober against its specified lenient description -/

/-- `x` is neither `undefined` nor `null`. -/
def nonNullish : Value → Bool
  | Value.undef => false
  | Value.null => false
  | _ => true


/-- The first element whose field loosely-equals the filter value — the
claim's *total* description of the filter step (no throwing). -/
def findLoose (k : String) (v : Value) : List Value → Option Value
  | [] => none
  | x :: t => if jsLooseEq (jsGetMemberT x k) v then some x else findLoose k v t


/-- The prober as the amended claim words it (a *spec-side* definition,
to be compared with `probe` from the source): a total walk returning
`exists = false` with `missingIndex` = the shallowest failing token — a
`key` absent from the current node (with every non-map node counting as
absent, the claimed lenient type-mismatch policy), an `index` on a
non-sequence or out of `[0, length)`, a `filter` on a non-sequence,
with no loosely-matching element, or whose first loosely-matching
element is falsy (the source's `if (!found)` truthiness test) — and
`exists = true`, the final node and `missingIndex = -1` when every
token resolves. -/
def probeSpec : Value → List PathToken → Nat → ProbeResult
  | cur, [], _ => ⟨true, cur, -1⟩
  | cur, PathToken.key k :: rest, i =>
    match cur with
    | Value.obj fs =>
      if objHas fs k then probeSpec (objGet fs k) rest (i + 1)
      else ⟨false, Value.undef, i⟩
    | _ => ⟨false, Value.undef, i⟩
  | cur, PathToken.index n :: rest, i =>
    match cur with
    | Value.arr xs =>
      if n < xs.length then probeSpec (xs.getD n Value.undef) rest (i + 1)
      else ⟨false, Value.undef, i⟩
    | _ => ⟨false, Value.undef, i⟩
  | cur, PathToken.filter k v :: rest, i =>
    match cur with
    | Value.arr xs =>
      match findLoose k v xs with
      | some item =>
        if truthy item then probeSpec item rest (i + 1)
        else ⟨false, Value.undef, i⟩
      | none => ⟨false, Value.undef, i⟩
    | _ => ⟨false, Value.undef, i⟩


/-- The fragment on which the source prober agrees with the claim's
description: `key` tokens only meet maps (or `null`/`undefined`, where
both miss) — on scalars the source throws a `TypeError` and on arrays
the `in` operator can resolve index keys the description would miss —
and every `filter` find completes without reaching a `null`/`undefined`
element first. -/
def probeBenign : Value → List PathToken → Bool
  | _, [] => true
  | cur, PathToken.key k :: rest =>
    match cur with
    | Value.obj fs => !objHas fs k || probeBenign (objGet fs k) rest
    | Value.undef => true
    | Value.null => true
    | _ => false
  | cur, PathToken.index n :: rest =>
    match cur with
    | Value.arr xs =>
      if n < xs.length then probeBenign (xs.getD n Value.undef) rest else true
    | _ => true
  | cur, PathToken.filter k fv :: rest =>
    match cur with
    | Value.arr xs =>
      match jsFindEq k fv xs 0 with
      | Except.error _ => false
      | Except.ok none => true
      | Except.ok (some (_, item)) => probeBenign item rest
    | _ => true


/- ### Claim C4: the trailing-filter set branch -/

/-- `x` is a plain map. -/
def isObjV : Value → Bool
  | Value.obj _ => true
  | _ => false


/-- The element the trailing-filter set operates on: the first *truthy*
element loosely matching the filter, or the seed `{field: value}` when
none does. -/
def foundAtSpec (k : String) (fv : Value) (xs : List Value) : Value :=
  match jsFindIdxTruthy k fv xs 0 with
  | some i => xs.getD i Value.undef
  | none => Value.obj [(k, fv)]


/-- The amended claim's description of the trailing-filter set
(a *spec-side* definition, to be compared with the interpreter): find
the first truthy element loosely matching the filter, else append the
seed `{field: value}`; a map `V` is shallow-merged into that element in
place (its other fields preserved), `null` assigns nothing, and any
other `V` replaces the element wholesale by the spread-merge
`{...element, ...V}`. -/
def filterSetSpec (k : String) (fv value : Value) (xs : List Value) : List Value :=
  match jsFindIdxTruthy k fv xs 0 with
  | some i =>
    match value, xs.getD i Value.undef with
    | Value.obj fs, Value.obj gs => xs.set i (Value.obj (assocSetAll gs fs))
    | Value.null, _ => xs
    | Value.obj _, _ => xs
    | w, e => xs.set i (Value.obj (assocSetAll (spreadEntries e) (spreadEntries w)))
  | none =>
    match value with
    | Value.obj fs => xs ++ [Value.obj (assocSetAll [(k, fv)] fs)]
    | Value.null => xs ++ [Value.obj [(k, fv)]]
    | w => xs ++ [Value.obj (assocSetAll (spreadEntries (Value.obj [(k, fv)]))
        (spreadEntries w))]


/- ### Claim C5: batches collapse to one history entry -/

/-- Every sub-set of a batch, on the evolving tree, either resolves
cleanly and is not a duplicate, or creates through a missing key
(`createPath`). -/
def batchSafe : Value → List (String × Value) → Bool
  | _, [] => true
  | t, (p, v) :: rest =>
    ((cleanPath t (parsePath p) && !(parsePath p).isEmpty &&
        !deepEqual (resolvedVal t (parsePath p)) v) ||
      createPath t (parsePath p)) &&
      batchSafe (setGo t v (parsePath p)).1 rest


/-- The tree after the batch's sub-sets, in order. -/
def applyCalls : Value → List (String × Value) → Value
  | t, [] => t
  | t, (p, v) :: rest => applyCalls (setGo t v (parsePath p)).1 rest


/- ### Claim C7: duplicate sets are complete no-ops -/

mutual

/-- The claim's structural deep equality (a *spec-side* definition):
same primitive, same map keys with recursively-equal values, or same
sequence length with pairwise-equal elements; kinds never mix and
missing/`null` equal only themselves. -/
def specDeepEqual : Value → Value → Bool
  | Value.undef, Value.undef => true
  | Value.null, Value.null => true
  | Value.bool a, Value.bool b => a == b
  | Value.num a, Value.num b => a == b
  | Value.str a, Value.str b => a == b
  | Value.obj fs, Value.obj gs => fs.length == gs.length && specDeepEqualFields fs gs
  | Value.arr xs, Value.arr ys => xs.length == ys.length && specDeepEqualElems xs ys
  | _, _ => false

/-- Field-wise: every key of the left map is present on the right with
a recursively-equal value. -/
def specDeepEqualFields : List (String × Value) → List (String × Value) → Bool
  | [], _ => true
  | (k, v) :: t, gs => objHas gs k && specDeepEqual v (objGet gs k) && specDeepEqualFields t gs

/-- Pairwise element equality. -/
def specDeepEqualElems : List Value → List Value → Bool
  | [], [] => true
  | x :: t, y :: u => specDeepEqual x y && specDeepEqualElems t u
  | _, _ => false

end

/- ## Lemmas -/

/- ### Digit strings -/

theorem digitChar_isDigit (d : Nat) : isDigitChar (digitChar d) = true := by
  unfold digitChar
  split <;> rfl


theorem digitChar_toNat (d : Nat) (h : d < 10) : (digitChar d).toNat - 48 = d := by
  interval_cases d <;> rfl


theorem foldl_digitChar (l : List Nat) (h : ∀ d ∈ l, d < 10) :
    List.foldl (fun a c => 10 * a + (c.toNat - 48)) 0 (l.reverse.map digitChar) =
      Nat.ofDigits 10 l := by
  induction l with
  | nil => rfl
  | cons d t ih =>
    have hd : d < 10 := h d (List.mem_cons_self d t)
    have ht : ∀ x ∈ t, x < 10 := fun x hx => h x (List.mem_cons_of_mem d hx)
    simp only [List.reverse_cons, List.map_append, List.foldl_append, ih ht,
      List.map_cons, List.map_nil, List.foldl_cons, List.foldl_nil,
      Nat.ofDigits_cons, digitChar_toNat d hd]
    ring


theorem natOfDigits_natToDigitList (n : Nat) : natOfDigits (natToDigitList n) = n := by
  unfold natToDigitList natOfDigits
  by_cases h : n = 0
  · subst h; rfl
  · simp only [h, if_false]
    rw [foldl_digitChar _ (fun d hd => Nat.digits_lt_base (by norm_num) hd)]
    exact Nat.ofDigits_digits 10 n


theorem natToDigitList_ne_nil (n : Nat) : natToDigitList n ≠ [] := by
  unfold natToDigitList
  by_cases h : n = 0
  · simp [h]
  · simp only [h, if_false, ne_eq, List.map_eq_nil_iff, List.reverse_eq_nil_iff]
    exact Nat.digits_ne_nil_iff_ne_zero.mpr h


theorem natToDigitList_all_digits (n : Nat) : ∀ c ∈ natToDigitList n, isDigitChar c = true := by
  unfold natToDigitList
  by_cases h : n = 0
  · simp only [h, if_true, List.mem_singleton]
    intro c hc
    subst hc
    rfl
  · simp only [h, if_false]
    intro c hc
    obtain ⟨d, _, rfl⟩ := List.mem_map.mp hc
    exact digitChar_isDigit d


/- ### `Number(...)` coercion -/

theorem ws_not_digit {c : Char} (h : isJsWs c = true) : isDigitChar c = false := by
  simp only [isJsWs, Bool.or_eq_true, decide_eq_true_eq] at h
  rcases h with ((h | h) | h) | h <;> subst h <;> rfl


theorem digit_not_ws {c : Char} (h : isDigitChar c = true) : isJsWs c = false := by
  by_contra hw
  have := ws_not_digit (c := c) (by revert hw; cases isJsWs c <;> simp)
  rw [this] at h
  exact Bool.false_ne_true h


theorem jsTrim_eq_self (l : List Char)
    (h1 : ∀ c, l.head? = some c → isJsWs c = false)
    (h2 : ∀ c, l.getLast? = some c → isJsWs c = false) :
    jsTrim l = l := by
  unfold jsTrim
  have e1 : l.dropWhile isJsWs = l := by
    cases l with
    | nil => rfl
    | cons c t => rw [List.dropWhile_cons, if_neg (by simp [h1 c rfl])]
  rw [e1]
  have e2 : l.reverse.dropWhile isJsWs = l.reverse := by
    cases hr : l.reverse with
    | nil => rfl
    | cons c t =>
      have hc : l.getLast? = some c := by rw [← List.head?_reverse, hr]; rfl
      rw [List.dropWhile_cons, if_neg (by simp [h2 c hc])]
  rw [e2, List.reverse_reverse]


theorem jsToNumber_digits (l : List Char) (hne : l ≠ [])
    (hd : ∀ c ∈ l, isDigitChar c = true) :
    jsToNumber (String.mk l) = some ((natOfDigits l : Nat) : Int) := by
  unfold jsToNumber
  have hdata : (String.mk l).data = l := rfl
  rw [hdata, jsTrim_eq_self l
    (fun c hc => digit_not_ws (hd c (List.mem_of_mem_head? hc)))
    (fun c hc => digit_not_ws (hd c (List.mem_of_mem_getLast? hc)))]
  cases l with
  | nil => exact absurd rfl hne
  | cons c t =>
    have hc : isDigitChar c = true := hd c (List.mem_cons_self c t)
    have hcm : c ≠ '-' := by rintro rfl; exact absurd hc (by decide)
    have hcp : c ≠ '+' := by rintro rfl; exact absurd hc (by decide)
    have hall : (c :: t).all isDigitChar = true := List.all_eq_true.mpr hd
    split
    · rename_i heq; exact absurd heq (by simp)
    · rename_i ds heq
      injection heq with e1 e2
      exact absurd e1 hcm
    · rename_i ds heq
      injection heq with e1 e2
      exact absurd e1 hcp
    · simp [hall]


theorem natRepr_data (n : Nat) : (natRepr n).data = natToDigitList n := rfl


theorem getLast?_cons_of_ne {α : Type} (x : α) (l : List α) (h : l ≠ []) :
    (x :: l).getLast? = l.getLast? := by
  cases l with
  | nil => exact absurd rfl h
  | cons a t => exact List.getLast?_cons_cons


theorem jsToNumber_natRepr (n : Nat) : jsToNumber (natRepr n) = some (n : Int) := by
  have h := jsToNumber_digits (natToDigitList n) (natToDigitList_ne_nil n)
    (natToDigitList_all_digits n)
  rw [natOfDigits_natToDigitList] at h
  exact h


theorem jsToNumber_intRepr (n : Int) : jsToNumber (intRepr n) = some n := by
  unfold intRepr
  by_cases h : n < 0
  · simp only [h, if_true]
    unfold jsToNumber
    have hdata : ("-" ++ natRepr n.natAbs).data = '-' :: natToDigitList n.natAbs := by
      rw [String.data_append]
      rfl
    rw [hdata]
    have hne := natToDigitList_ne_nil n.natAbs
    have hall : (natToDigitList n.natAbs).all isDigitChar = true :=
      List.all_eq_true.mpr (natToDigitList_all_digits n.natAbs)
    rw [jsTrim_eq_self]
    · have : (match ('-' :: natToDigitList n.natAbs : List Char) with
        | [] => some 0
        | '-' :: ds =>
          if (decide (ds ≠ []) && ds.all isDigitChar) = true
          then some (-(natOfDigits ds : Int)) else none
        | '+' :: ds =>
          if (decide (ds ≠ []) && ds.all isDigitChar) = true
          then some ((natOfDigits ds : Nat) : Int) else none
        | ds =>
          if (decide (ds ≠ []) && ds.all isDigitChar) = true
          then some ((natOfDigits ds : Nat) : Int) else none) =
          some (-(natOfDigits (natToDigitList n.natAbs) : Int)) := by
        simp [hne, hall]
      rw [this, natOfDigits_natToDigitList]
      congr 1
      omega
    · intro c hc
      injection hc with hc
      subst hc
      rfl
    · intro c hc
      rw [getLast?_cons_of_ne _ _ hne] at hc
      exact digit_not_ws (natToDigitList_all_digits n.natAbs c (List.mem_of_mem_getLast? hc))
  · simp only [h, if_false]
    rw [jsToNumber_natRepr]
    congr 1
    omega


theorem jsToNumber_quoted (s : List Char) :
    jsToNumber (String.mk ('"' :: (s ++ ['"']))) = none := by
  unfold jsToNumber
  have hdata : (String.mk ('"' :: (s ++ ['"']))).data = '"' :: (s ++ ['"']) := rfl
  rw [hdata, jsTrim_eq_self]
  · split
    · rename_i heq; exact absurd heq (by simp)
    · rename_i ds heq
      injection heq with e1 _
      exact absurd e1 (by decide)
    · rename_i ds heq
      injection heq with e1 _
      exact absurd e1 (by decide)
    · have : ('"' :: (s ++ ['"'])).all isDigitChar = false := by
        simp only [List.all_cons, Bool.and_eq_false_iff]
        left
        rfl
      simp [this]
  · intro c hc
    injection hc with hc
    subst hc
    rfl
  · intro c hc
    rw [getLast?_cons_of_ne _ _ (by simp), List.getLast?_append_of_ne_nil _ (by simp)] at hc
    simp only [List.getLast?_singleton, Option.some.injEq] at hc
    subst hc
    rfl


/- ### Scan-step lemmas for the parser -/

theorem takeWhile_append_all {p : Char → Bool} (l rest : List Char)
    (hl : ∀ c ∈ l, p c = true)
    (hr : ∀ c, rest.head? = some c → p c = false) :
    (l ++ rest).takeWhile p = l ∧ (l ++ rest).dropWhile p = rest := by
  induction l with
  | nil =>
    simp only [List.nil_append]
    cases rest with
    | nil => simp
    | cons c t =>
      rw [List.takeWhile_cons, List.dropWhile_cons]
      simp [hr c rfl]
  | cons c l ih =>
    have hc : p c = true := hl c (List.mem_cons_self c l)
    have ihl := ih (fun x hx => hl x (List.mem_cons_of_mem c hx))
    simp [List.takeWhile_cons, List.dropWhile_cons, hc, ihl.1, ihl.2]


theorem reprTail_key_data (v : String) :
    (tokenReprTail (PathToken.key v)).data = '.' :: v.data := by
  show ("." ++ v).data = '.' :: v.data
  rw [String.data_append]
  rfl


theorem reprHead_key_data (v : String) :
    (tokenReprHead (PathToken.key v)).data = v.data := rfl


theorem reprHead_index_data (n : Nat) :
    (tokenReprHead (PathToken.index n)).data = '[' :: (natToDigitList n ++ [']']) := by
  show ("[" ++ natRepr n ++ "]").data = '[' :: (natToDigitList n ++ [']'])
  rw [String.data_append, String.data_append]
  rfl


theorem reprHead_filter_data (k : String) (val : Value) :
    (tokenReprHead (PathToken.filter k val)).data =
      '[' :: (k.data ++ ':' :: ((filterValRepr val).data ++ [']'])) := by
  show ("[" ++ k ++ ":" ++ filterValRepr val ++ "]").data = _
  rw [String.data_append, String.data_append, String.data_append, String.data_append]
  simp


theorem reprTail_nonkey_data (t : PathToken) (h : ∀ v, t ≠ PathToken.key v) :
    tokenReprTail t = tokenReprHead t := by
  cases t with
  | key v => exact absurd rfl (h v)
  | index n => rfl
  | filter k val => rfl


theorem digit_ne_rbracket {c : Char} (h : isDigitChar c = true) : c ≠ ']' := by
  rintro rfl
  exact absurd h (by decide)


theorem word_ne_rbracket {c : Char} (h : isWordChar c = true) : c ≠ ']' := by
  rintro rfl
  exact absurd h (by decide)


theorem word_ne_colon {c : Char} (h : isWordChar c = true) : c ≠ ':' := by
  rintro rfl
  exact absurd h (by decide)


theorem tryIndex_repr (n : Nat) (rest : List Char) :
    tryIndex (natToDigitList n ++ ']' :: rest) = some (n, rest) := by
  unfold tryIndex
  obtain ⟨e1, e2⟩ := takeWhile_append_all (p := isDigitChar) (natToDigitList n) (']' :: rest)
    (natToDigitList_all_digits n)
    (by intro c hc; injection hc with hc; subst hc; rfl)
  rw [e1, e2]
  obtain ⟨d, t, hd⟩ : ∃ d t, natToDigitList n = d :: t := by
    cases h : natToDigitList n with
    | nil => exact absurd h (natToDigitList_ne_nil n)
    | cons d t => exact ⟨d, t, rfl⟩
  rw [hd]
  show some (natOfDigits (d :: t), rest) = some (n, rest)
  rw [← hd, natOfDigits_natToDigitList]


theorem dropWhile_digit_word_colon (l : List Char) (hw : ∀ c ∈ l, isWordChar c = true)
    (rest : List Char) :
    ∃ c t, (l ++ ':' :: rest).dropWhile isDigitChar = c :: t ∧ c ≠ ']' := by
  induction l with
  | nil =>
    refine ⟨':', rest, ?_, by decide⟩
    rw [List.nil_append, List.dropWhile_cons, if_neg (by decide)]
  | cons c l ih =>
    rw [List.cons_append, List.dropWhile_cons]
    by_cases hd : isDigitChar c = true
    · rw [if_pos (by simp [hd])]
      exact ih (fun x hx => hw x (List.mem_cons_of_mem c hx))
    · rw [if_neg (by simpa using hd)]
      exact ⟨c, l ++ ':' :: rest, rfl, word_ne_rbracket (hw c (List.mem_cons_self c l))⟩


theorem tryIndex_word_colon (l : List Char) (hw : ∀ c ∈ l, isWordChar c = true)
    (rest : List Char) :
    tryIndex (l ++ ':' :: rest) = none := by
  unfold tryIndex
  obtain ⟨c, t, he, hc⟩ := dropWhile_digit_word_colon l hw rest
  rw [he]
  split
  · rfl
  · rename_i heq
    injection heq with e1 _
    exact absurd e1 hc
  · rfl


theorem intRepr_data_ne_nil (n : Int) : (intRepr n).data ≠ [] := by
  unfold intRepr
  by_cases h : n < 0
  · simp only [h, if_true, String.data_append]
    simp
  · simp only [h, if_false, natRepr_data]
    exact natToDigitList_ne_nil n.natAbs


theorem intRepr_no_rbracket (n : Int) : ∀ c ∈ (intRepr n).data, c ≠ ']' := by
  unfold intRepr
  intro c hc
  by_cases h : n < 0
  · simp only [h, if_true, String.data_append] at hc
    rcases List.mem_append.mp hc with h1 | h1
    · simp only [List.mem_singleton.mp (by simpa using h1)]
      decide
    · exact digit_ne_rbracket (natToDigitList_all_digits n.natAbs c (by simpa [natRepr_data] using h1))
  · simp only [h, if_false, natRepr_data] at hc
    exact digit_ne_rbracket (natToDigitList_all_digits n.natAbs c hc)


theorem filterValRepr_num (n : Int) : filterValRepr (Value.num n) = intRepr n := rfl


theorem filterValRepr_str_data (s : String) :
    (filterValRepr (Value.str s)).data = '"' :: (s.data ++ ['"']) := by
  show ("\"" ++ s ++ "\"").data = _
  rw [String.data_append, String.data_append]
  rfl


theorem coerce_num_repr (n : Int) : coerceFilterValue (intRepr n).data = Value.num n := by
  unfold coerceFilterValue
  rw [show jsToNumber (String.mk (intRepr n).data) = some n from jsToNumber_intRepr n]


theorem coerce_str_repr (s : String) :
    coerceFilterValue ('"' :: (s.data ++ ['"'])) = Value.str s := by
  unfold coerceFilterValue
  rw [jsToNumber_quoted]
  have hlast : ('"' :: (s.data ++ ['"'])).getLast? = some '"' := by
    rw [getLast?_cons_of_ne _ _ (by simp), List.getLast?_append_of_ne_nil _ (by simp)]
    rfl
  simp only [List.head?_cons, hlast, Option.some.injEq]
  rw [if_pos (by decide)]
  simp only [List.drop_succ_cons, List.drop_zero, List.dropLast_concat]


theorem tryFilter_repr (k : String) (val : Value) (hk1 : k.data ≠ [])
    (hk2 : ∀ c ∈ k.data, isWordChar c = true)
    (hval : match val with
            | Value.num _ => True
            | Value.str s => ∀ c ∈ s.data, c ≠ ']'
            | _ => False)
    (rest : List Char) :
    tryFilter (k.data ++ ':' :: ((filterValRepr val).data ++ ']' :: rest)) =
      some (PathToken.filter k val, rest) := by
  have hvr1 : (filterValRepr val).data ≠ [] := by
    match val, hval with
    | Value.num n, _ => exact intRepr_data_ne_nil n
    | Value.str s, _ => rw [filterValRepr_str_data]; simp
  have hvr2 : ∀ c ∈ (filterValRepr val).data, (c ≠ ']' : Bool) = true := by
    match val, hval with
    | Value.num n, _ =>
      intro c hc
      simpa using intRepr_no_rbracket n c hc
    | Value.str s, hv =>
      intro c hc
      rw [filterValRepr_str_data] at hc
      rcases List.mem_cons.mp hc with h1 | h1
      · subst h1; decide
      · rcases List.mem_append.mp h1 with h2 | h2
        · simpa using hv c h2
        · simp only [List.mem_singleton.mp h2]; decide
  unfold tryFilter
  obtain ⟨e1, e2⟩ := takeWhile_append_all (p := isWordChar) k.data
    (':' :: ((filterValRepr val).data ++ ']' :: rest)) hk2
    (by intro c hc; injection hc with hc; subst hc; rfl)
  rw [e1, e2]
  obtain ⟨d, t, hd⟩ : ∃ d t, k.data = d :: t := by
    cases h : k.data with
    | nil => exact absurd h hk1
    | cons d t => exact ⟨d, t, rfl⟩
  rw [hd]
  obtain ⟨e3, e4⟩ := takeWhile_append_all (p := fun c => c ≠ ']') (filterValRepr val).data
    (']' :: rest) hvr2 (by intro c hc; injection hc with hc; subst hc; simp)
  simp only [e3, e4]
  obtain ⟨d2, t2, hd2⟩ : ∃ d2 t2, (filterValRepr val).data = d2 :: t2 := by
    cases h : (filterValRepr val).data with
    | nil => exact absurd h hvr1
    | cons d2 t2 => exact ⟨d2, t2, rfl⟩
  rw [hd2]
  show some (PathToken.filter (String.mk (d :: t)) (coerceFilterValue (d2 :: t2)), rest) = _
  rw [← hd, ← hd2]
  have hcv : coerceFilterValue (filterValRepr val).data = val := by
    match val, hval with
    | Value.num n, _ => exact coerce_num_repr n
    | Value.str s, _ => rw [filterValRepr_str_data]; exact coerce_str_repr s
  rw [hcv]


theorem headIsStop_reconstructTail (ts : List PathToken) :
    HeadIsStop (reconstructTail ts).data := by
  cases ts with
  | nil => trivial
  | cons t ts =>
    show HeadIsStop (tokenReprTail t ++ reconstructTail ts).data
    rw [String.data_append]
    cases t with
    | key v => rw [reprTail_key_data]; simp [HeadIsStop, isPathStop]
    | index n =>
      rw [reprTail_nonkey_data _ (by intro v h; exact PathToken.noConfusion h),
        reprHead_index_data]
      simp [HeadIsStop, isPathStop]
    | filter k val =>
      rw [reprTail_nonkey_data _ (by intro v h; exact PathToken.noConfusion h),
        reprHead_filter_data]
      simp [HeadIsStop, isPathStop]


/- ### One scan step per serialized token -/

theorem parseGo_step_dot (f : Nat) (rest : List Char) :
    parseGo (f + 1) ('.' :: rest) = parseGo f rest := by
  simp [parseGo]


theorem parseGo_step_key (f : Nat) (v : String) (hne : v.data ≠ [])
    (hall : ∀ c ∈ v.data, isPathStop c = false) (rest : List Char) (hr : HeadIsStop rest) :
    parseGo (f + 1) (v.data ++ rest) = PathToken.key v :: parseGo f rest := by
  obtain ⟨c0, t, hd⟩ : ∃ c0 t, v.data = c0 :: t := by
    cases h : v.data with
    | nil => exact absurd h hne
    | cons c0 t => exact ⟨c0, t, rfl⟩
  have hc0 : isPathStop c0 = false := hall c0 (by rw [hd]; exact List.mem_cons_self c0 t)
  have h1 : ¬ (c0 = '[') := by
    rintro rfl; exact absurd hc0 (by decide)
  have h2 : ¬ (c0 = '.' || c0 = ']') = true := by
    simp only [isPathStop, Bool.or_eq_false_iff, decide_eq_false_iff_not] at hc0
    simp [hc0.1.1, hc0.2]
  obtain ⟨e1, e2⟩ := takeWhile_append_all (p := fun d => !isPathStop d) v.data rest
    (fun c hc => by simp [hall c hc])
    (by
      intro c hc
      cases rest with
      | nil => exact absurd hc (by simp)
      | cons r t2 =>
        injection hc with hc
        subst hc
        simp only [HeadIsStop] at hr
        simp [hr])
  rw [hd] at e1 e2 ⊢
  rw [List.cons_append]
  show parseGo (f + 1) (c0 :: (t ++ rest)) = _
  rw [parseGo]
  rw [if_neg h1, if_neg h2]
  rw [← List.cons_append, e1, e2, ← hd]


theorem parseGo_step_index (f : Nat) (n : Nat) (rest : List Char) :
    parseGo (f + 1) ('[' :: (natToDigitList n ++ ']' :: rest)) =
      PathToken.index n :: parseGo f rest := by
  rw [parseGo]
  rw [if_pos rfl, tryIndex_repr]


theorem parseGo_step_filter (f : Nat) (k : String) (val : Value) (hk1 : k.data ≠ [])
    (hk2 : ∀ c ∈ k.data, isWordChar c = true)
    (hval : match val with
            | Value.num _ => True
            | Value.str s => ∀ c ∈ s.data, c ≠ ']'
            | _ => False)
    (rest : List Char) :
    parseGo (f + 1) ('[' :: (k.data ++ ':' :: ((filterValRepr val).data ++ ']' :: rest))) =
      PathToken.filter k val :: parseGo f rest := by
  rw [parseGo]
  rw [if_pos rfl, tryIndex_word_colon k.data hk2, tryFilter_repr k val hk1 hk2 hval]


/- ### The round trip on well-formed token lists -/

theorem parseGo_reconstructTail (ts : List PathToken) (hwf : ∀ t ∈ ts, WfToken t) :
    ∀ f, (reconstructTail ts).data.length ≤ f →
      parseGo f (reconstructTail ts).data = ts := by
  induction ts with
  | nil =>
    intro f _
    show parseGo f [] = []
    cases f <;> rfl
  | cons t ts ih =>
    intro f hf
    have hwt : WfToken t := hwf t (List.mem_cons_self t ts)
    have hwts : ∀ x ∈ ts, WfToken x := fun x hx => hwf x (List.mem_cons_of_mem t hx)
    have hdata : (reconstructTail (t :: ts)).data =
        (tokenReprTail t).data ++ (reconstructTail ts).data := by
      show (tokenReprTail t ++ reconstructTail ts).data = _
      rw [String.data_append]
    rw [hdata] at hf ⊢
    cases t with
    | key v =>
      obtain ⟨hne, hall⟩ := hwt
      rw [reprTail_key_data] at hf ⊢
      have hlen : 2 + (reconstructTail ts).data.length ≤ f := by
        have hv : 1 ≤ v.data.length := by
          cases h : v.data with
          | nil => exact absurd h hne
          | cons a b => simp
        simp only [List.cons_append, List.length_cons, List.length_append] at hf
        omega
      obtain ⟨f2, rfl⟩ : ∃ f2, f = f2 + 2 := ⟨f - 2, by omega⟩
      rw [List.cons_append, show f2 + 2 = (f2 + 1) + 1 from rfl, parseGo_step_dot,
        parseGo_step_key f2 v hne hall _ (headIsStop_reconstructTail ts)]
      rw [ih hwts f2 (by omega)]
    | index n =>
      rw [reprTail_nonkey_data _ (fun v h => PathToken.noConfusion h), reprHead_index_data]
        at hf ⊢
      have hlen : 1 + (reconstructTail ts).data.length ≤ f := by
        simp only [List.cons_append, List.length_cons, List.length_append] at hf
        omega
      obtain ⟨f1, rfl⟩ : ∃ f1, f = f1 + 1 := ⟨f - 1, by omega⟩
      simp only [List.cons_append, List.append_assoc, List.singleton_append, List.nil_append]
      rw [parseGo_step_index]
      rw [ih hwts f1 (by omega)]
    | filter k val =>
      obtain ⟨hk1, hk2, hv⟩ := hwt
      rw [reprTail_nonkey_data _ (fun v h => PathToken.noConfusion h), reprHead_filter_data]
        at hf ⊢
      have hlen : 1 + (reconstructTail ts).data.length ≤ f := by
        simp only [List.cons_append, List.length_cons, List.length_append] at hf
        omega
      obtain ⟨f1, rfl⟩ : ∃ f1, f = f1 + 1 := ⟨f - 1, by omega⟩
      simp only [List.cons_append, List.append_assoc, List.singleton_append, List.nil_append]
      rw [parseGo_step_filter f1 k val hk1 hk2 hv]
      rw [ih hwts f1 (by omega)]


theorem parseGo_reconstructPath (ts : List PathToken) (hwf : ∀ t ∈ ts, WfToken t) :
    ∀ f, (reconstructPath ts).data.length ≤ f →
      parseGo f (reconstructPath ts).data = ts := by
  cases ts with
  | nil =>
    intro f _
    show parseGo f [] = []
    cases f <;> rfl
  | cons t ts =>
    intro f hf
    have hwt : WfToken t := hwf t (List.mem_cons_self t ts)
    have hwts : ∀ x ∈ ts, WfToken x := fun x hx => hwf x (List.mem_cons_of_mem t hx)
    have hdata : (reconstructPath (t :: ts)).data =
        (tokenReprHead t).data ++ (reconstructTail ts).data := by
      show (tokenReprHead t ++ reconstructTail ts).data = _
      rw [String.data_append]
    rw [hdata] at hf ⊢
    cases t with
    | key v =>
      obtain ⟨hne, hall⟩ := hwt
      rw [reprHead_key_data] at hf ⊢
      have hlen : 1 + (reconstructTail ts).data.length ≤ f := by
        have hv : 1 ≤ v.data.length := by
          cases h : v.data with
          | nil => exact absurd h hne
          | cons a b => simp
        simp only [List.length_append] at hf
        omega
      obtain ⟨f1, rfl⟩ : ∃ f1, f = f1 + 1 := ⟨f - 1, by omega⟩
      rw [parseGo_step_key f1 v hne hall _ (headIsStop_reconstructTail ts)]
      rw [parseGo_reconstructTail ts hwts f1 (by omega)]
    | index n =>
      rw [reprHead_index_data] at hf ⊢
      have hlen : 1 + (reconstructTail ts).data.length ≤ f := by
        simp only [List.cons_append, List.length_cons, List.length_append] at hf
        omega
      obtain ⟨f1, rfl⟩ : ∃ f1, f = f1 + 1 := ⟨f - 1, by omega⟩
      simp only [List.cons_append, List.append_assoc, List.singleton_append, List.nil_append]
      rw [parseGo_step_index]
      rw [parseGo_reconstructTail ts hwts f1 (by omega)]
    | filter k val =>
      obtain ⟨hk1, hk2, hv⟩ := hwt
      rw [reprHead_filter_data] at hf ⊢
      have hlen : 1 + (reconstructTail ts).data.length ≤ f := by
        simp only [List.cons_append, List.length_cons, List.length_append] at hf
        omega
      obtain ⟨f1, rfl⟩ : ∃ f1, f = f1 + 1 := ⟨f - 1, by omega⟩
      simp only [List.cons_append, List.append_assoc, List.singleton_append, List.nil_append]
      rw [parseGo_step_filter f1 k val hk1 hk2 hv]
      rw [parseGo_reconstructTail ts hwts f1 (by omega)]


/-- The round trip on any well-formed token list. -/
theorem parsePath_reconstructPath (ts : List PathToken) (hwf : ∀ t ∈ ts, WfToken t) :
    parsePath (reconstructPath ts) = ts :=
  parseGo_reconstructPath ts hwf _ le_rfl


/- ### Every parsed token is well-formed -/

theorem coerceFilterValue_shape (body : List Char) :
    (∃ n, coerceFilterValue body = Value.num n) ∨
    coerceFilterValue body = Value.str (String.mk (body.drop 1).dropLast) ∨
    coerceFilterValue body = Value.str (String.mk body) := by
  unfold coerceFilterValue
  split
  · rename_i n _
    exact Or.inl ⟨n, rfl⟩
  · split
    · exact Or.inr (Or.inl rfl)
    · exact Or.inr (Or.inr rfl)


theorem coerceFilterValue_wf (body : List Char) (hb : ∀ c ∈ body, c ≠ ']') :
    match coerceFilterValue body with
    | Value.num _ => True
    | Value.str s => ∀ c ∈ s.data, c ≠ ']'
    | _ => False := by
  rcases coerceFilterValue_shape body with ⟨n, hn⟩ | h | h
  · rw [hn]
    trivial
  · rw [h]
    intro c hc
    exact hb c (List.drop_subset 1 body (List.dropLast_subset _ hc))
  · rw [h]
    intro c hc
    exact hb c hc


theorem tryFilter_wf (cs : List Char) (tok : PathToken) (rem : List Char)
    (h : tryFilter cs = some (tok, rem)) : WfToken tok := by
  unfold tryFilter at h
  split at h
  · exact Option.noConfusion h
  · split at h
    · exact Option.noConfusion h
    · rename_i a1 a2 wh wt cs2 e1 e2 a3 a4 bh bt rest2 e3 e4
      injection h with h
      injection h with h1 h2
      subst h1
      refine ⟨by simp, ?_, ?_⟩
      · intro x hx
        have hx2 : x ∈ cs.takeWhile isWordChar := by
          rw [e1]
          exact hx
        exact List.mem_takeWhile_imp hx2
      · refine coerceFilterValue_wf _ (fun x hx => ?_)
        have hx2 : x ∈ cs2.takeWhile (fun c => decide (c ≠ ']')) := by
          rw [e3]
          exact hx
        simpa using List.mem_takeWhile_imp hx2
    · exact Option.noConfusion h
  · exact Option.noConfusion h


theorem parseGo_wf (f : Nat) : ∀ (cs : List Char) (t : PathToken), t ∈ parseGo f cs → WfToken t := by
  induction f with
  | zero =>
    intro cs t ht
    simp [parseGo] at ht
  | succ f ih =>
    intro cs t ht
    cases cs with
    | nil => simp [parseGo] at ht
    | cons c rest =>
      rw [parseGo] at ht
      by_cases h1 : c = '['
      · rw [if_pos h1] at ht
        cases hidx : tryIndex rest with
        | some pr =>
          obtain ⟨n, rem⟩ := pr
          rw [hidx] at ht
          rcases List.mem_cons.mp ht with h | h
          · subst h; trivial
          · exact ih rem t h
        | none =>
          rw [hidx] at ht
          cases hfil : tryFilter rest with
          | some pr =>
            obtain ⟨tok, rem⟩ := pr
            rw [hfil] at ht
            rcases List.mem_cons.mp ht with h | h
            · subst h; exact tryFilter_wf rest _ _ hfil
            · exact ih rem t h
          | none =>
            rw [hfil] at ht
            exact ih rest t ht
      · rw [if_neg h1] at ht
        by_cases h2 : (c = '.' || c = ']') = true
        · rw [if_pos h2] at ht
          exact ih rest t ht
        · rw [if_neg h2] at ht
          rcases List.mem_cons.mp ht with h | h
          · subst h
            have hstop : isPathStop c = false := by
              simp only [Bool.or_eq_true, decide_eq_true_eq, not_or] at h2
              simp [isPathStop, h1, h2.1, h2.2]
            refine ⟨?_, ?_⟩
            · show ((c :: rest).takeWhile (fun d => !isPathStop d)) ≠ []
              rw [List.takeWhile_cons, if_pos (by simp [hstop])]
              simp
            · intro x hx
              have := List.mem_takeWhile_imp hx
              simpa using this
          · exact ih _ t h


theorem parsePath_wf (p : String) : ∀ t ∈ parsePath p, WfToken t :=
  fun t ht => parseGo_wf _ _ t ht


/-- C10: for every path string `p` and every prefix `t` of
`parsePath p`, re-parsing the reconstructed path is the identity on
tokens: `parsePath (reconstructPath t) = t`.  Key, Index, and Filter
tokens — including numeric versus quoted-string filter values —
survive the round trip, so the `Delete` undo paths that `set` stores
as reconstructed prefix strings re-parse to the original token
prefix. -/
theorem c10_parse_reconstruct_roundtrip (p : String) (n : Nat) :
    parsePath (reconstructPath ((parsePath p).take n)) = (parsePath p).take n :=
  parsePath_reconstructPath _ (fun t ht => parsePath_wf p t (List.take_subset n _ ht))


/- ### Association-list and index lemmas -/

theorem objGet_objSet (fs : List (String × Value)) (k : String) (v : Value) :
    objGet (objSet fs k v) k = v := by
  induction fs with
  | nil => simp [objSet, objGet]
  | cons kv t ih =>
    obtain ⟨k0, v0⟩ := kv
    by_cases h : k0 = k
    · simp [objSet, objGet, h]
    · simp [objSet, objGet, h, ih]


theorem objSet_cancel (fs : List (String × Value)) (k : String) (v : Value)
    (h : objHas fs k = true) :
    objSet (objSet fs k v) k (objGet fs k) = fs := by
  induction fs with
  | nil => simp [objHas] at h
  | cons kv t ih =>
    obtain ⟨k0, v0⟩ := kv
    by_cases hk : k0 = k
    · simp [objSet, objGet, hk]
    · have ht : objHas t k = true := by
        simp only [objHas, Bool.or_eq_true, decide_eq_true_eq] at h
        rcases h with h | h
        · exact absurd h hk
        · exact h
      simp [objSet, objGet, hk, ih ht]


theorem natRepr_ne_length (n : Nat) : natRepr n ≠ "length" := by
  intro h
  have hl : ('l' : Char) ∈ (natRepr n).data := by
    rw [h]
    decide
  rw [natRepr_data] at hl
  exact absurd (natToDigitList_all_digits n 'l' hl) (by decide)


theorem set_getD_self {α : Type} (l : List α) (n : Nat) (d : α) (h : n < l.length) :
    l.set n (l.getD n d) = l := by
  induction l generalizing n with
  | nil => simp at h
  | cons x t ih =>
    cases n with
    | zero => simp [List.set, List.getD]
    | succ m =>
      simp only [List.set, List.getD_cons_succ]
      rw [ih m (by simpa using h)]


theorem getD_set_self {α : Type} (l : List α) (n : Nat) (a d : α) (h : n < l.length) :
    (l.set n a).getD n d = a := by
  induction l generalizing n with
  | nil => simp at h
  | cons x t ih =>
    cases n with
    | zero => simp [List.set, List.getD]
    | succ m =>
      simp only [List.set, List.getD_cons_succ]
      exact ih m (by simpa using h)


theorem canonIdx_natRepr (n : Nat) : canonIdx (natRepr n) = some n := by
  unfold canonIdx
  rw [natRepr_data]
  have h1 : (natToDigitList n).all isDigitChar = true :=
    List.all_eq_true.mpr (natToDigitList_all_digits n)
  rw [if_pos (by simp [natToDigitList_ne_nil n, h1, natOfDigits_natToDigitList])]
  rw [natOfDigits_natToDigitList]


/- ### Member access along clean paths -/

theorem jsGetMember_obj (fs : List (String × Value)) (k : String) :
    jsGetMember (Value.obj fs) k = Except.ok (objGet fs k) := rfl


theorem jsGetMember_arr_idx (xs : List Value) (n : Nat) :
    jsGetMember (Value.arr xs) (natRepr n) = Except.ok (xs.getD n Value.undef) := by
  show Except.ok (jsGetMemberT (Value.arr xs) (natRepr n)) = _
  simp only [jsGetMemberT]
  rw [if_neg (natRepr_ne_length n), canonIdx_natRepr]


theorem jsSetMember_arr_idx (xs : List Value) (n : Nat) (w : Value) (h : n < xs.length) :
    jsSetMember (Value.arr xs) (natRepr n) w = Except.ok (Value.arr (xs.set n w)) := by
  simp only [jsSetMember]
  rw [if_neg (natRepr_ne_length n), canonIdx_natRepr]
  show Except.ok (Value.arr (arrSetPad xs n w)) = _
  unfold arrSetPad
  rw [if_pos h]


/- ### `probe` confirms clean resolution -/

theorem probeGo_clean (ts : List PathToken) :
    ∀ (cur : Value) (i : Nat), cleanPath cur ts = true →
      probeGo cur ts i = Except.ok ⟨true, resolvedVal cur ts, -1⟩ := by
  induction ts with
  | nil => intro cur i _; rfl
  | cons tok rest ih =>
    intro cur i hc
    cases tok with
    | key k =>
      cases cur with
      | obj fs =>
        simp only [cleanPath, Bool.and_eq_true] at hc
        have h1 : jsInOp (Value.obj fs) k = Except.ok true := by
          simp [jsInOp, hc.1]
        show (match jsInOp (Value.obj fs) k with
              | Except.error _ => Except.error ()
              | Except.ok true => probeGo (jsGetMemberT (Value.obj fs) k) rest (i + 1)
              | Except.ok false => Except.ok ⟨false, Value.undef, i⟩) = _
        rw [h1]
        show probeGo (objGet fs k) rest (i + 1) = _
        rw [ih _ _ hc.2]
        rfl
      | undef => simp [cleanPath] at hc
      | null => simp [cleanPath] at hc
      | bool b => simp [cleanPath] at hc
      | num m => simp [cleanPath] at hc
      | str s => simp [cleanPath] at hc
      | arr xs => simp [cleanPath] at hc
    | index n =>
      cases cur with
      | arr xs =>
        simp only [cleanPath, Bool.and_eq_true, decide_eq_true_eq] at hc
        show (if n < xs.length then probeGo (xs.getD n Value.undef) rest (i + 1)
              else Except.ok ⟨false, Value.undef, i⟩) = _
        rw [if_pos hc.1]
        rw [ih _ _ hc.2]
        rfl
      | undef => simp [cleanPath] at hc
      | null => simp [cleanPath] at hc
      | bool b => simp [cleanPath] at hc
      | num m => simp [cleanPath] at hc
      | str s => simp [cleanPath] at hc
      | obj fs => simp [cleanPath] at hc
    | filter k fv => simp [cleanPath] at hc


theorem probe_clean (t : Value) (ts : List PathToken) (hc : cleanPath t ts = true) :
    probe t ts = Except.ok ⟨true, resolvedVal t ts, -1⟩ :=
  probeGo_clean ts t 0 hc


/- ### The set interpreter is throw-free and exactly invertible on
clean paths -/

theorem cleanPath_typeofObject (tok : PathToken) (rest : List PathToken) (cur : Value)
    (h : cleanPath cur (tok :: rest) = true) : typeofObject cur = true := by
  cases tok <;> cases cur <;> simp_all [cleanPath, typeofObject]


theorem isUndefV_false {child : Value} (h : typeofObject child = true) :
    isUndefV child = false := by
  cases child <;> first | rfl | exact absurd h (by decide)


theorem locOf_arr_idx (xs : List Value) (n : Nat) :
    locOf (Value.arr xs) (natRepr n) = Loc.elem n := by
  unfold locOf
  rw [canonIdx_natRepr]


theorem resolveMember_noCreate (cur : Value) (k : String) (child : Value) (rep : Bool)
    (hget : jsGetMember cur k = Except.ok child)
    (hno : (if rep then !(typeofObject child) else isUndefV child) = false) :
    resolveMember cur k true rep = (cur, Except.ok (child, locOf cur k)) := by
  unfold resolveMember
  rw [hget]
  simp only [Bool.true_and]
  rw [if_neg (by simp [hno])]


/-- Core inverse lemma for the set walk on cleanly resolving paths:
the walk does not throw, preserves the `typeof` of the node, and
re-setting the previously resolved value restores the tree exactly. -/
theorem setGo_clean (ts : List PathToken) :
    ∀ (cur v : Value), cleanPath cur ts = true → ts ≠ [] →
      (setGo cur v ts).2 = false ∧
      typeofObject (setGo cur v ts).1 = typeofObject cur ∧
      setGo (setGo cur v ts).1 (resolvedVal cur ts) ts = (cur, false) := by
  induction ts with
  | nil =>
    intro cur v _ hne
    exact absurd rfl hne
  | cons tok rest ih =>
    intro cur v hc _
    cases rest with
    | nil =>
      cases tok with
      | key k =>
        cases cur with
        | obj fs =>
          simp only [cleanPath, Bool.and_eq_true] at hc
          have e1 : setGo (Value.obj fs) v [PathToken.key k] =
              (Value.obj (objSet fs k v), false) := rfl
          have e2 : resolvedVal (Value.obj fs) [PathToken.key k] = objGet fs k := rfl
          rw [e1, e2]
          refine ⟨rfl, rfl, ?_⟩
          show (Value.obj (objSet (objSet fs k v) k (objGet fs k)), false) = _
          rw [objSet_cancel fs k v hc.1]
        | undef => simp [cleanPath] at hc
        | null => simp [cleanPath] at hc
        | bool b => simp [cleanPath] at hc
        | num m => simp [cleanPath] at hc
        | str s => simp [cleanPath] at hc
        | arr xs => simp [cleanPath] at hc
      | index n =>
        cases cur with
        | arr xs =>
          simp only [cleanPath, Bool.and_eq_true, decide_eq_true_eq] at hc
          obtain ⟨hlt, _⟩ := hc
          have e1 : setGo (Value.arr xs) v [PathToken.index n] =
              (match jsSetMember (Value.arr xs) (natRepr n) v with
               | Except.ok cur2 => (cur2, false)
               | Except.error _ => (Value.arr xs, true)) := rfl
          have e2 : resolvedVal (Value.arr xs) [PathToken.index n] =
              xs.getD n Value.undef := rfl
          rw [e1, e2, jsSetMember_arr_idx xs n v hlt]
          refine ⟨rfl, rfl, ?_⟩
          have e3 : setGo (Value.arr (xs.set n v)) (xs.getD n Value.undef)
              [PathToken.index n] =
              (match jsSetMember (Value.arr (xs.set n v)) (natRepr n)
                  (xs.getD n Value.undef) with
               | Except.ok cur2 => (cur2, false)
               | Except.error _ => (Value.arr (xs.set n v), true)) := rfl
          rw [e3, jsSetMember_arr_idx _ n _ (by simpa using hlt)]
          rw [List.set_set, set_getD_self xs n Value.undef hlt]
        | undef => simp [cleanPath] at hc
        | null => simp [cleanPath] at hc
        | bool b => simp [cleanPath] at hc
        | num m => simp [cleanPath] at hc
        | str s => simp [cleanPath] at hc
        | obj fs => simp [cleanPath] at hc
      | filter k fv => simp [cleanPath] at hc
    | cons r2 rs =>
      cases tok with
      | key k =>
        cases cur with
        | obj fs =>
          simp only [cleanPath, Bool.and_eq_true] at hc
          obtain ⟨hhas, hrest⟩ := hc
          have htc : typeofObject (objGet fs k) = true :=
            cleanPath_typeofObject r2 rs _ hrest
          obtain ⟨ihA, ihB, ihC⟩ := ih (objGet fs k) v hrest (by simp)
          have hres : resolveNext (Value.obj fs) (PathToken.key k) true =
              (Value.obj fs, Except.ok (objGet fs k, Loc.field k)) :=
            resolveMember_noCreate (Value.obj fs) k (objGet fs k) true
              (jsGetMember_obj fs k) (by simp [htc])
          obtain ⟨child2, hchild2⟩ : ∃ c2, setGo (objGet fs k) v (r2 :: rs) = (c2, false) := by
            cases hsg : setGo (objGet fs k) v (r2 :: rs) with
            | mk c2 th =>
              rw [hsg] at ihA
              simp only at ihA
              subst ihA
              exact ⟨c2, rfl⟩
          have htc2 : typeofObject child2 = true := by
            rw [hchild2] at ihB
            simpa [htc] using ihB
          have ihC2 : setGo child2 (resolvedVal (objGet fs k) (r2 :: rs)) (r2 :: rs) =
              (objGet fs k, false) := by
            rw [hchild2] at ihC
            simpa using ihC
          have e1 : setGo (Value.obj fs) v (PathToken.key k :: r2 :: rs) =
              (Value.obj (objSet fs k child2), false) := by
            rw [setGo, hres]
            simp only [hchild2, writeLoc]
          have e2 : resolvedVal (Value.obj fs) (PathToken.key k :: r2 :: rs) =
              resolvedVal (objGet fs k) (r2 :: rs) := rfl
          rw [e1, e2]
          refine ⟨rfl, rfl, ?_⟩
          have hres2 : resolveNext (Value.obj (objSet fs k child2)) (PathToken.key k) true =
              (Value.obj (objSet fs k child2), Except.ok (child2, Loc.field k)) :=
            resolveMember_noCreate (Value.obj (objSet fs k child2)) k child2 true
              (by rw [jsGetMember_obj, objGet_objSet]) (by simp [htc2])
          rw [setGo, hres2]
          simp only [ihC2, writeLoc]
          rw [objSet_cancel fs k child2 hhas]
        | undef => simp [cleanPath] at hc
        | null => simp [cleanPath] at hc
        | bool b => simp [cleanPath] at hc
        | num m => simp [cleanPath] at hc
        | str s => simp [cleanPath] at hc
        | arr xs => simp [cleanPath] at hc
      | index n =>
        cases cur with
        | arr xs =>
          simp only [cleanPath, Bool.and_eq_true, decide_eq_true_eq] at hc
          obtain ⟨hlt, hrest⟩ := hc
          have htc : typeofObject (xs.getD n Value.undef) = true :=
            cleanPath_typeofObject r2 rs _ hrest
          obtain ⟨ihA, ihB, ihC⟩ := ih (xs.getD n Value.undef) v hrest (by simp)
          have hres : resolveNext (Value.arr xs) (PathToken.index n) true =
              (Value.arr xs, Except.ok (xs.getD n Value.undef, Loc.elem n)) := by
            have h0 := resolveMember_noCreate (Value.arr xs) (natRepr n)
              (xs.getD n Value.undef) false (jsGetMember_arr_idx xs n)
              (isUndefV_false htc)
            rw [locOf_arr_idx] at h0
            exact h0
          obtain ⟨child2, hchild2⟩ : ∃ c2,
              setGo (xs.getD n Value.undef) v (r2 :: rs) = (c2, false) := by
            cases hsg : setGo (xs.getD n Value.undef) v (r2 :: rs) with
            | mk c2 th =>
              rw [hsg] at ihA
              simp only at ihA
              subst ihA
              exact ⟨c2, rfl⟩
          have htc2 : typeofObject child2 = true := by
            rw [hchild2, htc] at ihB
            exact ihB
          have ihC2 : setGo child2 (resolvedVal (xs.getD n Value.undef) (r2 :: rs))
              (r2 :: rs) = (xs.getD n Value.undef, false) := by
            rw [hchild2] at ihC
            exact ihC
          have e1 : setGo (Value.arr xs) v (PathToken.index n :: r2 :: rs) =
              (Value.arr (xs.set n child2), false) := by
            rw [setGo, hres]
            simp only [hchild2, writeLoc]
          have e2 : resolvedVal (Value.arr xs) (PathToken.index n :: r2 :: rs) =
              resolvedVal (xs.getD n Value.undef) (r2 :: rs) := rfl
          rw [e1, e2]
          refine ⟨rfl, rfl, ?_⟩
          have hres2 : resolveNext (Value.arr (xs.set n child2)) (PathToken.index n) true =
              (Value.arr (xs.set n child2), Except.ok (child2, Loc.elem n)) := by
            have hg : jsGetMember (Value.arr (xs.set n child2)) (natRepr n) =
                Except.ok child2 := by
              rw [jsGetMember_arr_idx, getD_set_self xs n child2 Value.undef hlt]
            have h0 := resolveMember_noCreate (Value.arr (xs.set n child2)) (natRepr n)
              child2 false hg (isUndefV_false htc2)
            rw [locOf_arr_idx] at h0
            exact h0
          rw [setGo, hres2]
          simp only [ihC2, writeLoc]
          rw [List.set_set, set_getD_self xs n Value.undef hlt]
        | undef => simp [cleanPath] at hc
        | null => simp [cleanPath] at hc
        | bool b => simp [cleanPath] at hc
        | num m => simp [cleanPath] at hc
        | str s => simp [cleanPath] at hc
        | obj fs => simp [cleanPath] at hc
      | filter k fv => simp [cleanPath] at hc


/- ### The deep copy is the identity on modeled values -/

mutual

theorem cloneValue_id : (v : Value) → cloneValue v = v
  | Value.undef => rfl
  | Value.null => rfl
  | Value.bool _ => rfl
  | Value.num _ => rfl
  | Value.str _ => rfl
  | Value.obj fs => by rw [cloneValue, cloneFields_id fs]
  | Value.arr xs => by rw [cloneValue, cloneElems_id xs]

theorem cloneFields_id : (fs : List (String × Value)) → cloneFields fs = fs
  | [] => rfl
  | (k, v) :: t => by rw [cloneFields, cloneValue_id v, cloneFields_id t]

theorem cloneElems_id : (xs : List Value) → cloneElems xs = xs
  | [] => rfl
  | v :: t => by rw [cloneElems, cloneValue_id v, cloneElems_id t]

end

/- ### C1: inverse correctness of `set` -/

/-- The tree and outcome of a clean, non-duplicate `set`. -/
theorem doitSet_clean (s : DoItState) (P : String) (v : Value)
    (hc : cleanPath s.state (parsePath P) = true)
    (hne : parsePath P ≠ [])
    (hdup : deepEqual (resolvedVal s.state (parsePath P)) v = false) :
    doitSet s P v false =
      ({ s with
         state := (setGo s.state v (parsePath P)).1
         undoStack := pushEntry s.undoStack
           ⟨Operation.set P (cloneValue (resolvedVal s.state (parsePath P))),
            Operation.set P v⟩ s.maxHistory
         redoStack := []
         notifyCount := s.notifyCount + 1 },
       Except.ok (some (Operation.set P (cloneValue (resolvedVal s.state (parsePath P))),
         Operation.set P v))) := by
  obtain ⟨hA, hB, hC⟩ := setGo_clean (parsePath P) s.state v hc hne
  obtain ⟨T2, hT2⟩ : ∃ t2, setGo s.state v (parsePath P) = (t2, false) := by
    cases hsg : setGo s.state v (parsePath P) with
    | mk t2 th =>
      rw [hsg] at hA
      simp only at hA
      subst hA
      exact ⟨t2, rfl⟩
  have happ : applyOperation s.state (Operation.set P v) = (T2, false) := hT2
  have hsu : synthUndo P (parsePath P)
      ⟨true, resolvedVal s.state (parsePath P), -1⟩ =
      Operation.set P (cloneValue (resolvedVal s.state (parsePath P))) := by
    unfold synthUndo
    rw [if_neg (by simp)]
  unfold doitSet
  rw [probe_clean s.state (parsePath P) hc]
  simp only [hdup, Bool.true_and, Bool.false_eq_true, if_false, happ, hsu, hT2]


/-- C1 counterexample to the unrestricted claim: on the tree
`{a: 5}`, `set('a[0]', 1)` probes missing at the index token,
synthesizes the undo `Delete('a[0]')`, and the creating walk replaces
the scalar `5` by `{}`; applying the undo to the resulting tree
`{a: {"0": 1}}` is a silent no-op (the parent is not an array), so the
original tree is not restored. -/
theorem c1_counterexample :
    (doitSet (mkDoIt (Value.obj [("a", Value.num 5)]) none) "a[0]" (Value.num 1) false).2 =
      Except.ok (some (Operation.delete "a[0]", Operation.set "a[0]" (Value.num 1))) ∧
    (doitSet (mkDoIt (Value.obj [("a", Value.num 5)]) none) "a[0]" (Value.num 1) false).1.state =
      Value.obj [("a", Value.obj [("0", Value.num 1)])] ∧
    applyOperation (Value.obj [("a", Value.obj [("0", Value.num 1)])])
        (Operation.delete "a[0]") =
      (Value.obj [("a", Value.obj [("0", Value.num 1)])], false) ∧
    Value.obj [("a", Value.obj [("0", Value.num 1)])] ≠ Value.obj [("a", Value.num 5)] := by
  refine ⟨rfl, rfl, rfl, by simp⟩


theorem objGet_of_not_has (fs : List (String × Value)) (k : String)
    (h : objHas fs k = false) : objGet fs k = Value.undef := by
  induction fs with
  | nil => rfl
  | cons kv t ih =>
    obtain ⟨k0, v0⟩ := kv
    simp only [objHas, Bool.or_eq_false_iff, decide_eq_false_iff_not] at h
    simp only [objGet, if_neg h.1]
    exact ih h.2


theorem getD_of_len_le {α : Type} (l : List α) (n : Nat) (d : α) (h : l.length ≤ n) :
    l.getD n d = d := by
  induction l generalizing n with
  | nil => simp [List.getD]
  | cons x t ih =>
    cases n with
    | zero => simp at h
    | succ m =>
      simp only [List.getD_cons_succ]
      exact ih m (by simpa using h)


theorem jsSetMember_arr_any (xs : List Value) (n : Nat) (w : Value) :
    jsSetMember (Value.arr xs) (natRepr n) w = Except.ok (Value.arr (arrSetPad xs n w)) := by
  simp only [jsSetMember]
  rw [if_neg (natRepr_ne_length n), canonIdx_natRepr]


theorem setSafePath_typeofObject (tok : PathToken) (rest : List PathToken) (cur : Value)
    (h : setSafePath cur (tok :: rest) = true) : typeofObject cur = true := by
  cases tok <;> cases cur <;> simp_all [setSafePath, typeofObject]


theorem resolveMember_create (cur : Value) (k : String) (child cur2 : Value) (rep : Bool)
    (hget : jsGetMember cur k = Except.ok child)
    (hyes : (if rep then !(typeofObject child) else isUndefV child) = true)
    (hset : jsSetMember cur k (Value.obj []) = Except.ok cur2) :
    resolveMember cur k true rep = (cur2, Except.ok (Value.obj [], locOf cur k)) := by
  unfold resolveMember
  rw [hget]
  simp only [hyes, Bool.true_and, eq_self_iff_true, if_true]
  rw [hset]


/-- The set walk through a fresh map with only `key` tokens left never
throws: it keeps materializing `{}` children. -/
theorem setGo_freshObj_keys (ts : List PathToken) (hall : ts.all isKeyTok = true)
    (hne : ts ≠ []) : ∀ v : Value, (setGo (Value.obj []) v ts).2 = false := by
  induction ts with
  | nil => exact absurd rfl hne
  | cons tok rest ih =>
    intro v
    cases tok with
    | key k =>
      cases rest with
      | nil => rfl
      | cons r2 rs =>
        have hres : resolveNext (Value.obj []) (PathToken.key k) true =
            (Value.obj (objSet [] k (Value.obj [])),
              Except.ok (Value.obj [], Loc.field k)) := rfl
        have e2 : setGo (Value.obj []) v (PathToken.key k :: r2 :: rs) =
            (writeLoc (Value.obj (objSet [] k (Value.obj []))) (Loc.field k)
               (setGo (Value.obj []) v (r2 :: rs)).1,
             (setGo (Value.obj []) v (r2 :: rs)).2) := by
          show (match resolveNext (Value.obj []) (PathToken.key k) true with
                | (cur2, Except.error _) => (cur2, true)
                | (cur2, Except.ok (child, loc)) =>
                  match setGo child v (r2 :: rs) with
                  | (child2, threw) => (writeLoc cur2 loc child2, threw)) = _
          rw [hres]
        rw [e2]
        have hrest : (r2 :: rs).all isKeyTok = true := by
          simp only [List.all_cons, Bool.and_eq_true] at hall ⊢
          exact hall.2
        exact ih hrest (by simp) v
    | index n => simp [List.all_cons, isKeyTok] at hall
    | filter k fv => simp [List.all_cons, isKeyTok] at hall


/-- On the typed fragment the set walk never throws. -/
theorem setGo_safe (ts : List PathToken) :
    ∀ (cur v : Value), setSafePath cur ts = true → ts ≠ [] →
      (setGo cur v ts).2 = false := by
  induction ts with
  | nil =>
    intro cur v _ hne
    exact absurd rfl hne
  | cons tok rest ih =>
    intro cur v hc _
    cases tok with
    | key k =>
      cases cur with
      | obj fs =>
        simp only [setSafePath] at hc
        cases rest with
        | nil => rfl
        | cons r2 rs =>
          by_cases hh : objHas fs k = true
          · rw [if_pos hh] at hc
            have htyp : typeofObject (objGet fs k) = true :=
              setSafePath_typeofObject r2 rs _ hc
            have hres : resolveNext (Value.obj fs) (PathToken.key k) true =
                (Value.obj fs, Except.ok (objGet fs k, Loc.field k)) :=
              resolveMember_noCreate (Value.obj fs) k (objGet fs k) true
                (jsGetMember_obj fs k) (by simp [htyp])
            have e2 : setGo (Value.obj fs) v (PathToken.key k :: r2 :: rs) =
                (writeLoc (Value.obj fs) (Loc.field k)
                   (setGo (objGet fs k) v (r2 :: rs)).1,
                 (setGo (objGet fs k) v (r2 :: rs)).2) := by
              show (match resolveNext (Value.obj fs) (PathToken.key k) true with
                    | (cur2, Except.error _) => (cur2, true)
                    | (cur2, Except.ok (child, loc)) =>
                      match setGo child v (r2 :: rs) with
                      | (child2, threw) => (writeLoc cur2 loc child2, threw)) = _
              rw [hres]
            rw [e2]
            exact ih _ v hc (by simp)
          · rw [if_neg hh] at hc
            have hget : jsGetMember (Value.obj fs) k = Except.ok Value.undef := by
              rw [jsGetMember_obj, objGet_of_not_has fs k (by simpa using hh)]
            have hres : resolveNext (Value.obj fs) (PathToken.key k) true =
                (Value.obj (objSet fs k (Value.obj [])),
                  Except.ok (Value.obj [], Loc.field k)) :=
              resolveMember_create (Value.obj fs) k Value.undef
                (Value.obj (objSet fs k (Value.obj []))) true hget (by rfl) (by rfl)
            have e2 : setGo (Value.obj fs) v (PathToken.key k :: r2 :: rs) =
                (writeLoc (Value.obj (objSet fs k (Value.obj []))) (Loc.field k)
                   (setGo (Value.obj []) v (r2 :: rs)).1,
                 (setGo (Value.obj []) v (r2 :: rs)).2) := by
              show (match resolveNext (Value.obj fs) (PathToken.key k) true with
                    | (cur2, Except.error _) => (cur2, true)
                    | (cur2, Except.ok (child, loc)) =>
                      match setGo child v (r2 :: rs) with
                      | (child2, threw) => (writeLoc cur2 loc child2, threw)) = _
              rw [hres]
            rw [e2]
            exact setGo_freshObj_keys (r2 :: rs) hc (by simp) v
      | undef => simp [setSafePath] at hc
      | null => simp [setSafePath] at hc
      | bool b => simp [setSafePath] at hc
      | num m => simp [setSafePath] at hc
      | str s => simp [setSafePath] at hc
      | arr xs => simp [setSafePath] at hc
    | index n =>
      cases cur with
      | arr xs =>
        simp only [setSafePath] at hc
        cases rest with
        | nil =>
          show (match jsSetMember (Value.arr xs) (natRepr n) v with
                | Except.ok cur2 => (cur2, false)
                | Except.error _ => (Value.arr xs, true)).2 = false
          rw [jsSetMember_arr_any]
        | cons r2 rs =>
          by_cases hlt : n < xs.length
          · rw [if_pos hlt] at hc
            have htyp : typeofObject (xs.getD n Value.undef) = true :=
              setSafePath_typeofObject r2 rs _ hc
            have hres0 : resolveMember (Value.arr xs) (natRepr n) true false =
                (Value.arr xs,
                  Except.ok (xs.getD n Value.undef, locOf (Value.arr xs) (natRepr n))) :=
              resolveMember_noCreate (Value.arr xs) (natRepr n) (xs.getD n Value.undef) false
                (jsGetMember_arr_idx xs n) (isUndefV_false htyp)
            rw [locOf_arr_idx] at hres0
            have e2 : setGo (Value.arr xs) v (PathToken.index n :: r2 :: rs) =
                (writeLoc (Value.arr xs) (Loc.elem n)
                   (setGo (xs.getD n Value.undef) v (r2 :: rs)).1,
                 (setGo (xs.getD n Value.undef) v (r2 :: rs)).2) := by
              show (match resolveMember (Value.arr xs) (natRepr n) true false with
                    | (cur2, Except.error _) => (cur2, true)
                    | (cur2, Except.ok (child, loc)) =>
                      match setGo child v (r2 :: rs) with
                      | (child2, threw) => (writeLoc cur2 loc child2, threw)) = _
              rw [hres0]
            rw [e2]
            exact ih _ v hc (by simp)
          · rw [if_neg hlt] at hc
            have hget : jsGetMember (Value.arr xs) (natRepr n) = Except.ok Value.undef := by
              rw [jsGetMember_arr_idx, getD_of_len_le xs n Value.undef (Nat.le_of_not_lt hlt)]
            have hres0 : resolveMember (Value.arr xs) (natRepr n) true false =
                (Value.arr (arrSetPad xs n (Value.obj [])),
                  Except.ok (Value.obj [], locOf (Value.arr xs) (natRepr n))) :=
              resolveMember_create (Value.arr xs) (natRepr n) Value.undef
                (Value.arr (arrSetPad xs n (Value.obj []))) false hget (by rfl)
                (jsSetMember_arr_any xs n (Value.obj []))
            rw [locOf_arr_idx] at hres0
            have e2 : setGo (Value.arr xs) v (PathToken.index n :: r2 :: rs) =
                (writeLoc (Value.arr (arrSetPad xs n (Value.obj []))) (Loc.elem n)
                   (setGo (Value.obj []) v (r2 :: rs)).1,
                 (setGo (Value.obj []) v (r2 :: rs)).2) := by
              show (match resolveMember (Value.arr xs) (natRepr n) true false with
                    | (cur2, Except.error _) => (cur2, true)
                    | (cur2, Except.ok (child, loc)) =>
                      match setGo child v (r2 :: rs) with
                      | (child2, threw) => (writeLoc cur2 loc child2, threw)) = _
              rw [hres0]
            rw [e2]
            exact setGo_freshObj_keys (r2 :: rs) hc (by simp) v
      | undef => simp [setSafePath] at hc
      | null => simp [setSafePath] at hc
      | bool b => simp [setSafePath] at hc
      | num m => simp [setSafePath] at hc
      | str s => simp [setSafePath] at hc
      | obj fs => simp [setSafePath] at hc
    | filter k fv =>
      cases cur <;> simp [setSafePath] at hc


/-- On the typed fragment the probe never throws. -/
theorem probeGo_safe (ts : List PathToken) :
    ∀ (cur : Value) (i : Nat), setSafePath cur ts = true →
      ∃ r, probeGo cur ts i = Except.ok r := by
  induction ts with
  | nil => intro cur i _; exact ⟨_, rfl⟩
  | cons tok rest ih =>
    intro cur i hc
    cases tok with
    | key k =>
      cases cur with
      | obj fs =>
        simp only [setSafePath] at hc
        by_cases hh : objHas fs k = true
        · have e : probeGo (Value.obj fs) (PathToken.key k :: rest) i =
              probeGo (objGet fs k) rest (i + 1) := by
            show (match jsInOp (Value.obj fs) k with
                  | Except.error _ => Except.error ()
                  | Except.ok true => probeGo (jsGetMemberT (Value.obj fs) k) rest (i + 1)
                  | Except.ok false => Except.ok ⟨false, Value.undef, i⟩) = _
            rw [show jsInOp (Value.obj fs) k = Except.ok true by simp [jsInOp, hh]]
            rfl
          rw [e]
          rw [if_pos hh] at hc
          exact ih _ _ hc
        · have e : probeGo (Value.obj fs) (PathToken.key k :: rest) i =
              Except.ok ⟨false, Value.undef, i⟩ := by
            show (match jsInOp (Value.obj fs) k with
                  | Except.error _ => Except.error ()
                  | Except.ok true => probeGo (jsGetMemberT (Value.obj fs) k) rest (i + 1)
                  | Except.ok false => Except.ok ⟨false, Value.undef, i⟩) = _
            rw [show jsInOp (Value.obj fs) k = Except.ok false by
              simp [jsInOp]; simpa using hh]
          exact ⟨_, e⟩
      | undef => simp [setSafePath] at hc
      | null => simp [setSafePath] at hc
      | bool b => simp [setSafePath] at hc
      | num m => simp [setSafePath] at hc
      | str s => simp [setSafePath] at hc
      | arr xs => simp [setSafePath] at hc
    | index n =>
      cases cur with
      | arr xs =>
        simp only [setSafePath] at hc
        by_cases hlt : n < xs.length
        · have e : probeGo (Value.arr xs) (PathToken.index n :: rest) i =
              probeGo (xs.getD n Value.undef) rest (i + 1) := by
            show (if n < xs.length then probeGo (xs.getD n Value.undef) rest (i + 1)
                  else Except.ok ⟨false, Value.undef, i⟩) = _
            rw [if_pos hlt]
          rw [e]
          rw [if_pos hlt] at hc
          exact ih _ _ hc
        · have e : probeGo (Value.arr xs) (PathToken.index n :: rest) i =
              Except.ok ⟨false, Value.undef, i⟩ := by
            show (if n < xs.length then probeGo (xs.getD n Value.undef) rest (i + 1)
                  else Except.ok ⟨false, Value.undef, i⟩) = _
            rw [if_neg hlt]
          exact ⟨_, e⟩
      | undef => simp [setSafePath] at hc
      | null => simp [setSafePath] at hc
      | bool b => simp [setSafePath] at hc
      | num m => simp [setSafePath] at hc
      | str s => simp [setSafePath] at hc
      | obj fs => simp [setSafePath] at hc
    | filter k fv =>
      cases cur <;> simp [setSafePath] at hc


/- ### The creation arm: the `Delete` undo inverts key-creating sets -/

theorem objSet_objSet (fs : List (String × Value)) (k : String) (a b : Value) :
    objSet (objSet fs k a) k b = objSet fs k b := by
  induction fs with
  | nil => simp [objSet]
  | cons kv t ih =>
    obtain ⟨k0, v0⟩ := kv
    by_cases h : k0 = k
    · simp [objSet, h]
    · simp [objSet, h, ih]

theorem objRemove_objSet_new (fs : List (String × Value)) (k : String) (w : Value)
    (h : objHas fs k = false) : objRemove (objSet fs k w) k = fs := by
  induction fs with
  | nil => simp [objSet, objRemove]
  | cons kv t ih =>
    obtain ⟨k0, v0⟩ := kv
    simp only [objHas, Bool.or_eq_false_iff, decide_eq_false_iff_not] at h
    simp [objSet, objRemove, h.1, ih h.2]

theorem createPath_typeofObject (tok : PathToken) (rest : List PathToken) (cur : Value)
    (h : createPath cur (tok :: rest) = true) : typeofObject cur = true := by
  cases tok <;> cases cur <;> simp_all [createPath, typeofObject]

theorem resolveMember_noCreateFlag (cur : Value) (k : String) (child : Value) (rep : Bool)
    (hget : jsGetMember cur k = Except.ok child) :
    resolveMember cur k false rep = (cur, Except.ok (child, locOf cur k)) := by
  unfold resolveMember
  rw [hget]
  simp only [Bool.false_and, Bool.false_eq_true, if_false]

/-- The probe on a creation path misses exactly at the first missing
key. -/
theorem probeGo_create (ts : List PathToken) :
    ∀ (cur : Value) (i : Nat), createPath cur ts = true →
      probeGo cur ts i =
        Except.ok ⟨false, Value.undef, ((i + missIdx cur ts : Nat) : Int)⟩ := by
  induction ts with
  | nil => intro cur i hc; simp [createPath] at hc
  | cons tok rest ih =>
    intro cur i hc
    cases tok with
    | key k =>
      cases cur with
      | obj fs =>
        simp only [createPath] at hc
        by_cases hh : objHas fs k = true
        · rw [if_pos hh] at hc
          have em : missIdx (Value.obj fs) (PathToken.key k :: rest) =
              missIdx (objGet fs k) rest + 1 := by
            show (if objHas fs k then missIdx (objGet fs k) rest + 1 else 0) = _
            rw [if_pos hh]
          have e1 : probeGo (Value.obj fs) (PathToken.key k :: rest) i =
              probeGo (objGet fs k) rest (i + 1) := by
            show (match jsInOp (Value.obj fs) k with
                  | Except.error _ => Except.error ()
                  | Except.ok true => probeGo (jsGetMemberT (Value.obj fs) k) rest (i + 1)
                  | Except.ok false => Except.ok ⟨false, Value.undef, i⟩) = _
            rw [show jsInOp (Value.obj fs) k = Except.ok true by simp [jsInOp, hh]]
            rfl
          rw [e1, em, ih _ _ hc]
          rw [show i + 1 + missIdx (objGet fs k) rest =
              i + (missIdx (objGet fs k) rest + 1) from by omega]
        · rw [if_neg hh] at hc
          have em : missIdx (Value.obj fs) (PathToken.key k :: rest) = 0 := by
            show (if objHas fs k then missIdx (objGet fs k) rest + 1 else 0) = _
            rw [if_neg hh]
          have e1 : probeGo (Value.obj fs) (PathToken.key k :: rest) i =
              Except.ok ⟨false, Value.undef, i⟩ := by
            show (match jsInOp (Value.obj fs) k with
                  | Except.error _ => Except.error ()
                  | Except.ok true => probeGo (jsGetMemberT (Value.obj fs) k) rest (i + 1)
                  | Except.ok false => Except.ok ⟨false, Value.undef, i⟩) = _
            rw [show jsInOp (Value.obj fs) k = Except.ok false by
              simp [jsInOp]; simpa using hh]
          rw [e1, em, Nat.add_zero]
      | undef => simp [createPath] at hc
      | null => simp [createPath] at hc
      | bool b => simp [createPath] at hc
      | num m => simp [createPath] at hc
      | str s => simp [createPath] at hc
      | arr xs => simp [createPath] at hc
    | index n =>
      cases cur with
      | arr xs =>
        simp only [createPath, Bool.and_eq_true, decide_eq_true_eq] at hc
        obtain ⟨hlt, hc2⟩ := hc
        have em : missIdx (Value.arr xs) (PathToken.index n :: rest) =
            missIdx (xs.getD n Value.undef) rest + 1 := rfl
        have e1 : probeGo (Value.arr xs) (PathToken.index n :: rest) i =
            probeGo (xs.getD n Value.undef) rest (i + 1) := by
          show (if n < xs.length then probeGo (xs.getD n Value.undef) rest (i + 1)
                else Except.ok ⟨false, Value.undef, i⟩) = _
          rw [if_pos hlt]
        rw [e1, em, ih _ _ hc2]
        rw [show i + 1 + missIdx (xs.getD n Value.undef) rest =
            i + (missIdx (xs.getD n Value.undef) rest + 1) from by omega]
      | undef => simp [createPath] at hc
      | null => simp [createPath] at hc
      | bool b => simp [createPath] at hc
      | num m => simp [createPath] at hc
      | str s => simp [createPath] at hc
      | obj fs => simp [createPath] at hc
    | filter k fv => cases cur <;> simp [createPath] at hc

/-- `probe` on a creation path. -/
theorem probe_create (t : Value) (ts : List PathToken) (hc : createPath t ts = true) :
    probe t ts = Except.ok ⟨false, Value.undef, (missIdx t ts : Int)⟩ := by
  have h := probeGo_create ts t 0 hc
  rw [Nat.zero_add] at h
  exact h

/-- Core inverse lemma for the creation arm: on a creation path the set
walk does not throw, leaves a truthy node, and deleting the path
truncated after the first missing key restores the tree exactly. -/
theorem setGo_createInv (ts : List PathToken) :
    ∀ (cur v : Value), createPath cur ts = true →
      (setGo cur v ts).2 = false ∧
      truthy (setGo cur v ts).1 = true ∧
      deleteGo (setGo cur v ts).1 (ts.take (missIdx cur ts + 1)) = (cur, false) := by
  induction ts with
  | nil => intro cur v hc; simp [createPath] at hc
  | cons tok rest ih =>
    intro cur v hc
    cases tok with
    | key k =>
      cases cur with
      | obj fs =>
        simp only [createPath] at hc
        by_cases hh : objHas fs k = true
        · -- clean hop through an existing field; the missing key is deeper
          rw [if_pos hh] at hc
          obtain ⟨r2, rs, hrr⟩ : ∃ r2 rs, rest = r2 :: rs := by
            cases rest with
            | nil => simp [createPath] at hc
            | cons a b => exact ⟨a, b, rfl⟩
          subst hrr
          have htyp : typeofObject (objGet fs k) = true :=
            createPath_typeofObject r2 rs _ hc
          have hres : resolveNext (Value.obj fs) (PathToken.key k) true =
              (Value.obj fs, Except.ok (objGet fs k, Loc.field k)) :=
            resolveMember_noCreate (Value.obj fs) k (objGet fs k) true
              (jsGetMember_obj fs k) (by simp [htyp])
          have e2 : setGo (Value.obj fs) v (PathToken.key k :: r2 :: rs) =
              (writeLoc (Value.obj fs) (Loc.field k)
                 (setGo (objGet fs k) v (r2 :: rs)).1,
               (setGo (objGet fs k) v (r2 :: rs)).2) := by
            show (match resolveNext (Value.obj fs) (PathToken.key k) true with
                  | (cur2, Except.error _) => (cur2, true)
                  | (cur2, Except.ok (child, loc)) =>
                    match setGo child v (r2 :: rs) with
                    | (child2, threw) => (writeLoc cur2 loc child2, threw)) = _
            rw [hres]
          obtain ⟨ihA, ihT, ihD⟩ := ih (objGet fs k) v hc
          obtain ⟨child2, hch⟩ : ∃ c2, setGo (objGet fs k) v (r2 :: rs) = (c2, false) := by
            cases hsg : setGo (objGet fs k) v (r2 :: rs) with
            | mk c2 th =>
              rw [hsg] at ihA
              simp only at ihA
              subst ihA
              exact ⟨c2, rfl⟩
          have ihT2 : truthy child2 = true := by rw [hch] at ihT; exact ihT
          have ihD2 : deleteGo child2
              (r2 :: rs.take (missIdx (objGet fs k) (r2 :: rs))) =
              (objGet fs k, false) := by
            rw [hch] at ihD
            rw [← List.take_succ_cons]
            exact ihD
          have em : missIdx (Value.obj fs) (PathToken.key k :: r2 :: rs) =
              missIdx (objGet fs k) (r2 :: rs) + 1 := by
            show (if objHas fs k then missIdx (objGet fs k) (r2 :: rs) + 1 else 0) = _
            rw [if_pos hh]
          have e3 : setGo (Value.obj fs) v (PathToken.key k :: r2 :: rs) =
              (Value.obj (objSet fs k child2), false) := by
            rw [e2, hch]
            rfl
          rw [e3, em]
          refine ⟨rfl, rfl, ?_⟩
          rw [List.take_succ_cons, List.take_succ_cons]
          have hresd : resolveNext (Value.obj (objSet fs k child2)) (PathToken.key k) false =
              (Value.obj (objSet fs k child2), Except.ok (child2, Loc.field k)) := by
            show resolveMember (Value.obj (objSet fs k child2)) k false true = _
            exact resolveMember_noCreateFlag _ _ _ _
              (by rw [jsGetMember_obj, objGet_objSet])
          show (match resolveNext (Value.obj (objSet fs k child2)) (PathToken.key k) false with
                | (_, Except.error _) => (Value.obj (objSet fs k child2), true)
                | (_, Except.ok (child, loc)) =>
                  if truthy child then
                    match deleteGo child
                        (r2 :: rs.take (missIdx (objGet fs k) (r2 :: rs))) with
                    | (d2, threw) =>
                      (writeLoc (Value.obj (objSet fs k child2)) loc d2, threw)
                  else (Value.obj (objSet fs k child2), false)) = _
          rw [hresd]
          show (if truthy child2 then
                  match deleteGo child2
                      (r2 :: rs.take (missIdx (objGet fs k) (r2 :: rs))) with
                  | (d2, threw) =>
                    (writeLoc (Value.obj (objSet fs k child2)) (Loc.field k) d2, threw)
                else (Value.obj (objSet fs k child2), false)) = _
          rw [if_pos ihT2, ihD2]
          show (Value.obj (objSet (objSet fs k child2) k (objGet fs k)), false) =
              (Value.obj fs, false)
          rw [objSet_cancel fs k child2 hh]
        · -- the creation point: a key missing from an existing map
          rw [if_neg hh] at hc
          have em : missIdx (Value.obj fs) (PathToken.key k :: rest) = 0 := by
            show (if objHas fs k then missIdx (objGet fs k) rest + 1 else 0) = _
            rw [if_neg hh]
          cases rest with
          | nil =>
            have e3 : setGo (Value.obj fs) v [PathToken.key k] =
                (Value.obj (objSet fs k v), false) := rfl
            rw [e3, em]
            refine ⟨rfl, rfl, ?_⟩
            show (Value.obj (objRemove (objSet fs k v) k), false) = (Value.obj fs, false)
            rw [objRemove_objSet_new fs k v (by simpa using hh)]
          | cons r2 rs =>
            have hget : jsGetMember (Value.obj fs) k = Except.ok Value.undef := by
              rw [jsGetMember_obj, objGet_of_not_has fs k (by simpa using hh)]
            have hres : resolveNext (Value.obj fs) (PathToken.key k) true =
                (Value.obj (objSet fs k (Value.obj [])),
                  Except.ok (Value.obj [], Loc.field k)) :=
              resolveMember_create (Value.obj fs) k Value.undef
                (Value.obj (objSet fs k (Value.obj []))) true hget (by rfl) (by rfl)
            have e2 : setGo (Value.obj fs) v (PathToken.key k :: r2 :: rs) =
                (writeLoc (Value.obj (objSet fs k (Value.obj []))) (Loc.field k)
                   (setGo (Value.obj []) v (r2 :: rs)).1,
                 (setGo (Value.obj []) v (r2 :: rs)).2) := by
              show (match resolveNext (Value.obj fs) (PathToken.key k) true with
                    | (cur2, Except.error _) => (cur2, true)
                    | (cur2, Except.ok (child, loc)) =>
                      match setGo child v (r2 :: rs) with
                      | (child2, threw) => (writeLoc cur2 loc child2, threw)) = _
              rw [hres]
            have hA := setGo_freshObj_keys (r2 :: rs) hc (by simp) v
            obtain ⟨c2, hch⟩ : ∃ c2, setGo (Value.obj []) v (r2 :: rs) = (c2, false) := by
              cases hsg : setGo (Value.obj []) v (r2 :: rs) with
              | mk c2 th =>
                rw [hsg] at hA
                simp only at hA
                subst hA
                exact ⟨c2, rfl⟩
            have e3 : setGo (Value.obj fs) v (PathToken.key k :: r2 :: rs) =
                (Value.obj (objSet (objSet fs k (Value.obj [])) k c2), false) := by
              rw [e2, hch]
              rfl
            rw [e3, em, objSet_objSet]
            refine ⟨rfl, rfl, ?_⟩
            rw [List.take_succ_cons, List.take_zero]
            show (Value.obj (objRemove (objSet fs k c2) k), false) = (Value.obj fs, false)
            rw [objRemove_objSet_new fs k c2 (by simpa using hh)]
      | undef => simp [createPath] at hc
      | null => simp [createPath] at hc
      | bool b => simp [createPath] at hc
      | num m => simp [createPath] at hc
      | str s => simp [createPath] at hc
      | arr xs => simp [createPath] at hc
    | index n =>
      cases cur with
      | arr xs =>
        simp only [createPath, Bool.and_eq_true, decide_eq_true_eq] at hc
        obtain ⟨hlt, hc2⟩ := hc
        obtain ⟨r2, rs, hrr⟩ : ∃ r2 rs, rest = r2 :: rs := by
          cases rest with
          | nil => simp [createPath] at hc2
          | cons a b => exact ⟨a, b, rfl⟩
        subst hrr
        have htyp : typeofObject (xs.getD n Value.undef) = true :=
          createPath_typeofObject r2 rs _ hc2
        have hres0 : resolveMember (Value.arr xs) (natRepr n) true false =
            (Value.arr xs,
              Except.ok (xs.getD n Value.undef, locOf (Value.arr xs) (natRepr n))) :=
          resolveMember_noCreate (Value.arr xs) (natRepr n) (xs.getD n Value.undef) false
            (jsGetMember_arr_idx xs n) (isUndefV_false htyp)
        rw [locOf_arr_idx] at hres0
        have e2 : setGo (Value.arr xs) v (PathToken.index n :: r2 :: rs) =
            (writeLoc (Value.arr xs) (Loc.elem n)
               (setGo (xs.getD n Value.undef) v (r2 :: rs)).1,
             (setGo (xs.getD n Value.undef) v (r2 :: rs)).2) := by
          show (match resolveMember (Value.arr xs) (natRepr n) true false with
                | (cur2, Except.error _) => (cur2, true)
                | (cur2, Except.ok (child, loc)) =>
                  match setGo child v (r2 :: rs) with
                  | (child2, threw) => (writeLoc cur2 loc child2, threw)) = _
          rw [hres0]
        obtain ⟨ihA, ihT, ihD⟩ := ih (xs.getD n Value.undef) v hc2
        obtain ⟨child2, hch⟩ : ∃ c2,
            setGo (xs.getD n Value.undef) v (r2 :: rs) = (c2, false) := by
          cases hsg : setGo (xs.getD n Value.undef) v (r2 :: rs) with
          | mk c2 th =>
            rw [hsg] at ihA
            simp only at ihA
            subst ihA
            exact ⟨c2, rfl⟩
        have ihT2 : truthy child2 = true := by rw [hch] at ihT; exact ihT
        have ihD2 : deleteGo child2
            (r2 :: rs.take (missIdx (xs.getD n Value.undef) (r2 :: rs))) =
            (xs.getD n Value.undef, false) := by
          rw [hch] at ihD
          rw [← List.take_succ_cons]
          exact ihD
        have em : missIdx (Value.arr xs) (PathToken.index n :: r2 :: rs) =
            missIdx (xs.getD n Value.undef) (r2 :: rs) + 1 := rfl
        have e3 : setGo (Value.arr xs) v (PathToken.index n :: r2 :: rs) =
            (Value.arr (xs.set n child2), false) := by
          rw [e2, hch]
          rfl
        rw [e3, em]
        refine ⟨rfl, rfl, ?_⟩
        rw [List.take_succ_cons, List.take_succ_cons]
        have hresd : resolveNext (Value.arr (xs.set n child2)) (PathToken.index n) false =
            (Value.arr (xs.set n child2), Except.ok (child2, Loc.elem n)) := by
          show resolveMember (Value.arr (xs.set n child2)) (natRepr n) false false = _
          have h0 := resolveMember_noCreateFlag (Value.arr (xs.set n child2))
            (natRepr n) child2 false
            (by rw [jsGetMember_arr_idx, getD_set_self xs n child2 Value.undef hlt])
          rw [locOf_arr_idx] at h0
          exact h0
        show (match resolveNext (Value.arr (xs.set n child2)) (PathToken.index n) false with
              | (_, Except.error _) => (Value.arr (xs.set n child2), true)
              | (_, Except.ok (child, loc)) =>
                if truthy child then
                  match deleteGo child
                      (r2 :: rs.take (missIdx (xs.getD n Value.undef) (r2 :: rs))) with
                  | (d2, threw) =>
                    (writeLoc (Value.arr (xs.set n child2)) loc d2, threw)
                else (Value.arr (xs.set n child2), false)) = _
        rw [hresd]
        show (if truthy child2 then
                match deleteGo child2
                    (r2 :: rs.take (missIdx (xs.getD n Value.undef) (r2 :: rs))) with
                | (d2, threw) =>
                  (writeLoc (Value.arr (xs.set n child2)) (Loc.elem n) d2, threw)
              else (Value.arr (xs.set n child2), false)) = _
        rw [if_pos ihT2, ihD2]
        show (Value.arr ((xs.set n child2).set n (xs.getD n Value.undef)), false) =
            (Value.arr xs, false)
        rw [List.set_set, set_getD_self xs n Value.undef hlt]
      | undef => simp [createPath] at hc
      | null => simp [createPath] at hc
      | bool b => simp [createPath] at hc
      | num m => simp [createPath] at hc
      | str s => simp [createPath] at hc
      | obj fs => simp [createPath] at hc
    | filter k fv => cases cur <;> simp [createPath] at hc

/-- The synthesized `Delete` undo of a creating set restores the tree
exactly (the truncated path re-parses to the truncated tokens). -/
theorem setGo_create_undo (t : Value) (P : String) (v : Value)
    (hc : createPath t (parsePath P) = true) :
    applyOperation (setGo t v (parsePath P)).1
      (Operation.delete (reconstructPath
        ((parsePath P).take (missIdx t (parsePath P) + 1)))) = (t, false) := by
  obtain ⟨hA, hT, hD⟩ := setGo_createInv (parsePath P) t v hc
  show deleteGo (setGo t v (parsePath P)).1
      (parsePath (reconstructPath
        ((parsePath P).take (missIdx t (parsePath P) + 1)))) = _
  rw [parsePath_reconstructPath _
    (fun t2 ht => parsePath_wf P t2 (List.take_subset _ _ ht))]
  exact hD

/-- The tree and outcome of a creating `set`: the undo is the `Delete`
of the path truncated after the first missing key. -/
theorem doitSet_create (s : DoItState) (P : String) (v : Value)
    (hc : createPath s.state (parsePath P) = true) :
    doitSet s P v false =
      ({ s with
         state := (setGo s.state v (parsePath P)).1
         undoStack := pushEntry s.undoStack
           ⟨Operation.delete (reconstructPath ((parsePath P).take
              (missIdx s.state (parsePath P) + 1))),
            Operation.set P v⟩ s.maxHistory
         redoStack := []
         notifyCount := s.notifyCount + 1 },
       Except.ok (some (Operation.delete (reconstructPath ((parsePath P).take
           (missIdx s.state (parsePath P) + 1))),
         Operation.set P v))) := by
  obtain ⟨hA, hT, hD⟩ := setGo_createInv (parsePath P) s.state v hc
  obtain ⟨T2, hT2⟩ : ∃ t2, setGo s.state v (parsePath P) = (t2, false) := by
    cases hsg : setGo s.state v (parsePath P) with
    | mk t2 th =>
      rw [hsg] at hA
      simp only at hA
      subst hA
      exact ⟨t2, rfl⟩
  have happ : applyOperation s.state (Operation.set P v) = (T2, false) := hT2
  have hsu : synthUndo P (parsePath P)
      ⟨false, Value.undef, (missIdx s.state (parsePath P) : Int)⟩ =
      Operation.delete (reconstructPath ((parsePath P).take
        (missIdx s.state (parsePath P) + 1))) := by
    show (if ((missIdx s.state (parsePath P) : Int)) ≠ -1 then
          Operation.delete (reconstructPath ((parsePath P).take
            (((missIdx s.state (parsePath P) : Int)) + 1).toNat))
        else Operation.set P (cloneValue Value.undef)) = _
    rw [if_pos (show ((missIdx s.state (parsePath P) : Int)) ≠ -1 from by omega)]
    rw [show (((missIdx s.state (parsePath P) : Int)) + 1).toNat =
        missIdx s.state (parsePath P) + 1 from by omega]
  unfold doitSet
  rw [probe_create s.state (parsePath P) hc]
  simp only [Bool.false_and, Bool.false_eq_true, if_false, happ, hsu, hT2]

/-- The internal variant of `doitSet_create` (no stack changes). -/
theorem doitSet_create_internal (s : DoItState) (P : String) (v : Value)
    (hc : createPath s.state (parsePath P) = true) :
    doitSet s P v true =
      ({ s with state := (setGo s.state v (parsePath P)).1 },
       Except.ok (some (Operation.delete (reconstructPath ((parsePath P).take
           (missIdx s.state (parsePath P) + 1))),
         Operation.set P v))) := by
  obtain ⟨hA, hT, hD⟩ := setGo_createInv (parsePath P) s.state v hc
  obtain ⟨T2, hT2⟩ : ∃ t2, setGo s.state v (parsePath P) = (t2, false) := by
    cases hsg : setGo s.state v (parsePath P) with
    | mk t2 th =>
      rw [hsg] at hA
      simp only at hA
      subst hA
      exact ⟨t2, rfl⟩
  have happ : applyOperation s.state (Operation.set P v) = (T2, false) := hT2
  have hsu : synthUndo P (parsePath P)
      ⟨false, Value.undef, (missIdx s.state (parsePath P) : Int)⟩ =
      Operation.delete (reconstructPath ((parsePath P).take
        (missIdx s.state (parsePath P) + 1))) := by
    show (if ((missIdx s.state (parsePath P) : Int)) ≠ -1 then
          Operation.delete (reconstructPath ((parsePath P).take
            (((missIdx s.state (parsePath P) : Int)) + 1).toNat))
        else Operation.set P (cloneValue Value.undef)) = _
    rw [if_pos (show ((missIdx s.state (parsePath P) : Int)) ≠ -1 from by omega)]
    rw [show (((missIdx s.state (parsePath P) : Int)) + 1).toNat =
        missIdx s.state (parsePath P) + 1 from by omega]
  unfold doitSet
  rw [probe_create s.state (parsePath P) hc]
  simp only [Bool.false_and, Bool.false_eq_true, if_false, happ, hsu, hT2,
    eq_self_iff_true, if_true]

/-- C1 (amended): for every store tree `T`, path `P` and value `V`,
when either *(replace arm)* every token of `P` resolves cleanly (a
`Key` through an existing map field, an `Index` through an in-range
array position) and the set is not short-circuited as a duplicate, or
*(creation arm)* `P` resolves cleanly down to a `Key` missing from an
existing map with only `Key` tokens after it: the synthesized undo —
`Set(P, deep copy of the previous value)` in the replace arm, `Delete`
of the path truncated at the probe's `missingIndex` in the creation
arm — applied to the post-set tree reproduces `T` exactly, and
re-applying the redo reproduces the post-set tree.  (The unrestricted
claim is false: creation through a type-mismatched or past-the-end
token clobbers the old scalar, or pads the array, in ways the
synthesized `Delete` cannot undo — see the counterexample — and a
trailing-`Filter` set that rewrites the filtered field is likewise not
undone exactly.) -/
theorem c1_set_inverse_amended (s : DoItState) (P : String) (v : Value)
    (hne : parsePath P ≠ [])
    (h : (cleanPath s.state (parsePath P) = true ∧
          deepEqual (resolvedVal s.state (parsePath P)) v = false) ∨
         createPath s.state (parsePath P) = true) :
    ∃ u r,
      (doitSet s P v false).2 = Except.ok (some (u, r)) ∧
      applyOperation (doitSet s P v false).1.state u = (s.state, false) ∧
      applyOperation s.state r = ((doitSet s P v false).1.state, false) ∧
      applyOperation (applyOperation (doitSet s P v false).1.state u).1 r =
        ((doitSet s P v false).1.state, false) := by
  rcases h with ⟨hc, hdup⟩ | hcr
  · obtain ⟨hA, hB, hC⟩ := setGo_clean (parsePath P) s.state v hc hne
    obtain ⟨T2, hT2⟩ : ∃ t2, setGo s.state v (parsePath P) = (t2, false) := by
      cases hsg : setGo s.state v (parsePath P) with
      | mk t2 th =>
        rw [hsg] at hA
        simp only at hA
        subst hA
        exact ⟨t2, rfl⟩
    have hD := doitSet_clean s P v hc hne hdup
    have hstate : (doitSet s P v false).1.state = T2 := by
      rw [hD]
      show (setGo s.state v (parsePath P)).1 = T2
      rw [hT2]
    have hundo : applyOperation T2
        (Operation.set P (cloneValue (resolvedVal s.state (parsePath P)))) =
        (s.state, false) := by
      show setGo T2 (cloneValue (resolvedVal s.state (parsePath P))) (parsePath P) = _
      rw [cloneValue_id]
      rw [hT2] at hC
      exact hC
    have hredo : applyOperation s.state (Operation.set P v) = (T2, false) := hT2
    refine ⟨Operation.set P (cloneValue (resolvedVal s.state (parsePath P))),
      Operation.set P v, ?_, ?_, ?_, ?_⟩
    · rw [hD]
    · rw [hstate]
      exact hundo
    · rw [hstate]
      exact hredo
    · rw [hstate, hundo]
      exact hredo
  · obtain ⟨hA, hT, hD2⟩ := setGo_createInv (parsePath P) s.state v hcr
    obtain ⟨T2, hT2⟩ : ∃ t2, setGo s.state v (parsePath P) = (t2, false) := by
      cases hsg : setGo s.state v (parsePath P) with
      | mk t2 th =>
        rw [hsg] at hA
        simp only at hA
        subst hA
        exact ⟨t2, rfl⟩
    have hDS := doitSet_create s P v hcr
    have hstate : (doitSet s P v false).1.state = T2 := by
      rw [hDS]
      show (setGo s.state v (parsePath P)).1 = T2
      rw [hT2]
    have hundo : applyOperation T2
        (Operation.delete (reconstructPath ((parsePath P).take
          (missIdx s.state (parsePath P) + 1)))) = (s.state, false) := by
      have h2 := setGo_create_undo s.state P v hcr
      rw [hT2] at h2
      exact h2
    have hredo : applyOperation s.state (Operation.set P v) = (T2, false) := hT2
    refine ⟨Operation.delete (reconstructPath ((parsePath P).take
        (missIdx s.state (parsePath P) + 1))),
      Operation.set P v, ?_, ?_, ?_, ?_⟩
    · rw [hDS]
    · rw [hstate]
      exact hundo
    · rw [hstate]
      exact hredo
    · rw [hstate, hundo]
      exact hredo

/-- Witness for the amended C1 on the test suite's creation scenario:
`set('user.profile.active', true)` on `{user: {}}` synthesizes
`Delete('user.profile')`, and undo/redo invert exactly. -/
theorem c1_set_inverse_amended_witness :
    createPath (mkDoIt (Value.obj [("user", Value.obj [])]) none).state
        (parsePath "user.profile.active") = true ∧
    (∃ u r,
      (doitSet (mkDoIt (Value.obj [("user", Value.obj [])]) none)
        "user.profile.active" (Value.bool true) false).2 = Except.ok (some (u, r)) ∧
      applyOperation (doitSet (mkDoIt (Value.obj [("user", Value.obj [])]) none)
        "user.profile.active" (Value.bool true) false).1.state u =
        ((mkDoIt (Value.obj [("user", Value.obj [])]) none).state, false) ∧
      applyOperation (mkDoIt (Value.obj [("user", Value.obj [])]) none).state r =
        ((doitSet (mkDoIt (Value.obj [("user", Value.obj [])]) none)
          "user.profile.active" (Value.bool true) false).1.state, false) ∧
      applyOperation (applyOperation (doitSet (mkDoIt (Value.obj [("user", Value.obj [])]) none)
          "user.profile.active" (Value.bool true) false).1.state u).1 r =
        ((doitSet (mkDoIt (Value.obj [("user", Value.obj [])]) none)
          "user.profile.active" (Value.bool true) false).1.state, false)) :=
  ⟨by rfl,
    c1_set_inverse_amended (mkDoIt (Value.obj [("user", Value.obj [])]) none)
      "user.profile.active" (Value.bool true)
      (by intro h; exact absurd (congrArg List.length h) (by decide))
      (Or.inr (by rfl))⟩

/-- When the source's throwing `find` completes, it returns the same
element the total description finds. -/
theorem jsFindEq_findLoose (k : String) (v : Value) (xs : List Value) :
    ∀ (i : Nat) (r : Option (Nat × Value)), jsFindEq k v xs i = Except.ok r →
      findLoose k v xs = Option.map Prod.snd r := by
  induction xs with
  | nil =>
    intro i r h
    cases h
    rfl
  | cons x t ih =>
    intro i r h
    cases x with
    | undef => cases h
    | null => cases h
    | bool b =>
      by_cases hm : jsLooseEq (jsGetMemberT (Value.bool b) k) v = true
      · rw [show jsFindEq k v (Value.bool b :: t) i = Except.ok (some (i, Value.bool b)) by
            show (if jsLooseEq (jsGetMemberT (Value.bool b) k) v then _ else _) = _
            rw [if_pos hm]] at h
        cases h
        show (if jsLooseEq (jsGetMemberT (Value.bool b) k) v then _ else _) = _
        rw [if_pos hm]
        rfl
      · rw [show jsFindEq k v (Value.bool b :: t) i = jsFindEq k v t (i + 1) by
            show (if jsLooseEq (jsGetMemberT (Value.bool b) k) v then _ else _) = _
            rw [if_neg hm]] at h
        show (if jsLooseEq (jsGetMemberT (Value.bool b) k) v then _ else _) = _
        rw [if_neg hm]
        exact ih (i + 1) r h
    | num m =>
      by_cases hm : jsLooseEq (jsGetMemberT (Value.num m) k) v = true
      · rw [show jsFindEq k v (Value.num m :: t) i = Except.ok (some (i, Value.num m)) by
            show (if jsLooseEq (jsGetMemberT (Value.num m) k) v then _ else _) = _
            rw [if_pos hm]] at h
        cases h
        show (if jsLooseEq (jsGetMemberT (Value.num m) k) v then _ else _) = _
        rw [if_pos hm]
        rfl
      · rw [show jsFindEq k v (Value.num m :: t) i = jsFindEq k v t (i + 1) by
            show (if jsLooseEq (jsGetMemberT (Value.num m) k) v then _ else _) = _
            rw [if_neg hm]] at h
        show (if jsLooseEq (jsGetMemberT (Value.num m) k) v then _ else _) = _
        rw [if_neg hm]
        exact ih (i + 1) r h
    | str s =>
      by_cases hm : jsLooseEq (jsGetMemberT (Value.str s) k) v = true
      · rw [show jsFindEq k v (Value.str s :: t) i = Except.ok (some (i, Value.str s)) by
            show (if jsLooseEq (jsGetMemberT (Value.str s) k) v then _ else _) = _
            rw [if_pos hm]] at h
        cases h
        show (if jsLooseEq (jsGetMemberT (Value.str s) k) v then _ else _) = _
        rw [if_pos hm]
        rfl
      · rw [show jsFindEq k v (Value.str s :: t) i = jsFindEq k v t (i + 1) by
            show (if jsLooseEq (jsGetMemberT (Value.str s) k) v then _ else _) = _
            rw [if_neg hm]] at h
        show (if jsLooseEq (jsGetMemberT (Value.str s) k) v then _ else _) = _
        rw [if_neg hm]
        exact ih (i + 1) r h
    | obj fs =>
      by_cases hm : jsLooseEq (jsGetMemberT (Value.obj fs) k) v = true
      · rw [show jsFindEq k v (Value.obj fs :: t) i = Except.ok (some (i, Value.obj fs)) by
            show (if jsLooseEq (jsGetMemberT (Value.obj fs) k) v then _ else _) = _
            rw [if_pos hm]] at h
        cases h
        show (if jsLooseEq (jsGetMemberT (Value.obj fs) k) v then _ else _) = _
        rw [if_pos hm]
        rfl
      · rw [show jsFindEq k v (Value.obj fs :: t) i = jsFindEq k v t (i + 1) by
            show (if jsLooseEq (jsGetMemberT (Value.obj fs) k) v then _ else _) = _
            rw [if_neg hm]] at h
        show (if jsLooseEq (jsGetMemberT (Value.obj fs) k) v then _ else _) = _
        rw [if_neg hm]
        exact ih (i + 1) r h
    | arr ys =>
      by_cases hm : jsLooseEq (jsGetMemberT (Value.arr ys) k) v = true
      · rw [show jsFindEq k v (Value.arr ys :: t) i = Except.ok (some (i, Value.arr ys)) by
            show (if jsLooseEq (jsGetMemberT (Value.arr ys) k) v then _ else _) = _
            rw [if_pos hm]] at h
        cases h
        show (if jsLooseEq (jsGetMemberT (Value.arr ys) k) v then _ else _) = _
        rw [if_pos hm]
        rfl
      · rw [show jsFindEq k v (Value.arr ys :: t) i = jsFindEq k v t (i + 1) by
            show (if jsLooseEq (jsGetMemberT (Value.arr ys) k) v then _ else _) = _
            rw [if_neg hm]] at h
        show (if jsLooseEq (jsGetMemberT (Value.arr ys) k) v then _ else _) = _
        rw [if_neg hm]
        exact ih (i + 1) r h


/-- On the benign fragment the source prober refines the claim's total
description. -/
theorem probeGo_probeSpec (ts : List PathToken) :
    ∀ (cur : Value) (i : Nat), probeBenign cur ts = true →
      probeGo cur ts i = Except.ok (probeSpec cur ts i) := by
  induction ts with
  | nil => intro cur i _; rfl
  | cons tok rest ih =>
    intro cur i hb
    cases tok with
    | key k =>
      cases cur with
      | undef => rfl
      | null => rfl
      | obj fs =>
        simp only [probeBenign, Bool.or_eq_true, Bool.not_eq_true'] at hb
        by_cases hh : objHas fs k = true
        · have e1 : probeGo (Value.obj fs) (PathToken.key k :: rest) i =
              probeGo (objGet fs k) rest (i + 1) := by
            show (match jsInOp (Value.obj fs) k with
                  | Except.error _ => Except.error ()
                  | Except.ok true => probeGo (jsGetMemberT (Value.obj fs) k) rest (i + 1)
                  | Except.ok false => Except.ok ⟨false, Value.undef, i⟩) = _
            rw [show jsInOp (Value.obj fs) k = Except.ok true by simp [jsInOp, hh]]
            rfl
          have e2 : probeSpec (Value.obj fs) (PathToken.key k :: rest) i =
              probeSpec (objGet fs k) rest (i + 1) := by
            show (if objHas fs k then probeSpec (objGet fs k) rest (i + 1)
                  else ⟨false, Value.undef, i⟩) = _
            rw [if_pos hh]
          rw [e1, e2]
          rcases hb with hb | hb
          · exact absurd hh (by simp [hb])
          · exact ih _ _ hb
        · have e1 : probeGo (Value.obj fs) (PathToken.key k :: rest) i =
              Except.ok ⟨false, Value.undef, i⟩ := by
            show (match jsInOp (Value.obj fs) k with
                  | Except.error _ => Except.error ()
                  | Except.ok true => probeGo (jsGetMemberT (Value.obj fs) k) rest (i + 1)
                  | Except.ok false => Except.ok ⟨false, Value.undef, i⟩) = _
            rw [show jsInOp (Value.obj fs) k = Except.ok false by
              simp [jsInOp]; simpa using hh]
          have e2 : probeSpec (Value.obj fs) (PathToken.key k :: rest) i =
              ⟨false, Value.undef, i⟩ := by
            show (if objHas fs k then probeSpec (objGet fs k) rest (i + 1)
                  else ⟨false, Value.undef, i⟩) = _
            rw [if_neg hh]
          rw [e1, e2]
      | bool b => simp [probeBenign] at hb
      | num m => simp [probeBenign] at hb
      | str s => simp [probeBenign] at hb
      | arr xs => simp [probeBenign] at hb
    | index n =>
      cases cur with
      | undef => rfl
      | null => rfl
      | bool b => rfl
      | num m => rfl
      | str s => rfl
      | obj fs => rfl
      | arr xs =>
        simp only [probeBenign] at hb
        by_cases hlt : n < xs.length
        · have e1 : probeGo (Value.arr xs) (PathToken.index n :: rest) i =
              probeGo (xs.getD n Value.undef) rest (i + 1) := by
            show (if n < xs.length then probeGo (xs.getD n Value.undef) rest (i + 1)
                  else Except.ok ⟨false, Value.undef, i⟩) = _
            rw [if_pos hlt]
          have e2 : probeSpec (Value.arr xs) (PathToken.index n :: rest) i =
              probeSpec (xs.getD n Value.undef) rest (i + 1) := by
            show (if n < xs.length then probeSpec (xs.getD n Value.undef) rest (i + 1)
                  else ⟨false, Value.undef, i⟩) = _
            rw [if_pos hlt]
          rw [e1, e2]
          rw [if_pos hlt] at hb
          exact ih _ _ hb
        · have e1 : probeGo (Value.arr xs) (PathToken.index n :: rest) i =
              Except.ok ⟨false, Value.undef, i⟩ := by
            show (if n < xs.length then probeGo (xs.getD n Value.undef) rest (i + 1)
                  else Except.ok ⟨false, Value.undef, i⟩) = _
            rw [if_neg hlt]
          have e2 : probeSpec (Value.arr xs) (PathToken.index n :: rest) i =
              ⟨false, Value.undef, i⟩ := by
            show (if n < xs.length then probeSpec (xs.getD n Value.undef) rest (i + 1)
                  else ⟨false, Value.undef, i⟩) = _
            rw [if_neg hlt]
          rw [e1, e2]
    | filter k fv =>
      cases cur with
      | undef => rfl
      | null => rfl
      | bool b => rfl
      | num m => rfl
      | str s => rfl
      | obj fs => rfl
      | arr xs =>
        simp only [probeBenign] at hb
        cases hf : jsFindEq k fv xs 0 with
        | error u => rw [hf] at hb; simp at hb
        | ok ro =>
          have hfl := jsFindEq_findLoose k fv xs 0 ro hf
          cases ro with
          | none =>
            have e1 : probeGo (Value.arr xs) (PathToken.filter k fv :: rest) i =
                Except.ok ⟨false, Value.undef, i⟩ := by
              show (match jsFindEq k fv xs 0 with
                    | Except.error _ => Except.error ()
                    | Except.ok (some (_, item)) =>
                      if truthy item then probeGo item rest (i + 1)
                      else Except.ok ⟨false, Value.undef, i⟩
                    | Except.ok none => Except.ok ⟨false, Value.undef, i⟩) = _
              rw [hf]
            have e2 : probeSpec (Value.arr xs) (PathToken.filter k fv :: rest) i =
                ⟨false, Value.undef, i⟩ := by
              show (match findLoose k fv xs with
                    | some item =>
                      if truthy item then probeSpec item rest (i + 1)
                      else ⟨false, Value.undef, i⟩
                    | none => ⟨false, Value.undef, i⟩) = _
              rw [hfl]
              rfl
            rw [e1, e2]
          | some p =>
            obtain ⟨j, item⟩ := p
            have e1 : probeGo (Value.arr xs) (PathToken.filter k fv :: rest) i =
                (if truthy item then probeGo item rest (i + 1)
                 else Except.ok ⟨false, Value.undef, i⟩) := by
              show (match jsFindEq k fv xs 0 with
                    | Except.error _ => Except.error ()
                    | Except.ok (some (_, item)) =>
                      if truthy item then probeGo item rest (i + 1)
                      else Except.ok ⟨false, Value.undef, i⟩
                    | Except.ok none => Except.ok ⟨false, Value.undef, i⟩) = _
              rw [hf]
            have e2 : probeSpec (Value.arr xs) (PathToken.filter k fv :: rest) i =
                (if truthy item then probeSpec item rest (i + 1)
                 else ⟨false, Value.undef, i⟩) := by
              show (match findLoose k fv xs with
                    | some item =>
                      if truthy item then probeSpec item rest (i + 1)
                      else ⟨false, Value.undef, i⟩
                    | none => ⟨false, Value.undef, i⟩) = _
              rw [hfl]
              rfl
            rw [e1, e2]
            by_cases htr : truthy item = true
            · rw [if_pos htr, if_pos htr]
              rw [hf] at hb
              exact ih _ _ hb
            · rw [if_neg htr, if_neg htr]


/-- **C3** (amended): *on the benign fragment* — `key` tokens only meet
maps or `null`/`undefined` nodes, and every `filter` find completes
without touching a `null`/`undefined` element before its first match —
`probe` returns exactly the amended description `probeSpec`: `exists =
false` with `missingIndex` = the shallowest failing token (absent key,
index on a non-sequence or out of range, filter on a non-sequence,
with no loosely-matching element, or whose first loosely-matching
element is falsy — the source's `if (!found)` test), and `exists =
true` with the final node and `missingIndex = -1` when every token
resolves.  Unrestricted, the claim is false: a `key` token on a scalar
node throws a `TypeError` instead of reporting the miss the lenient
policy promises (see the counterexample), and on an array node the `in`
operator can resolve index keys the description counts as absent. -/
theorem c3_probe_spec_amended (t : Value) (ts : List PathToken)
    (hb : probeBenign t ts = true) :
    probe t ts = Except.ok (probeSpec t ts 0) :=
  probeGo_probeSpec ts t 0 hb


/-- C3 counterexample: on `{count: 5}` with path `count.x` the claim's
description reports a miss at token 1, but the source prober throws
(`'x' in 5` is a `TypeError`). -/
theorem c3_counterexample :
    probeSpec (Value.obj [("count", Value.num 5)]) (parsePath "count.x") 0 =
      ⟨false, Value.undef, 1⟩ ∧
    probe (Value.obj [("count", Value.num 5)]) (parsePath "count.x") =
      Except.error () :=
  ⟨rfl, rfl⟩


/-- Witness for C3 on a filter-and-key path through `{items: [{id: 1}]}`. -/
theorem c3_probe_spec_amended_witness :
    probe (Value.obj [("items", Value.arr [Value.obj [("id", Value.num 1)]])])
        (parsePath "items[id:1].name") =
      Except.ok (probeSpec
        (Value.obj [("items", Value.arr [Value.obj [("id", Value.num 1)]])])
        (parsePath "items[id:1].name") 0) :=
  c3_probe_spec_amended
    (Value.obj [("items", Value.arr [Value.obj [("id", Value.num 1)]])])
    (parsePath "items[id:1].name") (by rfl)


theorem set_append_last {α : Type} (xs : List α) (a b : α) :
    (xs ++ [a]).set xs.length b = xs ++ [b] := by
  induction xs with
  | nil => rfl
  | cons x t ih =>
    simp only [List.cons_append, List.length_cons, List.set_cons_succ]
    rw [ih]


/-- **C4** (amended): for every apply of a set whose last token is a
`filter` and whose parent is a sequence, *when the element the
truthy-guarded find selects (or the seed, when none matches) is a
map*: the interpreter returns exactly the amended description — first
truthy loosely-matching element, else the appended seed
`{field: value}`; a map `V` shallow-merged in place, `null` a no-op,
any other `V` replacing the element by `{...element, ...V}` — and does
not throw.  The original claim's unguarded "a matching element is
found" is false: the find skips falsy elements that do loosely match,
appending a seed instead (see the counterexample). -/
theorem c4_filter_set_amended (k : String) (fv value : Value) (xs : List Value)
    (hfound : isObjV (foundAtSpec k fv xs) = true) :
    setGo (Value.arr xs) value [PathToken.filter k fv] =
      (Value.arr (filterSetSpec k fv value xs), false) := by
  cases hidx : jsFindIdxTruthy k fv xs 0 with
  | some i =>
    unfold foundAtSpec at hfound
    rw [hidx] at hfound
    have hfound2 : isObjV (xs.getD i Value.undef) = true := hfound
    obtain ⟨gs, hgs⟩ : ∃ gs, xs.getD i Value.undef = Value.obj gs := by
      cases he : xs.getD i Value.undef <;> rw [he] at hfound2 <;>
        first | exact ⟨_, rfl⟩ | simp [isObjV] at hfound2
    have e1 : setGo (Value.arr xs) value [PathToken.filter k fv] =
        applyFilterElem xs i (Value.obj gs) value := by
      show (match jsFindIdxTruthy k fv xs 0 with
            | some i => applyFilterElem xs i (xs.getD i Value.undef) value
            | none => applyFilterElem (xs ++ [Value.obj [(k, fv)]]) xs.length
                (Value.obj [(k, fv)]) value) = _
      simp only [hidx, hgs]
    rw [e1]
    cases value with
    | undef =>
      rw [show filterSetSpec k fv Value.undef xs =
          xs.set i (Value.obj (assocSetAll (spreadEntries (Value.obj gs))
            (spreadEntries Value.undef))) by
        unfold filterSetSpec; simp only [hidx, hgs]]
      rfl
    | null =>
      rw [show filterSetSpec k fv Value.null xs = xs by
        unfold filterSetSpec; simp only [hidx, hgs]]
      rfl
    | bool b =>
      rw [show filterSetSpec k fv (Value.bool b) xs =
          xs.set i (Value.obj (assocSetAll (spreadEntries (Value.obj gs))
            (spreadEntries (Value.bool b)))) by
        unfold filterSetSpec; simp only [hidx, hgs]]
      rfl
    | num m =>
      rw [show filterSetSpec k fv (Value.num m) xs =
          xs.set i (Value.obj (assocSetAll (spreadEntries (Value.obj gs))
            (spreadEntries (Value.num m)))) by
        unfold filterSetSpec; simp only [hidx, hgs]]
      rfl
    | str s =>
      rw [show filterSetSpec k fv (Value.str s) xs =
          xs.set i (Value.obj (assocSetAll (spreadEntries (Value.obj gs))
            (spreadEntries (Value.str s)))) by
        unfold filterSetSpec; simp only [hidx, hgs]]
      rfl
    | obj fs =>
      rw [show filterSetSpec k fv (Value.obj fs) xs =
          xs.set i (Value.obj (assocSetAll gs fs)) by
        unfold filterSetSpec; simp only [hidx, hgs]]
      rfl
    | arr ys =>
      rw [show filterSetSpec k fv (Value.arr ys) xs =
          xs.set i (Value.obj (assocSetAll (spreadEntries (Value.obj gs))
            (spreadEntries (Value.arr ys)))) by
        unfold filterSetSpec; simp only [hidx, hgs]]
      rfl
  | none =>
    have e1 : setGo (Value.arr xs) value [PathToken.filter k fv] =
        applyFilterElem (xs ++ [Value.obj [(k, fv)]]) xs.length
          (Value.obj [(k, fv)]) value := by
      show (match jsFindIdxTruthy k fv xs 0 with
            | some i => applyFilterElem xs i (xs.getD i Value.undef) value
            | none => applyFilterElem (xs ++ [Value.obj [(k, fv)]]) xs.length
                (Value.obj [(k, fv)]) value) = _
      rw [hidx]
    rw [e1]
    cases value with
    | undef =>
      rw [show filterSetSpec k fv Value.undef xs =
          xs ++ [Value.obj (assocSetAll (spreadEntries (Value.obj [(k, fv)]))
            (spreadEntries Value.undef))] by unfold filterSetSpec; simp only [hidx]]
      show (Value.arr ((xs ++ [Value.obj [(k, fv)]]).set xs.length _), false) = _
      rw [set_append_last]
    | null =>
      rw [show filterSetSpec k fv Value.null xs = xs ++ [Value.obj [(k, fv)]] by
        unfold filterSetSpec; simp only [hidx]]
      rfl
    | bool b =>
      rw [show filterSetSpec k fv (Value.bool b) xs =
          xs ++ [Value.obj (assocSetAll (spreadEntries (Value.obj [(k, fv)]))
            (spreadEntries (Value.bool b)))] by unfold filterSetSpec; simp only [hidx]]
      show (Value.arr ((xs ++ [Value.obj [(k, fv)]]).set xs.length _), false) = _
      rw [set_append_last]
    | num m =>
      rw [show filterSetSpec k fv (Value.num m) xs =
          xs ++ [Value.obj (assocSetAll (spreadEntries (Value.obj [(k, fv)]))
            (spreadEntries (Value.num m)))] by unfold filterSetSpec; simp only [hidx]]
      show (Value.arr ((xs ++ [Value.obj [(k, fv)]]).set xs.length _), false) = _
      rw [set_append_last]
    | str s =>
      rw [show filterSetSpec k fv (Value.str s) xs =
          xs ++ [Value.obj (assocSetAll (spreadEntries (Value.obj [(k, fv)]))
            (spreadEntries (Value.str s)))] by unfold filterSetSpec; simp only [hidx]]
      show (Value.arr ((xs ++ [Value.obj [(k, fv)]]).set xs.length _), false) = _
      rw [set_append_last]
    | obj fs =>
      rw [show filterSetSpec k fv (Value.obj fs) xs =
          xs ++ [Value.obj (assocSetAll [(k, fv)] fs)] by
        unfold filterSetSpec; simp only [hidx]]
      show (Value.arr ((xs ++ [Value.obj [(k, fv)]]).set xs.length _), false) = _
      rw [set_append_last]
    | arr ys =>
      rw [show filterSetSpec k fv (Value.arr ys) xs =
          xs ++ [Value.obj (assocSetAll (spreadEntries (Value.obj [(k, fv)]))
            (spreadEntries (Value.arr ys)))] by unfold filterSetSpec; simp only [hidx]]
      show (Value.arr ((xs ++ [Value.obj [(k, fv)]]).set xs.length _), false) = _
      rw [set_append_last]


/-- C4 counterexample to the unguarded claim: in the sequence `[""]`
the element `""` loosely matches the filter `[length:0]` (its `length`
is `0`), yet the set's truthy-guarded find skips it and appends a
seeded element instead of merging in place. -/
theorem c4_counterexample :
    jsLooseEq (jsGetMemberT (Value.str "") "length") (Value.num 0) = true ∧
    (setGo (Value.arr [Value.str ""]) (Value.obj [("a", Value.num 1)])
        [PathToken.filter "length" (Value.num 0)]).1 =
      Value.arr [Value.str "",
        Value.obj [("length", Value.num 0), ("a", Value.num 1)]] :=
  ⟨rfl, rfl⟩


/-- Witness for C4: merging `{name: "Banana"}` into the element of
`[{id: 1, name: "Apple"}]` matching `[id:1]`. -/
theorem c4_filter_set_amended_witness :
    setGo (Value.arr [Value.obj [("id", Value.num 1), ("name", Value.str "Apple")]])
        (Value.obj [("name", Value.str "Banana")]) [PathToken.filter "id" (Value.num 1)] =
      (Value.arr (filterSetSpec "id" (Value.num 1) (Value.obj [("name", Value.str "Banana")])
        [Value.obj [("id", Value.num 1), ("name", Value.str "Apple")]]), false) :=
  c4_filter_set_amended "id" (Value.num 1) (Value.obj [("name", Value.str "Banana")])
    [Value.obj [("id", Value.num 1), ("name", Value.str "Apple")]] (by rfl)


/-- **C2** counterexample: `set('count.x', 1)` on the tree
`{count: 5}` throws — the probe evaluates `'x' in 5`, a `TypeError` in
JS — so the core is not throw-free on arbitrary inputs, contrary to the
claim's named example. -/
theorem c2_counterexample :
    (doitSet (mkDoIt (Value.obj [("count", Value.num 5)]) none) "count.x"
        (Value.num 1) false).2 = Except.error () := rfl


/-- **C2** (amended): on the typed fragment `setSafePath` — every token
resolves with the matching node kind, allowing a trailing run of `key`
tokens below the first missing key or past-the-end index — `set` throws
no exception (the probe succeeds and the mutation completes), and
`undo`/`redo` on an empty stack signal failure only by returning
`false`, leaving the store untouched.  Unrestricted, the claim is false
(see the counterexample): probing or setting through a scalar or
`null`/`undefined` intermediate throws a `TypeError`. -/
theorem c2_no_throw_amended (s : DoItState) (P : String) (v : Value)
    (hs : setSafePath s.state (parsePath P) = true) (hne : parsePath P ≠ []) :
    (∃ pr, probe s.state (parsePath P) = Except.ok pr) ∧
    (∃ o, (doitSet s P v false).2 = Except.ok o) ∧
    (∀ t : DoItState, t.undoStack = [] → doitUndo t = (t, Except.ok false)) ∧
    (∀ t : DoItState, t.redoStack = [] → doitRedo t = (t, Except.ok false)) := by
  obtain ⟨pr, hpr⟩ := probeGo_safe (parsePath P) s.state 0 hs
  have hprobe : probe s.state (parsePath P) = Except.ok pr := hpr
  refine ⟨⟨pr, hprobe⟩, ?_, ?_, ?_⟩
  · obtain ⟨T2, hT2⟩ : ∃ t2, setGo s.state v (parsePath P) = (t2, false) := by
      cases hsg : setGo s.state v (parsePath P) with
      | mk t2 th =>
        have hA := setGo_safe (parsePath P) s.state v hs hne
        rw [hsg] at hA
        simp only at hA
        subst hA
        exact ⟨t2, rfl⟩
    have happ : applyOperation s.state (Operation.set P v) = (T2, false) := hT2
    unfold doitSet
    rw [hprobe]
    cases hB : pr.exists? && deepEqual pr.value v with
    | true =>
      simp only [hB, if_true]
      exact ⟨none, rfl⟩
    | false =>
      simp only [hB, Bool.false_eq_true, if_false, happ]
      exact ⟨_, rfl⟩
  · intro t ht
    unfold doitUndo
    rw [ht]
    rfl
  · intro t ht
    unfold doitRedo
    rw [ht]
    rfl


/-- Witness for C2 at the test suite's scenario: the fresh store
`{user: {}}` with `set('user.profile.active', true)` — a one-key hop
into an existing map, then creation keys — does not throw. -/
theorem c2_no_throw_amended_witness :
    ∃ o, (doitSet (mkDoIt (Value.obj [("user", Value.obj [])]) none)
        "user.profile.active" (Value.bool true) false).2 = Except.ok o :=
  (c2_no_throw_amended (mkDoIt (Value.obj [("user", Value.obj [])]) none)
    "user.profile.active" (Value.bool true) (by rfl)
    (by intro h; exact absurd (congrArg List.length h) (by decide))).2.1


theorem ne_nil_of_isEmpty_false {α : Type} (l : List α) (h : l.isEmpty = false) :
    l ≠ [] := by
  cases l with
  | nil => simp [List.isEmpty] at h
  | cons x t => simp


theorem getLast?_append_singleton {α : Type} (l : List α) (a : α) :
    (l ++ [a]).getLast? = some a := by
  induction l with
  | nil => rfl
  | cons x t ih =>
    rw [List.cons_append, getLast?_cons_of_ne x (t ++ [a]) (by simp)]
    exact ih


/-- `applyOps` over a concatenation whose first half does not throw. -/
theorem applyOps_append (l1 l2 : List Operation) :
    ∀ t t1, applyOps t l1 = (t1, false) → applyOps t (l1 ++ l2) = applyOps t1 l2 := by
  induction l1 with
  | nil =>
    intro t t1 h
    have h2 : t = t1 := congrArg Prod.fst h
    rw [List.nil_append, ← h2]
  | cons op l1 ih =>
    intro t t1 h
    cases happ : applyOperation t op with
    | mk v2 b =>
      cases b with
      | true =>
        rw [show applyOps t (op :: l1) = (v2, true) by
              show (match applyOperation t op with
                    | (v2, true) => (v2, true)
                    | (v2, false) => applyOps v2 l1) = _
              rw [happ]] at h
        exact absurd (congrArg Prod.snd h) (by simp)
      | false =>
        rw [show applyOps t (op :: l1) = applyOps v2 l1 by
              show (match applyOperation t op with
                    | (v2, true) => (v2, true)
                    | (v2, false) => applyOps v2 l1) = _
              rw [happ]] at h
        rw [List.cons_append,
          show applyOps t (op :: (l1 ++ l2)) = applyOps v2 (l1 ++ l2) by
            show (match applyOperation t op with
                  | (v2, true) => (v2, true)
                  | (v2, false) => applyOps v2 (l1 ++ l2)) = _
            rw [happ]]
        exact ih v2 t1 h


/-- `DoIt.set(path, value, true)` on a clean non-duplicate path: the
internal call mutates the tree, touches no stack, and returns the
synthesized pair. -/
theorem doitSet_clean_internal (s : DoItState) (P : String) (v : Value)
    (hc : cleanPath s.state (parsePath P) = true)
    (hne : parsePath P ≠ [])
    (hdup : deepEqual (resolvedVal s.state (parsePath P)) v = false) :
    doitSet s P v true =
      ({ s with state := (setGo s.state v (parsePath P)).1 },
       Except.ok (some (Operation.set P (cloneValue (resolvedVal s.state (parsePath P))),
         Operation.set P v))) := by
  obtain ⟨hA, hB, hC⟩ := setGo_clean (parsePath P) s.state v hc hne
  obtain ⟨T2, hT2⟩ : ∃ t2, setGo s.state v (parsePath P) = (t2, false) := by
    cases hsg : setGo s.state v (parsePath P) with
    | mk t2 th =>
      rw [hsg] at hA
      simp only at hA
      subst hA
      exact ⟨t2, rfl⟩
  have happ : applyOperation s.state (Operation.set P v) = (T2, false) := hT2
  have hsu : synthUndo P (parsePath P)
      ⟨true, resolvedVal s.state (parsePath P), -1⟩ =
      Operation.set P (cloneValue (resolvedVal s.state (parsePath P))) := by
    unfold synthUndo
    rw [if_neg (by simp)]
  unfold doitSet
  rw [probe_clean s.state (parsePath P) hc]
  simp only [hdup, Bool.true_and, Bool.false_eq_true, if_false, happ, hsu, hT2, if_true]


/-- The batch callback over a safe call list: every sub-set succeeds,
the collected undos applied in reverse order restore the original
tree, and no stack is touched. -/
theorem batchGo_safe (calls : List (String × Value)) :
    ∀ (s : DoItState), batchSafe s.state calls = true →
      ∃ us rs,
        batchGo s calls = ({ s with state := applyCalls s.state calls }, us, rs, false) ∧
        us.length = calls.length ∧
        applyOps (applyCalls s.state calls) us.reverse = (s.state, false) := by
  induction calls with
  | nil =>
    intro s _
    exact ⟨[], [], rfl, rfl, rfl⟩
  | cons c rest ih =>
    obtain ⟨p, v⟩ := c
    intro s hsafe
    simp only [batchSafe, Bool.and_eq_true] at hsafe
    obtain ⟨hAB, hrest⟩ := hsafe
    rw [Bool.or_eq_true] at hAB
    have hstep : ∃ u, doitSet s p v true =
        ({ s with state := (setGo s.state v (parsePath p)).1 },
          Except.ok (some (u, Operation.set p v))) ∧
        applyOperation (setGo s.state v (parsePath p)).1 u = (s.state, false) := by
      rcases hAB with hA | hB
      · simp only [Bool.and_eq_true] at hA
        obtain ⟨⟨hc, hne'⟩, hdup'⟩ := hA
        have hnel : parsePath p ≠ [] :=
          ne_nil_of_isEmpty_false _ (by simpa using hne')
        have hdup : deepEqual (resolvedVal s.state (parsePath p)) v = false := by
          simpa using hdup'
        refine ⟨Operation.set p (cloneValue (resolvedVal s.state (parsePath p))),
          doitSet_clean_internal s p v hc hnel hdup, ?_⟩
        obtain ⟨hA2, hB2, hC2⟩ := setGo_clean (parsePath p) s.state v hc hnel
        show setGo (setGo s.state v (parsePath p)).1
            (cloneValue (resolvedVal s.state (parsePath p))) (parsePath p) = _
        rw [cloneValue_id]
        exact hC2
      · exact ⟨Operation.delete (reconstructPath ((parsePath p).take
            (missIdx s.state (parsePath p) + 1))),
          doitSet_create_internal s p v hB, setGo_create_undo s.state p v hB⟩
    obtain ⟨u, hset, hinvu⟩ := hstep
    obtain ⟨us, rs, hbg2, hlen2, hinv2⟩ :=
      ih { s with state := (setGo s.state v (parsePath p)).1 } hrest
    refine ⟨u :: us, Operation.set p v :: rs, ?_, by simp [hlen2], ?_⟩
    · have e1 : batchGo s ((p, v) :: rest) =
          (match batchGo { s with state := (setGo s.state v (parsePath p)).1 } rest with
           | (s3, us, rs, threw) => (s3, u :: us, Operation.set p v :: rs, threw)) := by
        show (match doitSet s p v true with
              | (s2, Except.error _) => (s2, [], [], true)
              | (s2, Except.ok none) => batchGo s2 rest
              | (s2, Except.ok (some (u, r))) =>
                match batchGo s2 rest with
                | (s3, us, rs, threw) => (s3, u :: us, r :: rs, threw)) = _
        rw [hset]
      rw [e1, hbg2]
      rfl
    · have hinv2' : applyOps (applyCalls s.state ((p, v) :: rest)) us.reverse =
          ((setGo s.state v (parsePath p)).1, false) := hinv2
      rw [List.reverse_cons,
        applyOps_append us.reverse [u] (applyCalls s.state ((p, v) :: rest))
          (setGo s.state v (parsePath p)).1 hinv2']
      show (match applyOperation (setGo s.state v (parsePath p)).1 u with
            | (v2, true) => (v2, true)
            | (v2, false) => applyOps v2 []) = _
      rw [hinvu]
      rfl


/-- `DoIt.undo` when the top entry's undo applies without throwing. -/
theorem doitUndo_apply (s : DoItState) (e : HistoryEntry) (t2 : Value)
    (hl : s.undoStack.getLast? = some e)
    (ha : applyOperation s.state e.undo = (t2, false)) :
    doitUndo s = ({ s with
        state := t2
        undoStack := s.undoStack.dropLast
        redoStack := s.redoStack ++ [e]
        notifyCount := s.notifyCount + 1 },
      Except.ok true) := by
  unfold doitUndo
  rw [hl]
  simp only [ha]


/-- **C5** counterexample: with `maxHistory = 1` and the undo stack at
capacity, a batch with one non-skipped sub-set leaves the undo stack
length at `1` — the push evicts the oldest entry — not the claimed
previous length plus one. -/
theorem c5_counterexample :
    (doitSet (mkDoIt (Value.obj [("a", Value.num 1), ("b", Value.num 2)]) (some 1))
        "a" (Value.num 2) false).1.undoStack.length = 1 ∧
    (doitBatch
        (doitSet (mkDoIt (Value.obj [("a", Value.num 1), ("b", Value.num 2)]) (some 1))
          "a" (Value.num 2) false).1
        [("b", Value.num 3)]).1.undoStack.length = 1 :=
  ⟨rfl, rfl⟩


/-- **C5** (amended): for every batch whose call list is safe (each
sub-set, on the evolving tree, either resolves cleanly and is not a
duplicate, or creates through a missing key of an existing map) and
non-empty, *while the undo stack is below capacity*: the batch returns
normally, the undo stack grows by exactly one entry, exactly one
notification fires, and a single subsequent `undo()` returns `true`
and restores the tree to its state before the batch — per-call `Set`
undos and `Delete`-of-creation undos alike, applied in reverse order.
At capacity the stack length stays at `maxHistory` instead of growing
(see the counterexample). -/
theorem c5_batch_amended (s : DoItState) (calls : List (String × Value))
    (hsafe : batchSafe s.state calls = true) (hne : calls ≠ [])
    (hcap : s.undoStack.length < s.maxHistory) :
    (doitBatch s calls).2 = Except.ok () ∧
    (doitBatch s calls).1.undoStack.length = s.undoStack.length + 1 ∧
    (doitBatch s calls).1.notifyCount = s.notifyCount + 1 ∧
    (doitUndo (doitBatch s calls).1).2 = Except.ok true ∧
    (doitUndo (doitBatch s calls).1).1.state = s.state := by
  obtain ⟨us, rs, hbg, hlen, hinv⟩ := batchGo_safe calls s hsafe
  cases us with
  | nil =>
    rw [List.length_nil] at hlen
    cases calls with
    | nil => exact absurd rfl hne
    | cons c cs => exact absurd hlen.symm (by simp)
  | cons u0 us' =>
    have hpush : pushEntry s.undoStack
        ⟨Operation.batch (u0 :: us').reverse, Operation.batch rs⟩ s.maxHistory =
        s.undoStack ++ [⟨Operation.batch (u0 :: us').reverse, Operation.batch rs⟩] := by
      show (if s.maxHistory <
            (s.undoStack ++ ([⟨Operation.batch (u0 :: us').reverse, Operation.batch rs⟩] :
              List HistoryEntry)).length
          then (s.undoStack ++ ([⟨Operation.batch (u0 :: us').reverse, Operation.batch rs⟩] :
              List HistoryEntry)).drop 1
          else s.undoStack ++ ([⟨Operation.batch (u0 :: us').reverse, Operation.batch rs⟩] :
              List HistoryEntry)) =
        s.undoStack ++ [⟨Operation.batch (u0 :: us').reverse, Operation.batch rs⟩]
      rw [if_neg (by simp only [List.length_append, List.length_singleton]; omega)]
    have hdb : doitBatch s calls =
        ({ s with
           state := applyCalls s.state calls
           undoStack := s.undoStack ++
             [⟨Operation.batch (u0 :: us').reverse, Operation.batch rs⟩]
           redoStack := []
           notifyCount := s.notifyCount + 1 }, Except.ok ()) := by
      unfold doitBatch
      rw [hbg]
      show ({ s with
              state := applyCalls s.state calls
              undoStack := pushEntry s.undoStack
                ⟨Operation.batch (u0 :: us').reverse, Operation.batch rs⟩ s.maxHistory
              redoStack := []
              notifyCount := s.notifyCount + 1 }, Except.ok ()) = _
      rw [hpush]
    have hu := doitUndo_apply
      { s with
        state := applyCalls s.state calls
        undoStack := s.undoStack ++
          [⟨Operation.batch (u0 :: us').reverse, Operation.batch rs⟩]
        redoStack := []
        notifyCount := s.notifyCount + 1 }
      ⟨Operation.batch (u0 :: us').reverse, Operation.batch rs⟩
      s.state (getLast?_append_singleton s.undoStack _) hinv
    refine ⟨by rw [hdb], ?_, by rw [hdb], ?_, ?_⟩
    · rw [hdb]
      simp [List.length_append]
    · rw [hdb]
      show (doitUndo _).2 = Except.ok true
      rw [hu]
    · rw [hdb]
      show (doitUndo _).1.state = s.state
      rw [hu]


/-- Witness for C5 mixing the two arms: on `{count: 0, total: 0}` the
batch `set count 5; set meta.flag true` replaces one field and creates
one missing map, and a single undo restores the original tree. -/
theorem c5_batch_amended_witness :
    (doitBatch (mkDoIt (Value.obj [("count", Value.num 0), ("total", Value.num 0)]) none)
        [("count", Value.num 5), ("meta.flag", Value.bool true)]).2 = Except.ok () ∧
    (doitBatch (mkDoIt (Value.obj [("count", Value.num 0), ("total", Value.num 0)]) none)
        [("count", Value.num 5), ("meta.flag", Value.bool true)]).1.undoStack.length =
      (mkDoIt (Value.obj [("count", Value.num 0), ("total", Value.num 0)])
        none).undoStack.length + 1 ∧
    (doitBatch (mkDoIt (Value.obj [("count", Value.num 0), ("total", Value.num 0)]) none)
        [("count", Value.num 5), ("meta.flag", Value.bool true)]).1.notifyCount =
      (mkDoIt (Value.obj [("count", Value.num 0), ("total", Value.num 0)])
        none).notifyCount + 1 ∧
    (doitUndo (doitBatch
        (mkDoIt (Value.obj [("count", Value.num 0), ("total", Value.num 0)]) none)
        [("count", Value.num 5), ("meta.flag", Value.bool true)]).1).2 = Except.ok true ∧
    (doitUndo (doitBatch
        (mkDoIt (Value.obj [("count", Value.num 0), ("total", Value.num 0)]) none)
        [("count", Value.num 5), ("meta.flag", Value.bool true)]).1).1.state =
      (mkDoIt (Value.obj [("count", Value.num 0), ("total", Value.num 0)]) none).state :=
  c5_batch_amended
    (mkDoIt (Value.obj [("count", Value.num 0), ("total", Value.num 0)]) none)
    [("count", Value.num 5), ("meta.flag", Value.bool true)]
    (by rfl) (by simp) (by decide)


/- ### Claim C6: the shape of a batch's history entry -/

/-- **C6**: for every batch whose callback completes with collected
pairs `(us, rs)` in call order, if at least one sub-set was not
duplicate-skipped (`us ≠ []`) the pushed entry is exactly
`(Batch(us reversed), Batch(rs))`, the redo stack is cleared and one
notification fires; if every sub-set was skipped (`us = []`), the store
is returned as the callback left it — no entry, no redo-clear, no
notification. -/
theorem c6_batch_entry (s : DoItState) (calls : List (String × Value))
    (s2 : DoItState) (us rs : List Operation)
    (hbg : batchGo s calls = (s2, us, rs, false)) :
    (us = [] → doitBatch s calls = (s2, Except.ok ())) ∧
    (us ≠ [] → doitBatch s calls =
      ({ s2 with
         undoStack := pushEntry s2.undoStack
           ⟨Operation.batch us.reverse, Operation.batch rs⟩ s2.maxHistory
         redoStack := []
         notifyCount := s2.notifyCount + 1 }, Except.ok ())) := by
  constructor
  · intro h
    subst h
    unfold doitBatch
    rw [hbg]
  · intro h
    cases us with
    | nil => exact absurd rfl h
    | cons u0 us' =>
      unfold doitBatch
      rw [hbg]


/-- Witness for C6 on the test suite's skip scenario: on `{a: 1, b: 2}`
the batch `set a 1; set b 5` skips the duplicate first call and pushes
the single-element batch entry for the second. -/
theorem c6_batch_entry_witness :
    doitBatch (mkDoIt (Value.obj [("a", Value.num 1), ("b", Value.num 2)]) none)
        [("a", Value.num 1), ("b", Value.num 5)] =
      ({ state := Value.obj [("a", Value.num 1), ("b", Value.num 5)]
         undoStack := [⟨Operation.batch [Operation.set "b" (Value.num 2)],
                        Operation.batch [Operation.set "b" (Value.num 5)]⟩]
         redoStack := []
         maxHistory := 100
         notifyCount := 1 }, Except.ok ()) :=
  (c6_batch_entry (mkDoIt (Value.obj [("a", Value.num 1), ("b", Value.num 2)]) none)
      [("a", Value.num 1), ("b", Value.num 5)]
      { state := Value.obj [("a", Value.num 1), ("b", Value.num 5)]
        undoStack := []
        redoStack := []
        maxHistory := 100
        notifyCount := 0 }
      [Operation.set "b" (Value.num 2)] [Operation.set "b" (Value.num 5)]
      (by rfl)).2 (by simp)


theorem getD_eq_head_of_drop {α : Type} (ys : List α) (i : Nat) (y : α) (u : List α)
    (d : α) (h : ys.drop i = y :: u) : ys.getD i d = y := by
  induction ys generalizing i with
  | nil => simp at h
  | cons z t ih =>
    cases i with
    | zero =>
      simp only [List.drop_zero] at h
      cases h
      rfl
    | succ m =>
      simp only [List.drop_succ_cons] at h
      simp only [List.getD_cons_succ]
      exact ih m h


theorem drop_succ_of_drop_cons {α : Type} (ys : List α) (i : Nat) (y : α) (u : List α)
    (h : ys.drop i = y :: u) : ys.drop (i + 1) = u := by
  induction ys generalizing i with
  | nil => simp at h
  | cons z t ih =>
    cases i with
    | zero =>
      simp only [List.drop_zero] at h
      cases h
      simp
    | succ m =>
      simp only [List.drop_succ_cons] at h
      show t.drop (m + 1) = u
      exact ih m h


theorem lt_length_of_drop_cons {α : Type} (ys : List α) (i : Nat) (y : α) (u : List α)
    (h : ys.drop i = y :: u) : i < ys.length := by
  by_contra hle
  rw [List.drop_eq_nil_of_le (Nat.le_of_not_lt hle)] at h
  cases h


mutual

/-- The claim's structural equality implies the source's
`Object.keys`-based `deepEqual`. -/
theorem specDeepEqual_imp : (a b : Value) → specDeepEqual a b = true → deepEqual a b = true
  | Value.undef, Value.undef, _ => rfl
  | Value.null, Value.null, _ => rfl
  | Value.bool _, Value.bool _, h => h
  | Value.num _, Value.num _, h => h
  | Value.str _, Value.str _, h => h
  | Value.obj fs, Value.obj gs, h => by
    simp only [specDeepEqual, Bool.and_eq_true] at h
    simp only [deepEqual, Bool.and_eq_true]
    exact ⟨h.1, specDeepEqualFields_imp fs gs h.2⟩
  | Value.arr xs, Value.arr ys, h => by
    simp only [specDeepEqual, Bool.and_eq_true] at h
    simp only [deepEqual, Bool.and_eq_true]
    refine ⟨h.1, specDeepEqualElems_imp xs ys 0 (by rw [List.drop_zero]; exact h.2)⟩
  | Value.undef, Value.null, h => by simp [specDeepEqual] at h
  | Value.undef, Value.bool _, h => by simp [specDeepEqual] at h
  | Value.undef, Value.num _, h => by simp [specDeepEqual] at h
  | Value.undef, Value.str _, h => by simp [specDeepEqual] at h
  | Value.undef, Value.obj _, h => by simp [specDeepEqual] at h
  | Value.undef, Value.arr _, h => by simp [specDeepEqual] at h
  | Value.null, Value.undef, h => by simp [specDeepEqual] at h
  | Value.null, Value.bool _, h => by simp [specDeepEqual] at h
  | Value.null, Value.num _, h => by simp [specDeepEqual] at h
  | Value.null, Value.str _, h => by simp [specDeepEqual] at h
  | Value.null, Value.obj _, h => by simp [specDeepEqual] at h
  | Value.null, Value.arr _, h => by simp [specDeepEqual] at h
  | Value.bool _, Value.undef, h => by simp [specDeepEqual] at h
  | Value.bool _, Value.null, h => by simp [specDeepEqual] at h
  | Value.bool _, Value.num _, h => by simp [specDeepEqual] at h
  | Value.bool _, Value.str _, h => by simp [specDeepEqual] at h
  | Value.bool _, Value.obj _, h => by simp [specDeepEqual] at h
  | Value.bool _, Value.arr _, h => by simp [specDeepEqual] at h
  | Value.num _, Value.undef, h => by simp [specDeepEqual] at h
  | Value.num _, Value.null, h => by simp [specDeepEqual] at h
  | Value.num _, Value.bool _, h => by simp [specDeepEqual] at h
  | Value.num _, Value.str _, h => by simp [specDeepEqual] at h
  | Value.num _, Value.obj _, h => by simp [specDeepEqual] at h
  | Value.num _, Value.arr _, h => by simp [specDeepEqual] at h
  | Value.str _, Value.undef, h => by simp [specDeepEqual] at h
  | Value.str _, Value.null, h => by simp [specDeepEqual] at h
  | Value.str _, Value.bool _, h => by simp [specDeepEqual] at h
  | Value.str _, Value.num _, h => by simp [specDeepEqual] at h
  | Value.str _, Value.obj _, h => by simp [specDeepEqual] at h
  | Value.str _, Value.arr _, h => by simp [specDeepEqual] at h
  | Value.obj _, Value.undef, h => by simp [specDeepEqual] at h
  | Value.obj _, Value.null, h => by simp [specDeepEqual] at h
  | Value.obj _, Value.bool _, h => by simp [specDeepEqual] at h
  | Value.obj _, Value.num _, h => by simp [specDeepEqual] at h
  | Value.obj _, Value.str _, h => by simp [specDeepEqual] at h
  | Value.obj _, Value.arr _, h => by simp [specDeepEqual] at h
  | Value.arr _, Value.undef, h => by simp [specDeepEqual] at h
  | Value.arr _, Value.null, h => by simp [specDeepEqual] at h
  | Value.arr _, Value.bool _, h => by simp [specDeepEqual] at h
  | Value.arr _, Value.num _, h => by simp [specDeepEqual] at h
  | Value.arr _, Value.str _, h => by simp [specDeepEqual] at h
  | Value.arr _, Value.obj _, h => by simp [specDeepEqual] at h

/-- Field-wise version of `specDeepEqual_imp`. -/
theorem specDeepEqualFields_imp : (fs gs : List (String × Value)) →
    specDeepEqualFields fs gs = true → deepEqualFields fs (Value.obj gs) = true
  | [], _, _ => rfl
  | (k, v) :: t, gs, h => by
    simp only [specDeepEqualFields, Bool.and_eq_true] at h
    simp only [deepEqualFields, Bool.and_eq_true]
    exact ⟨⟨h.1.1, specDeepEqual_imp v (objGet gs k) h.1.2⟩,
      specDeepEqualFields_imp t gs h.2⟩

/-- Element-wise version of `specDeepEqual_imp`: pairwise equality with
the tail `ys.drop i` gives the source's indexed walk from `i`. -/
theorem specDeepEqualElems_imp : (xs ys : List Value) → (i : Nat) →
    specDeepEqualElems xs (ys.drop i) = true → deepEqualElems i xs (Value.arr ys) = true
  | [], _, _, _ => rfl
  | x :: t, ys, i, h => by
    cases hd : ys.drop i with
    | nil => rw [hd] at h; simp [specDeepEqualElems] at h
    | cons y u =>
      rw [hd] at h
      simp only [specDeepEqualElems, Bool.and_eq_true] at h
      simp only [deepEqualElems, Bool.and_eq_true]
      have hlt : i < ys.length := lt_length_of_drop_cons ys i y u hd
      have hget : keyGet (Value.arr ys) (natRepr i) = y := by
        show (match canonIdx (natRepr i) with
              | some j => ys.getD j Value.undef
              | none => Value.undef) = _
        rw [canonIdx_natRepr]
        exact getD_eq_head_of_drop ys i y u Value.undef hd
      have hinc : keyIncluded (Value.arr ys) (natRepr i) = true := by
        show (match canonIdx (natRepr i) with
              | some j => decide (j < ys.length)
              | none => false) = _
        rw [canonIdx_natRepr]
        simp [hlt]
      refine ⟨⟨hinc, ?_⟩, ?_⟩
      · rw [hget]
        exact specDeepEqual_imp x y h.1
      · exact specDeepEqualElems_imp t ys (i + 1)
          (by rw [drop_succ_of_drop_cons ys i y u hd]; exact h.2)

end

/-- **C7**: for every store, path `P` and value `V` such that `P`
exists per the probe and its current value is structurally deep-equal
to `V` (same primitive, same map keys with recursively-equal values,
or same sequence length with pairwise-equal elements), `set(P, V)` is a
complete no-op: the tree, both stacks and the notification count are
unchanged and the call returns without producing an operation pair. -/
theorem c7_duplicate_noop (s : DoItState) (P : String) (v : Value) (pr : ProbeResult)
    (hpr : probe s.state (parsePath P) = Except.ok pr)
    (hex : pr.exists? = true)
    (heq : specDeepEqual pr.value v = true) :
    doitSet s P v false = (s, Except.ok none) := by
  have hd : (pr.exists? && deepEqual pr.value v) = true := by
    rw [hex, specDeepEqual_imp pr.value v heq]
    rfl
  unfold doitSet
  rw [hpr]
  simp only [hd, if_true]


/-- Witness for C7 on the test suite's scenario: `set('count', 5)` on
`{count: 5}`. -/
theorem c7_duplicate_noop_witness :
    doitSet (mkDoIt (Value.obj [("count", Value.num 5)]) none) "count"
        (Value.num 5) false =
      (mkDoIt (Value.obj [("count", Value.num 5)]) none, Except.ok none) :=
  c7_duplicate_noop (mkDoIt (Value.obj [("count", Value.num 5)]) none) "count"
    (Value.num 5) ⟨true, Value.num 5, -1⟩ (by rfl) rfl (by rfl)


/- ### Claim C8: the history capacity invariant -/

theorem pushEntry_length_le (stack : List HistoryEntry) (e : HistoryEntry) (maxH : Nat)
    (h : stack.length ≤ maxH) : (pushEntry stack e maxH).length ≤ maxH := by
  show (if maxH < (stack ++ [e]).length then (stack ++ [e]).drop 1
        else stack ++ [e]).length ≤ maxH
  by_cases hc : maxH < (stack ++ [e]).length
  · rw [if_pos hc]
    simp only [List.length_drop, List.length_append, List.length_singleton]
    omega
  · rw [if_neg hc]
    simp only [List.length_append, List.length_singleton]
    simp only [List.length_append, List.length_singleton, Nat.not_lt] at hc
    omega


theorem drop_one_append {α : Type} (l1 l2 : List α) (h : l1 ≠ []) :
    (l1 ++ l2).drop 1 = l1.drop 1 ++ l2 := by
  cases l1 with
  | nil => exact absurd rfl h
  | cons x t => simp


theorem ne_nil_of_getLast?_eq_some {α : Type} (l : List α) (a : α)
    (h : l.getLast? = some a) : l ≠ [] := by
  intro he
  subst he
  simp at h


/-- An internal `set` call never touches the stacks or the capacity. -/
theorem doitSet_internal_stacks (s : DoItState) (p : String) (v : Value) :
    (doitSet s p v true).1.undoStack = s.undoStack ∧
    (doitSet s p v true).1.redoStack = s.redoStack ∧
    (doitSet s p v true).1.maxHistory = s.maxHistory := by
  unfold doitSet
  split
  · exact ⟨rfl, rfl, rfl⟩
  · split
    · exact ⟨rfl, rfl, rfl⟩
    · split
      · exact ⟨rfl, rfl, rfl⟩
      · split
        · exact ⟨rfl, rfl, rfl⟩
        · next h => exact absurd rfl h


/-- The batch callback never touches the stacks or the capacity. -/
theorem batchGo_stacks (calls : List (String × Value)) :
    ∀ s : DoItState, (batchGo s calls).1.undoStack = s.undoStack ∧
      (batchGo s calls).1.redoStack = s.redoStack ∧
      (batchGo s calls).1.maxHistory = s.maxHistory := by
  induction calls with
  | nil => intro s; exact ⟨rfl, rfl, rfl⟩
  | cons c rest ih =>
    obtain ⟨p, v⟩ := c
    intro s
    have hd := doitSet_internal_stacks s p v
    unfold batchGo
    split
    · next s2 u heq =>
      have h1 : (doitSet s p v true).1 = s2 := congrArg Prod.fst heq
      rw [← h1]
      exact hd
    · next s2 heq =>
      have h1 : (doitSet s p v true).1 = s2 := congrArg Prod.fst heq
      rw [h1] at hd
      obtain ⟨i1, i2, i3⟩ := ih s2
      exact ⟨i1.trans hd.1, i2.trans hd.2.1, i3.trans hd.2.2⟩
    · next s2 u r heq =>
      have h1 : (doitSet s p v true).1 = s2 := congrArg Prod.fst heq
      rw [h1] at hd
      split
      · next s3 us rs threw heq2 =>
        have h2 : (batchGo s2 rest).1 = s3 := congrArg Prod.fst heq2
        obtain ⟨i1, i2, i3⟩ := ih s2
        rw [h2] at i1 i2 i3
        exact ⟨i1.trans hd.1, i2.trans hd.2.1, i3.trans hd.2.2⟩


/-- The possible stack outcomes of a public `set`: untouched, or one
entry pushed with the redo stack cleared. -/
theorem doitSet_stack_cases (s : DoItState) (p : String) (v : Value) :
    ((doitSet s p v false).1.undoStack = s.undoStack ∧
     (doitSet s p v false).1.redoStack = s.redoStack ∧
     (doitSet s p v false).1.maxHistory = s.maxHistory) ∨
    (∃ e, (doitSet s p v false).1.undoStack = pushEntry s.undoStack e s.maxHistory ∧
      (doitSet s p v false).1.redoStack = [] ∧
      (doitSet s p v false).1.maxHistory = s.maxHistory) := by
  unfold doitSet
  split
  · exact Or.inl ⟨rfl, rfl, rfl⟩
  · split
    · exact Or.inl ⟨rfl, rfl, rfl⟩
    · split
      · exact Or.inl ⟨rfl, rfl, rfl⟩
      · split
        · next h => exact absurd h (by simp)
        · exact Or.inr ⟨_, rfl, rfl, rfl⟩


/-- The possible stack outcomes of a `batch`: untouched, or one entry
pushed with the redo stack cleared. -/
theorem doitBatch_stack_cases (s : DoItState) (calls : List (String × Value)) :
    ((doitBatch s calls).1.undoStack = s.undoStack ∧
     (doitBatch s calls).1.redoStack = s.redoStack ∧
     (doitBatch s calls).1.maxHistory = s.maxHistory) ∨
    (∃ e, (doitBatch s calls).1.undoStack = pushEntry s.undoStack e s.maxHistory ∧
      (doitBatch s calls).1.redoStack = [] ∧
      (doitBatch s calls).1.maxHistory = s.maxHistory) := by
  have hbs := batchGo_stacks calls s
  unfold doitBatch
  split
  · next s2 us rs heq =>
    have h1 : (batchGo s calls).1 = s2 := congrArg Prod.fst heq
    rw [← h1]
    exact Or.inl hbs
  · next s2 rs heq =>
    have h1 : (batchGo s calls).1 = s2 := congrArg Prod.fst heq
    rw [← h1]
    exact Or.inl hbs
  · next s2 us rs hne2 heq =>
    have h1 : (batchGo s calls).1 = s2 := congrArg Prod.fst heq
    rw [h1] at hbs
    right
    refine ⟨⟨Operation.batch us.reverse, Operation.batch rs⟩, ?_, rfl, ?_⟩
    · show pushEntry s2.undoStack _ s2.maxHistory = pushEntry s.undoStack _ s.maxHistory
      rw [hbs.1, hbs.2.2]
    · show s2.maxHistory = s.maxHistory
      exact hbs.2.2


/-- The history-sum invariant: along every reachable state the two
stacks together never exceed the capacity. -/
theorem reachable_inv (s : DoItState) (h : Reachable s) :
    s.undoStack.length + s.redoStack.length ≤ s.maxHistory := by
  induction h with
  | init v mh => exact Nat.zero_le _
  | set p v hs ih =>
    rename_i s0
    rcases doitSet_stack_cases s0 p v with ⟨h1, h2, h3⟩ | ⟨e, h1, h2, h3⟩
    · rw [h1, h2, h3]; exact ih
    · rw [h1, h2, h3]
      simp only [List.length_nil, Nat.add_zero]
      exact pushEntry_length_le s0.undoStack e s0.maxHistory (by omega)
  | batch calls hs ih =>
    rename_i s0
    rcases doitBatch_stack_cases s0 calls with ⟨h1, h2, h3⟩ | ⟨e, h1, h2, h3⟩
    · rw [h1, h2, h3]; exact ih
    · rw [h1, h2, h3]
      simp only [List.length_nil, Nat.add_zero]
      exact pushEntry_length_le s0.undoStack e s0.maxHistory (by omega)
  | undo hs ih =>
    rename_i s0
    unfold doitUndo
    split
    · exact ih
    · next e heq =>
      have hne : s0.undoStack ≠ [] := ne_nil_of_getLast?_eq_some _ _ heq
      have hpos : 0 < s0.undoStack.length := List.length_pos.mpr hne
      split
      · simp only [List.length_dropLast]
        omega
      · simp only [List.length_dropLast, List.length_append, List.length_singleton]
        omega
  | redo hs ih =>
    rename_i s0
    unfold doitRedo
    split
    · exact ih
    · next e heq =>
      have hne : s0.redoStack ≠ [] := ne_nil_of_getLast?_eq_some _ _ heq
      have hpos : 0 < s0.redoStack.length := List.length_pos.mpr hne
      split
      · simp only [List.length_dropLast]
        omega
      · simp only [List.length_dropLast, List.length_append, List.length_singleton]
        omega
  | clearHistory hs ih => exact Nat.zero_le _


/-- **C8**: in every store state reachable through the public API both
stacks are bounded by `maxHistory`, and pushing onto an undo stack
already at capacity evicts the bottom (oldest) entry, keeping the
length at `maxHistory`. -/
theorem c8_history_capacity (s : DoItState) (h : Reachable s) :
    s.undoStack.length ≤ s.maxHistory ∧
    s.redoStack.length ≤ s.maxHistory ∧
    (∀ e : HistoryEntry, s.undoStack.length = s.maxHistory → 0 < s.maxHistory →
      pushEntry s.undoStack e s.maxHistory = s.undoStack.drop 1 ++ [e] ∧
      (pushEntry s.undoStack e s.maxHistory).length = s.maxHistory) := by
  have hsum := reachable_inv s h
  refine ⟨by omega, by omega, ?_⟩
  intro e hlen hpos
  have hne : s.undoStack ≠ [] := by
    intro hnil
    rw [hnil] at hlen
    simp at hlen
    omega
  have hev : pushEntry s.undoStack e s.maxHistory = s.undoStack.drop 1 ++ [e] := by
    show (if s.maxHistory < (s.undoStack ++ [e]).length then (s.undoStack ++ [e]).drop 1
          else s.undoStack ++ [e]) = _
    rw [if_pos (by simp only [List.length_append, List.length_singleton]; omega)]
    exact drop_one_append s.undoStack [e] hne
  refine ⟨hev, ?_⟩
  rw [hev]
  simp only [List.length_append, List.length_drop, List.length_singleton]
  omega


/-- Witness for C8 just past capacity: `maxHistory = 1`, one entry in
the undo stack after a set. -/
theorem c8_history_capacity_witness :
    (doitSet (mkDoIt (Value.obj [("a", Value.num 1)]) (some 1))
        "a" (Value.num 2) false).1.undoStack.length ≤
      (doitSet (mkDoIt (Value.obj [("a", Value.num 1)]) (some 1))
        "a" (Value.num 2) false).1.maxHistory ∧
    (doitSet (mkDoIt (Value.obj [("a", Value.num 1)]) (some 1))
        "a" (Value.num 2) false).1.redoStack.length ≤
      (doitSet (mkDoIt (Value.obj [("a", Value.num 1)]) (some 1))
        "a" (Value.num 2) false).1.maxHistory ∧
    (∀ e : HistoryEntry,
      (doitSet (mkDoIt (Value.obj [("a", Value.num 1)]) (some 1))
          "a" (Value.num 2) false).1.undoStack.length =
        (doitSet (mkDoIt (Value.obj [("a", Value.num 1)]) (some 1))
          "a" (Value.num 2) false).1.maxHistory →
      0 < (doitSet (mkDoIt (Value.obj [("a", Value.num 1)]) (some 1))
          "a" (Value.num 2) false).1.maxHistory →
      pushEntry (doitSet (mkDoIt (Value.obj [("a", Value.num 1)]) (some 1))
          "a" (Value.num 2) false).1.undoStack e
          (doitSet (mkDoIt (Value.obj [("a", Value.num 1)]) (some 1))
            "a" (Value.num 2) false).1.maxHistory =
        (doitSet (mkDoIt (Value.obj [("a", Value.num 1)]) (some 1))
          "a" (Value.num 2) false).1.undoStack.drop 1 ++ [e] ∧
      (pushEntry (doitSet (mkDoIt (Value.obj [("a", Value.num 1)]) (some 1))
          "a" (Value.num 2) false).1.undoStack e
          (doitSet (mkDoIt (Value.obj [("a", Value.num 1)]) (some 1))
            "a" (Value.num 2) false).1.maxHistory).length =
        (doitSet (mkDoIt (Value.obj [("a", Value.num 1)]) (some 1))
          "a" (Value.num 2) false).1.maxHistory) :=
  c8_history_capacity
    (doitSet (mkDoIt (Value.obj [("a", Value.num 1)]) (some 1)) "a" (Value.num 2) false).1
    (Reachable.set "a" (Value.num 2)
      (Reachable.init (Value.obj [("a", Value.num 1)]) (some 1)))


/- ### Claim C9: undo/redo mechanics -/

/-- `DoIt.redo` when the top entry's redo applies without throwing. -/
theorem doitRedo_apply (s : DoItState) (e : HistoryEntry) (t2 : Value)
    (hl : s.redoStack.getLast? = some e)
    (ha : applyOperation s.state e.redo = (t2, false)) :
    doitRedo s = ({ s with
        state := t2
        redoStack := s.redoStack.dropLast
        undoStack := s.undoStack ++ [e]
        notifyCount := s.notifyCount + 1 },
      Except.ok true) := by
  unfold doitRedo
  rw [hl]
  simp only [ha]


/-- **C9**: `undo()` returns `false` exactly on an empty undo stack,
leaving the store untouched with no notification; otherwise (when the
popped entry's undo operation applies without throwing) it pops the top
entry, applies its undo to the tree, pushes the entry onto the redo
stack, notifies once and returns `true`; `redo()` behaves symmetrically
with the entry's redo operation and the stacks swapped. -/
theorem c9_undo_redo (s : DoItState) :
    (s.undoStack = [] → doitUndo s = (s, Except.ok false)) ∧
    (∀ (e : HistoryEntry) (t2 : Value), s.undoStack.getLast? = some e →
      applyOperation s.state e.undo = (t2, false) →
      doitUndo s = ({ s with
          state := t2
          undoStack := s.undoStack.dropLast
          redoStack := s.redoStack ++ [e]
          notifyCount := s.notifyCount + 1 },
        Except.ok true)) ∧
    (s.redoStack = [] → doitRedo s = (s, Except.ok false)) ∧
    (∀ (e : HistoryEntry) (t2 : Value), s.redoStack.getLast? = some e →
      applyOperation s.state e.redo = (t2, false) →
      doitRedo s = ({ s with
          state := t2
          redoStack := s.redoStack.dropLast
          undoStack := s.undoStack ++ [e]
          notifyCount := s.notifyCount + 1 },
        Except.ok true)) := by
  refine ⟨?_, ?_, ?_, ?_⟩
  · intro h
    unfold doitUndo
    rw [h]
    rfl
  · intro e t2 hl ha
    exact doitUndo_apply s e t2 hl ha
  · intro h
    unfold doitRedo
    rw [h]
    rfl
  · intro e t2 hl ha
    exact doitRedo_apply s e t2 hl ha


/-- Witness for C9: undoing `set('config.valid', false)` from the test
suite's replace scenario moves the entry to the redo stack and restores
the tree. -/
theorem c9_undo_redo_witness :
    doitUndo
      { state := Value.obj [("config", Value.obj [("valid", Value.bool false)])]
        undoStack := [⟨Operation.set "config.valid" (Value.bool true),
                       Operation.set "config.valid" (Value.bool false)⟩]
        redoStack := []
        maxHistory := 100
        notifyCount := 1 } =
    ({ state := Value.obj [("config", Value.obj [("valid", Value.bool true)])]
       undoStack := []
       redoStack := [⟨Operation.set "config.valid" (Value.bool true),
                      Operation.set "config.valid" (Value.bool false)⟩]
       maxHistory := 100
       notifyCount := 2 }, Except.ok true) :=
  (c9_undo_redo
    { state := Value.obj [("config", Value.obj [("valid", Value.bool false)])]
      undoStack := [⟨Operation.set "config.valid" (Value.bool true),
                     Operation.set "config.valid" (Value.bool false)⟩]
      redoStack := []
      maxHistory := 100
      notifyCount := 1 }).2.1
    ⟨Operation.set "config.valid" (Value.bool true),
     Operation.set "config.valid" (Value.bool false)⟩
    (Value.obj [("config", Value.obj [("valid", Value.bool true)])])
    (by rfl) (by rfl)


end DoItModel
